import Mathlib

/-!
# A shallow embedding of `src/mm_allocator.c`

The allocator manages a contiguous heap of boundary-tagged blocks and fifteen
segregated LIFO free lists (`l01` .. `l15`).  We model the heap at the block
level:

* A 32-bit boundary-tag word `PACK(size, prev<<2, alloc)` is represented by the
  triple `HW` (size field, prev-allocated bit, allocated bit); the projections
  `GET_SIZE`, `PREVX`, `GET_ALLOC` are the three fields.  All sizes written by
  the program are multiples of 8, so the bit fields never overlap.
* A block is `Blk`: its payload address (`bp` in the C code), its header triple
  and, when the word at the footer slot of its extent has been written by the
  program, the footer triple (`ftr = none` models a footer slot holding
  unwritten payload garbage; the program never reads such a slot).
* The heap layout is the address-ordered list `St.blocks` of the blocks strictly
  between the prologue and the epilogue, together with the epilogue header's
  prev-allocated bit `St.epiPv` (the epilogue has size 0 and allocated bit 1
  throughout).  The prologue payload sits at address 8, so the first real
  block's payload is at address 16 and consecutive payload addresses differ by
  the block size, mirroring `NEXT_BLKP`/`PREV_BLKP`.
* The fifteen list-head globals `l01` .. `l15` and the chain of link words
  stored in the free blocks' payloads are represented by `St.ls`, a list of
  fifteen lists of payload addresses (`St.ls[c-1]` is the chain hanging off
  `l0c`).  This is faithful as long as every free block is at least 16 bytes,
  so that the 8-byte link word fits inside the payload; the development records
  where this matters.
* `mem_sbrk` is modelled by the remaining capacity `St.cap`: a request of
  `size` bytes succeeds exactly when `size ≤ cap`.
* `heap_listp == 0` (the lazy-initialization test in `malloc`/`free`) is the
  flag `St.initDone`.

Pointer reads such as `GET_SIZE(HDRP(p))` become lookups of the block whose
payload address is `p`; pointer writes become surgery on `St.blocks`.  Where
the C code computes an address arithmetically (e.g. `NEXT_BLKP`), the model
computes the same arithmetic on addresses.
-/

set_option maxHeartbeats 1000000

namespace MM

/-- A boundary-tag word `PACK(size, prev<<2, alloc)`:
`sz` is the size field (`GET_SIZE`), `pv` the prev-allocated bit (`PREVX`),
`al` the allocated bit (`GET_ALLOC`). -/
structure HW where
  sz : Nat
  pv : Bool
  al : Bool
deriving DecidableEq, Repr

instance : Inhabited HW := ⟨⟨0, false, false⟩⟩

/-- A heap block: payload address `addr` (the C block pointer `bp`), the header
word's three fields, and the current content of the word at its footer slot
(`none` when that slot holds unwritten payload bytes). -/
structure Blk where
  addr : Nat
  size : Nat
  pv : Bool
  al : Bool
  ftr : Option HW
deriving DecidableEq, Repr

instance : Inhabited Blk := ⟨⟨0, 0, false, false, none⟩⟩

/-- The allocator state: lazy-init flag (`heap_listp == 0`), the blocks between
prologue and epilogue in address order, the epilogue header's prev-allocated
bit, the fifteen free lists (`ls[c-1]` is list `l0c`), and the remaining
`mem_sbrk` capacity in bytes. -/
structure St where
  initDone : Bool
  blocks : List Blk
  epiPv : Bool
  ls : List (List Nat)
  cap : Nat
deriving DecidableEq, Repr

/-- List-class boundaries `num01` .. `num14` from the source. -/
def num01 : Nat := 12
def num02 : Nat := 16
def num03 : Nat := 20
def num04 : Nat := 64
def num05 : Nat := 112
def num06 : Nat := 120
def num07 : Nat := 256
def num08 : Nat := 448
def num09 : Nat := 512
def num10 : Nat := 1024
def num11 : Nat := 2048
def num12 : Nat := 3072
def num13 : Nat := 4096
def num14 : Nat := 8192

/-- The guard of class `c`'s branch in the `insertx`/`deletex`/`find_fit`
cascades: `≤`-tests for ordinary classes, equality for the singleton classes 4
and 5, unconditional for the final class 15. -/
def clPred (sz : Nat) (c : Nat) : Bool :=
  match c with
  | 1 => decide (sz ≤ num01)
  | 2 => decide (sz ≤ num02)
  | 3 => decide (sz ≤ num03)
  | 4 => decide (sz = num04)
  | 5 => decide (sz = num05)
  | 6 => decide (sz ≤ num06)
  | 7 => decide (sz ≤ num07)
  | 8 => decide (sz ≤ num08)
  | 9 => decide (sz ≤ num09)
  | 10 => decide (sz ≤ num10)
  | 11 => decide (sz ≤ num11)
  | 12 => decide (sz ≤ num12)
  | 13 => decide (sz ≤ num13)
  | 14 => decide (sz ≤ num14)
  | _ => true

/-- The class selected by the `insertx` cascade for a block of size `sz`
(the first class whose guard holds). -/
def classOf (sz : Nat) : Nat :=
  if sz ≤ num01 then 1
  else if sz ≤ num02 then 2
  else if sz ≤ num03 then 3
  else if sz = num04 then 4
  else if sz = num05 then 5
  else if sz ≤ num06 then 6
  else if sz ≤ num07 then 7
  else if sz ≤ num08 then 8
  else if sz ≤ num09 then 9
  else if sz ≤ num10 then 10
  else if sz ≤ num11 then 11
  else if sz ≤ num12 then 12
  else if sz ≤ num13 then 13
  else if sz ≤ num14 then 14
  else 15

/-- The classes in cascade order. -/
def classSeq : List Nat := [1, 2, 3, 4, 5, 6, 7, 8, 9, 10, 11, 12, 13, 14, 15]

/-- List `l0c` of the state (classes are numbered 1..15). -/
def getCl (ls : List (List Nat)) (c : Nat) : List Nat := ls.getD (c - 1) []

/-- Replace list `l0c`. -/
def setCl (ls : List (List Nat)) (c : Nat) (v : List Nat) : List (List Nat) :=
  ls.set (c - 1) v

/-- Model of `insertx(bp, asize)`: prepend `bp` to the list selected by the cascade for
`asize` (each branch of the C cascade writes the old head into `bp`'s link
word and makes `bp` the new head). -/
def insertx (s : St) (a : Nat) (asize : Nat) : St :=
  { s with ls := setCl s.ls (classOf asize) (a :: getCl s.ls (classOf asize)) }

/-- The cascade of `deletex`: the branches are non-exclusive `if`s, so when the
block is not found in a class's list control falls through to the next class
whose guard accepts `asize`; the first list that does contain `bp` is spliced
(removing the first occurrence) and the function returns. -/
def delCascade (a : Nat) (asize : Nat) : List Nat → List (List Nat) → List (List Nat)
  | [], ls => ls
  | c :: cs, ls =>
    if clPred asize c = true ∧ a ∈ getCl ls c then
      setCl ls c ((getCl ls c).erase a)
    else delCascade a asize cs ls

/-- Model of `deletex(bp, asize)`. -/
def deletex (s : St) (a : Nat) (asize : Nat) : St :=
  { s with ls := delCascade a asize classSeq s.ls }

/-- Model of `GET_SIZE(HDRP(p))`: the size field of the header of the block whose
payload address is `p` (0 when `p` is not a block payload address; the program
only reads headers of genuine blocks). -/
def sizeAt (s : St) (a : Nat) : Nat :=
  match s.blocks.find? (fun b => decide (b.addr = a)) with
  | some b => b.size
  | none => 0

/-- One class of the `find_fit` cascade, then the rest: if the guard accepts
`asize`, first-fit scan the class's list for a block whose stored header size
is at least `asize`; otherwise, or when the scan fails, fall through. -/
def ffCascade (s : St) (asize : Nat) : List Nat → Option Nat
  | [] => none
  | c :: cs =>
    if clPred asize c = true then
      match (getCl s.ls c).find? (fun a => decide (asize ≤ sizeAt s a)) with
      | some a => some a
      | none => ffCascade s asize cs
    else ffCascade s asize cs

/-- Model of `find_fit(asize)`. -/
def find_fit (s : St) (asize : Nat) : Option Nat := ffCascade s asize classSeq

/-- Index of the block with payload address `a` in the address-ordered block
list. -/
def idxAt (s : St) (a : Nat) : Option Nat :=
  s.blocks.findIdx? (fun b => decide (b.addr = a))

/-- Model of `PUT(HDRP(NEXT_BLKP(bp)), PACK(GET_SIZE, 4, GET_ALLOC))` followed by the
footer refresh when that block is free — the downstream prev-allocated-bit
update used by `place`.  When the block at index `j` does not exist the next
header is the epilogue's. -/
def setPvTrue (s : St) (j : Nat) : St :=
  match s.blocks.get? j with
  | some b =>
    let b2 := { b with pv := true, ftr := if b.al then b.ftr else some ⟨b.size, true, false⟩ }
    { s with blocks := s.blocks.set j b2 }
  | none => { s with epiPv := true }

/-- Model of `coalesce(bp)`: boundary-tag coalescing.  `prev_alloc` is the prev-allocated
bit of `bp`'s header, `next_alloc` the allocated bit of the next block's header
(the epilogue, allocated, when `bp` is the last block).  The previous block is
located through the footer word stored at `bp - 8` (`PREV_BLKP`), and in case 4
the next block's size is read from its footer (`FTRP(NEXT_BLKP(bp))`), exactly
as in the source.  Returns the new state and the coalesced block pointer. -/
def coalesce (s : St) (p : Nat) : St × Nat :=
  match idxAt s p with
  | none => (s, p)
  | some i =>
    let b := s.blocks.getD i default
    let prevAl := b.pv
    let nextAl := match s.blocks.get? (i + 1) with
      | some nb => nb.al
      | none => true
    let size := b.size
    if prevAl && nextAl then
      (insertx s p size, p)
    else if prevAl && !nextAl then
      -- Case 2: merge with the next block
      let k := (s.blocks.getD (i + 1) default).size
      let s1 := deletex s (p + size) k
      let merged : Blk := ⟨p, size + k, true, false, some ⟨size + k, true, false⟩⟩
      let bs2 := s1.blocks.take i ++ merged :: s1.blocks.drop (i + 2)
      let s2 := { s1 with blocks := bs2 }
      (insertx s2 p (size + k), p)
    else if !prevAl && nextAl then
      -- Case 3: merge with the previous block, located via the footer at bp-8
      let fw := (s.blocks.getD (i - 1) default).ftr.getD default
      let pa := p - fw.sz
      let k := sizeAt s pa
      let s1 := deletex s pa k
      let merged : Blk := ⟨pa, size + k, true, false, some ⟨size + k, true, false⟩⟩
      let bs2 := s1.blocks.take (i - 1) ++ merged :: s1.blocks.drop (i + 1)
      let s2 := { s1 with blocks := bs2 }
      (insertx s2 pa (size + k), pa)
    else
      -- Case 4: merge with both neighbours
      let fw := (s.blocks.getD (i - 1) default).ftr.getD default
      let pa := p - fw.sz
      let t1 := sizeAt s pa
      let t2 := ((s.blocks.getD (i + 1) default).ftr.getD default).sz
      let s1 := deletex s pa t1
      let s2 := deletex s1 (p + size) t2
      let tot := size + t1 + t2
      let merged : Blk := ⟨pa, tot, true, false, some ⟨tot, true, false⟩⟩
      let bs3 := s2.blocks.take (i - 1) ++ merged :: s2.blocks.drop (i + 2)
      let s3 := { s2 with blocks := bs3 }
      (insertx s3 pa tot, pa)

/-- Model of `place(bp, asize)`: remove `bp` from the lists (passing `asize`), then
either split — allocation at the head for `asize < 120`, at the tail otherwise
— or hand out the whole block.  Returns the new state and the returned block
pointer.

In the C source the split computes `xxx = NEXT_BLKP(bp)` after rewriting
`bp`'s header to `asize`; when `asize = 0` (reachable through the size_t wrap
in `malloc`) that lands back on `bp` itself and the residual header overwrites
the just-written allocation header, restoring a single free block of the
original size — the `asize = 0` branch below mirrors that aliasing.  The
subtraction `csize - asize` is `size_t` subtraction; `place` is only invoked
with `asize ≤ csize`, where it agrees with truncated subtraction on `Nat`. -/
def place (s : St) (p : Nat) (asize : Nat) : St × Nat :=
  match idxAt s p with
  | none => (s, p)
  | some i =>
    let b := s.blocks.getD i default
    let csize := b.size
    let checkprev := b.pv
    let s1 := deletex s p asize
    if 16 ≤ csize - asize then
      if asize < 120 then
        if asize = 0 then
          -- the residual header overwrites the allocation header at the same word
          let bs2 := s1.blocks.set i ⟨p, csize, true, false, some ⟨csize, true, false⟩⟩
          let s2 := { s1 with blocks := bs2 }
          (insertx s2 p csize, p)
        else
          let residual : Blk :=
            ⟨p + asize, csize - asize, true, false, some ⟨csize - asize, true, false⟩⟩
          let headA : Blk := ⟨p, asize, checkprev, true, none⟩
          let bs2 := s1.blocks.take i ++ headA :: residual :: s1.blocks.drop (i + 1)
          let s2 := { s1 with blocks := bs2 }
          (insertx s2 (p + asize) (csize - asize), p)
      else
        let headB : Blk :=
          ⟨p, csize - asize, checkprev, false, some ⟨csize - asize, checkprev, false⟩⟩
        let tailB : Blk := ⟨p + (csize - asize), asize, false, true, none⟩
        let bs2 := s1.blocks.take i ++ headB :: tailB :: s1.blocks.drop (i + 1)
        let s2 := { s1 with blocks := bs2 }
        let s3 := insertx s2 p (csize - asize)
        (setPvTrue s3 (i + 2), p + (csize - asize))
    else
      let bs2 := s1.blocks.set i ⟨p, csize, checkprev, true, some ⟨csize, checkprev, true⟩⟩
      let s2 := { s1 with blocks := bs2 }
      (setPvTrue s2 (i + 1), p)

/-- The payload address just past the last block — where the epilogue header's
payload would start and where a newly sbrk'd block lands. -/
def heapTop (s : St) : Nat :=
  match s.blocks.getLast? with
  | some b => b.addr + b.size
  | none => 16

/-- Model of `extend_heap(words)`: round the word count up to even, request the bytes
from `mem_sbrk` (fails when the remaining capacity is exceeded), write the new
free block's header and footer with the old epilogue's prev-allocated bit,
write a fresh epilogue with prev-allocated clear, and coalesce. -/
def extend_heap (s : St) (words : Nat) : St × Option Nat :=
  let size := (if words % 2 = 1 then words + 1 else words) * 4
  if s.cap < size then (s, none)
  else
    let a := heapTop s
    let checkprev := s.epiPv
    let nb : Blk := ⟨a, size, checkprev, false, some ⟨size, checkprev, false⟩⟩
    let s1 := { s with blocks := s.blocks ++ [nb], epiPv := false, cap := s.cap - size }
    let r := coalesce s1 a
    (r.1, some r.2)

/-- The fifteen cleared list heads. -/
def freshLists : List (List Nat) := List.replicate 15 []

/-- Model of `mm_init`: clear the list heads, lay down padding, prologue and epilogue
(4 words from `mem_sbrk`), then extend the heap by `CHUNKSIZE` bytes.  When the
initial 16-byte request fails the C code leaves `heap_listp` unusable and
returns -1; the callers ignore the result, so we model that case as an
initialized state with an empty heap (all further requests fail). -/
def mm_init (s : St) : St :=
  let s1 := { s with ls := freshLists, blocks := [], epiPv := true, initDone := true }
  if s1.cap < 16 then s1
  else (extend_heap { s1 with cap := s1.cap - 16 } 1024).1

/-- The adjusted block size computed by `malloc`: 16 when the request is at
most `DSIZE`, otherwise `DSIZE * ((WSIZE + size + DSIZE-1) / DSIZE)` in
`size_t` arithmetic (the sum wraps modulo `2^64`). -/
def asizeOf (n : Nat) : Nat :=
  if n ≤ 8 then 16 else 8 * (((4 + n + 7) % 2 ^ 64) / 8)

/-- Model of `malloc(size)`: lazy heap initialization, rejection of zero-size requests,
size adjustment, `find_fit`, and on failure an extension by
`MAX(asize, CHUNKSIZE)` bytes; a found or freshly extended block is passed to
`place`. -/
def mm_malloc (s0 : St) (n : Nat) : St × Option Nat :=
  let s := if s0.initDone then s0 else mm_init s0
  if n = 0 then (s, none)
  else
    let asize := asizeOf n
    match find_fit s asize with
    | some bp =>
      let r := place s bp asize
      (r.1, some r.2)
    | none =>
      let extendsize := max asize 4096
      match extend_heap s (extendsize / 4) with
      | (s1, none) => (s1, none)
      | (s1, some bp) =>
        let r := place s1 bp asize
        (r.1, some r.2)

/-- Model of `free(ptr)`: ignore NULL, lazily initialize, rewrite the block's header and
footer as free with the prev-allocated bit preserved, clear the following
block's prev-allocated bit (rewriting its footer as well when it is free, and
the epilogue header when the block is last), then coalesce.  The behaviour on
a pointer that is not a block payload address is undefined in the design; the
model leaves the heap unchanged there. -/
def mm_free (s0 : St) (p : Nat) : St :=
  if p = 0 then s0
  else
    let s := if s0.initDone then s0 else mm_init s0
    match idxAt s p with
    | none => s
    | some i =>
      let b := s.blocks.getD i default
      let size := b.size
      let checkprev := b.pv
      let bs1 := s.blocks.set i ⟨p, size, checkprev, false, some ⟨size, checkprev, false⟩⟩
      let s1 := { s with blocks := bs1 }
      let s2 :=
        match s1.blocks.get? (i + 1) with
        | some nb =>
          if nb.al then
            let nb2 := { nb with pv := false }
            { s1 with blocks := s1.blocks.set (i + 1) nb2 }
          else
            let nb2 := { nb with pv := false, ftr := some ⟨nb.size, false, false⟩ }
            { s1 with blocks := s1.blocks.set (i + 1) nb2 }
        | none => { s1 with epiPv := false }
      (coalesce s2 p).1

/-- Model of `realloc(oldptr, size)`.  The second component is the returned pointer, the
third the number of bytes passed to `memcpy` (the payload bytes themselves are
not modelled): the C code copies `min(size, GET_SIZE(HDRP(oldptr)))` bytes,
reading the old block's header after the new allocation. -/
def mm_realloc (s : St) (p : Nat) (n : Nat) : St × Option Nat × Option Nat :=
  if n = 0 then (mm_free s p, none, none)
  else if p = 0 then
    let r := mm_malloc s n
    (r.1, r.2, none)
  else
    let r := mm_malloc s n
    match r.2 with
    | none => (r.1, none, none)
    | some np =>
      let oldsize := sizeAt r.1 p
      let copied := if n < oldsize then n else oldsize
      (mm_free r.1 p, some np, some copied)

/-- The `memset` call issued by `calloc`: the pointer argument (`none` models
NULL) and the byte count.  The C code performs this call unconditionally,
without checking that the allocation succeeded. -/
structure MemsetCall where
  target : Option Nat
  len : Nat
deriving DecidableEq, Repr

/-- Model of `calloc(nmemb, size)`: allocate `nmemb * size` bytes (`size_t`
multiplication, wrapping modulo `2^64`) and zero them.  Returns the state, the
returned pointer, and the `memset` call performed. -/
def mm_calloc (s : St) (nmemb : Nat) (n : Nat) : St × Option Nat × MemsetCall :=
  let bytes := nmemb * n % 2 ^ 64
  let r := mm_malloc s bytes
  (r.1, r.2, ⟨r.2, bytes⟩)

/-- A wholly fresh state: `heap_listp` and all list heads are 0 and the page
provider still has `cap` bytes available. -/
def freshSt (cap : Nat) : St :=
  ⟨false, [], true, freshLists, cap⟩

/-- The prologue block: size `DSIZE`, allocated, prev-allocated set, header
duplicated in its footer. -/
def prologue : Blk := ⟨8, 8, true, true, some ⟨8, true, true⟩⟩

/-- Result of the block walk of `mm_checkheap`: whether the walk completed
without calling `exit(0)`, and the free-block count it accumulated. -/
structure ChkRes where
  ok : Bool
  cnt : Nat
deriving DecidableEq, Repr

/-- The block walk of `mm_checkheap`, from the prologue toward the epilogue:
alignment check, termination on a zero size, and — only when `lineno` is
nonzero — the consecutive-free check, the free-block count, and the
header/footer comparison on free blocks. -/
def walkGo (lineno : Nat) : List Blk → Bool → Nat → ChkRes
  | [], _, cnt => ⟨true, cnt⟩
  | b :: bs, mark, cnt =>
    if b.addr % 8 ≠ 0 then ⟨false, cnt⟩
    else if b.size = 0 then ⟨true, cnt⟩
    else if lineno ≠ 0 then
      if b.al then walkGo lineno bs true cnt
      else
        if mark = false then ⟨false, cnt⟩
        else if b.ftr ≠ some ⟨b.size, b.pv, false⟩ then ⟨false, cnt + 1⟩
        else walkGo lineno bs false (cnt + 1)
    else walkGo lineno bs mark cnt

/-- The in-heap test applied to every list member during the list walks. -/
def inHeap (s : St) (a : Nat) : Bool := decide (a ≤ heapTop s)

/-- Model of `mm_checkheap(lineno)`: the prologue checks, the block walk, the fifteen
list walks (aborting on an out-of-heap member; the class-bound checks only
print), and the final comparison of the two free-block counts.  Returns
`true` when the checker runs to completion and `false` when it calls
`exit(0)`. -/
def mm_checkheap (s : St) (lineno : Nat) : Bool :=
  let w := walkGo lineno (prologue :: s.blocks) true 0
  if w.ok = false then false
  else if (classSeq.all fun c => (getCl s.ls c).all fun a => inHeap s a) = false then false
  else
    let cnt1 := (classSeq.map fun c => (getCl s.ls c).length).sum
    decide (w.cnt = cnt1)

/-! ## The heap invariants (spec §3, I1–I8), as executable checks -/

/-- Block addresses are contiguous starting from `a` (the boundary-tag chain:
each payload address is the previous one plus the previous block's stored
size). -/
def chainB : Nat → List Blk → Bool
  | _, [] => true
  | a, b :: bs => decide (b.addr = a) && chainB (a + b.size) bs

/-- I1/I2: every block's size is a multiple of 8 and at least 16. -/
def sizesB (bs : List Blk) : Bool :=
  bs.all fun b => decide (16 ≤ b.size) && decide (b.size % 8 = 0)

/-- I3: every free block's footer slot holds a copy of its header. -/
def ftrB (bs : List Blk) : Bool :=
  bs.all fun b => b.al || decide (b.ftr = some ⟨b.size, b.pv, false⟩)

/-- I4, within the block list: each block's prev-allocated bit equals the
allocated bit of the block before it; `prevAl` is the allocated bit of the
block preceding the list (the prologue for the whole heap). -/
def pvOk : Bool → List Blk → Bool
  | _, [] => true
  | prevAl, b :: bs => decide (b.pv = prevAl) && pvOk b.al bs

/-- The allocated bit of the last block, `prevAl` when the list is empty —
what the epilogue's prev-allocated bit must equal. -/
def endAl : Bool → List Blk → Bool
  | prevAl, [] => prevAl
  | _, b :: bs => endAl b.al bs

/-- I5: no two physically adjacent blocks are both free; `prevAl` is the
allocated bit of the block preceding the list. -/
def adjOk : Bool → List Blk → Bool
  | _, [] => true
  | prevAl, b :: bs => (prevAl || b.al) && adjOk b.al bs

/-- All fifteen free lists, concatenated. -/
def joinLs (s : St) : List Nat := s.ls.flatten

/-- I6/I7 (one direction): every list member is the address of a free block
whose size selects that very class. -/
def listedB (s : St) : Bool :=
  classSeq.all fun c =>
    (getCl s.ls c).all fun a =>
      s.blocks.any fun b =>
        decide (b.addr = a) && !b.al && decide (classOf b.size = c)

/-- I6 (other direction): every free block appears in the list of its class. -/
def freeListedB (s : St) : Bool :=
  s.blocks.all fun b => b.al || decide (b.addr ∈ getCl s.ls (classOf b.size))

/-- The full well-formedness of a heap state: fifteen lists, the boundary-tag
chain from payload address 16, block sizes, footers of free blocks (I3), the
prev-allocated bits including the epilogue's (I4, I8), eager coalescing (I5),
and the free-list invariants (I6, I7) with no address listed twice. -/
def wfB (s : St) : Bool :=
  decide (s.ls.length = 15) && chainB 16 s.blocks && sizesB s.blocks &&
    ftrB s.blocks && pvOk true s.blocks && decide (s.epiPv = endAl true s.blocks) &&
    adjOk true s.blocks && listedB s && freeListedB s && decide (joinLs s).Nodup

/-- A well-formed heap state. -/
def Wf (s : St) : Prop := wfB s = true

/-- The addresses of the currently allocated blocks. -/
def allocAddrs (s : St) : List Nat :=
  (s.blocks.filter fun b => b.al).map Blk.addr

/-- Record a returned pointer as an outstanding allocation. -/
def pushH (H : List Nat) : Option Nat → List Nat
  | some p => p :: H
  | none => H

/-- Outstanding-allocation bookkeeping of `realloc(p, n)` returning `r`. -/
def rHandles (H : List Nat) (p : Nat) (r : Option Nat) (n : Nat) : List Nat :=
  if n = 0 then H.erase p
  else if p = 0 then pushH H r
  else
    match r with
    | none => H
    | some np => np :: H.erase p

/-- The states reachable from a wholly fresh heap by client call sequences:
`allocate` and `reallocate` with request sizes that do not overflow the
`size_t` size adjustment (`n + 12 ≤ 2^64`), and `release`/`reallocate` applied
only to pointers previously returned and not yet released (the second
component tracks the outstanding pointers).  The starting capacity covers at
least the 16 bootstrap bytes of `mm_init`. -/
inductive Reach : St → List Nat → Prop where
  | start (cap : Nat) (h : 16 ≤ cap) : Reach (freshSt cap) []
  | alloc (s : St) (H : List Nat) (n : Nat) (hr : Reach s H) (hn : n + 12 ≤ 2 ^ 64) :
      Reach (mm_malloc s n).1 (pushH H (mm_malloc s n).2)
  | release (s : St) (H : List Nat) (p : Nat) (hr : Reach s H) (hp : p ∈ H) :
      Reach (mm_free s p) (H.erase p)
  | changeSize (s : St) (H : List Nat) (p n : Nat) (hr : Reach s H)
      (hp : p ∈ H ∨ p = 0) (hn : n + 12 ≤ 2 ^ 64) :
      Reach (mm_realloc s p n).1 (rHandles H p (mm_realloc s p n).2.1 n)

/-- Every outstanding pointer is the address of a distinct allocated block. -/
def handlesOK (s : St) (H : List Nat) : Prop :=
  H.Nodup ∧ ∀ p ∈ H, p ∈ allocAddrs s

instance decWf (s : St) : Decidable (Wf s) := inferInstanceAs (Decidable (wfB s = true))

/-- The spec's description of `find_fit` (§4.5): scan the classes whose guard
accepts `asize` in ascending order and return the first member block whose
stored size is at least `asize`.  Stated with `findSome?` over the filtered
class sequence, to be compared with the cascade `find_fit` of the source. -/
def findFitSpec (s : St) (asize : Nat) : Option Nat :=
  (classSeq.filter fun c => clPred asize c).findSome? fun c =>
    (getCl s.ls c).find? fun a => decide (asize ≤ sizeAt s a)

/-! ## A concrete client session exercising the `size_t` wrap in `malloc`

Starting from a fresh heap with 4112 capacity bytes (16 bootstrap bytes plus
one 4096-byte chunk), the client allocates 84 bytes (pointer 16), then requests
`2^64 - 5` bytes: the size adjustment wraps to 0, `find_fit(0)` hands `place`
the 4008-byte free block at 104, and `place` re-frees it in place and returns
it — `malloc` returns pointer 104 although that block is still free and still
on list 13.  The client then releases 104 (the pointer it was just handed),
allocates 3996 bytes (served again at 104, leaving a stale copy of 104 on
list 13), and releases 16.  Each release targets the pointer most recently
returned for it. -/
def cexS0 : St := freshSt 4112
def cexR1 : St × Option Nat := mm_malloc cexS0 84
def cexR2 : St × Option Nat := mm_malloc cexR1.1 (2 ^ 64 - 5)
def cexS3 : St := mm_free cexR2.1 104
def cexR4 : St × Option Nat := mm_malloc cexS3 3996
def cexS5 : St := mm_free cexR4.1 16

/-- The payload address just past the blocks `bs` when they start at `a`. -/
def afterAddr : Nat → List Blk → Nat
  | a, [] => a
  | a, b :: bs => afterAddr (a + b.size) bs

structure WfParts (s : St) : Prop where
  len : s.ls.length = 15
  chain : chainB 16 s.blocks = true
  sizes : sizesB s.blocks = true
  ftrs : ftrB s.blocks = true
  pvs : pvOk true s.blocks = true
  epi : s.epiPv = endAl true s.blocks
  adjs : adjOk true s.blocks = true
  listed : listedB s = true
  freeL : freeListedB s = true
  nd : (joinLs s).Nodup

/-- What `place` guarantees: the result is well-formed, lazily-initialized
state flags survive, every allocated block survives with its address and size,
and the returned pointer is a freshly allocated address. -/
def PlaceOK (s : St) (r : St × Nat) : Prop :=
  Wf r.1 ∧ r.1.initDone = s.initDone ∧
  (∀ w ∈ s.blocks, w.al = true →
    ∃ w2 ∈ r.1.blocks, w2.addr = w.addr ∧ w2.al = true ∧ w2.size = w.size) ∧
  r.2 ∈ allocAddrs r.1 ∧ r.2 ∉ allocAddrs s

/-- The fresh free block written by `extend_heap`: placed at the old heap top,
sized to the even-rounded word count, carrying the old epilogue's
prev-allocated bit in header and footer. -/
def extBlk (s : St) (w : Nat) : Blk :=
  let sz := (if w % 2 = 1 then w + 1 else w) * 4
  ⟨heapTop s, sz, s.epiPv, false, some ⟨sz, s.epiPv, false⟩⟩

/-- The state after `mem_sbrk` inside `extend_heap`: the new block appended,
the fresh epilogue's prev-allocated bit clear, the capacity reduced. -/
def extSt (s : St) (w : Nat) : St :=
  let sz := (if w % 2 = 1 then w + 1 else w) * 4
  { s with blocks := s.blocks ++ [extBlk s w], epiPv := false, cap := s.cap - sz }

/-! ## Theorems -/

/-- C1, counterexample.  The claim quantifies over all heap states reachable by
client operation sequences; the session `cexS0 .. cexS5` above (every release
targets a pointer the preceding allocations returned) followed by
`malloc(92)` is such a sequence, and in its final state the prev-allocated bit
of the epilogue header is set although the block physically preceding the
epilogue (the residual split off the stale block 104) is free — the I4
equality fails, and the operation did not refresh the following header's
prev-allocated bit. -/
theorem c1_counterexample :
    cexR1.2 = some 16 ∧ cexR2.2 = some 104 ∧ cexR4.2 = some 104 ∧
    (mm_malloc cexS5 92).2 = some 104 ∧
    ((mm_malloc cexS5 92).1.blocks.getLast?).map Blk.al = some false ∧
    (mm_malloc cexS5 92).1.epiPv = true := by decide

/-- C2, counterexample.  The same session followed by `malloc(300)` reaches a
state in which the blocks at payload addresses 16 (size 88) and 104 are
physically adjacent and both free — the I5 invariant fails after a completed
`allocate` operation. -/
theorem c2_counterexample :
    (mm_malloc cexS5 300).2 = some 3808 ∧
    ((mm_malloc cexS5 300).1.blocks.get? 0).map Blk.addr = some 16 ∧
    ((mm_malloc cexS5 300).1.blocks.get? 0).map Blk.size = some 88 ∧
    ((mm_malloc cexS5 300).1.blocks.get? 0).map Blk.al = some false ∧
    ((mm_malloc cexS5 300).1.blocks.get? 1).map Blk.addr = some 104 ∧
    ((mm_malloc cexS5 300).1.blocks.get? 1).map Blk.al = some false := by decide

/-- C3, counterexample.  On the freshly initialized heap, `find_fit(120)`
selects the free block `bp = 16` of stored size 4096 (so `place` is invoked
exactly as the claim describes, with `asize = 120 ≤ csize`), yet after
`place(16, 120)` returns (returning the tail pointer 3992), the argument block
16 does appear in a free list: the `asize ≥ 120` split re-inserts `bp` itself
as the free residual.  Moreover the removal inside `place` passed `asize`
(120), not the size 4096 under which 16 had been inserted. -/
theorem c3_counterexample :
    find_fit (mm_init (freshSt 4112)) 120 = some 16 ∧
    (place (mm_init (freshSt 4112)) 16 120).2 = 3992 ∧
    16 ∈ joinLs (place (mm_init (freshSt 4112)) 16 120).1 := by decide

/-- C6, counterexample.  `allocate(10)` returns pointer 16 heading a block of
stored size 16.  `reallocate(16, 14)` then copies `min(14, 16) = 14` bytes —
the code takes the minimum against the full stored size `GET_SIZE(HDRP(p))` —
whereas the claim prescribes `min(14, 16 - 4) = 12` bytes (stored size minus
the 4-byte header overhead). -/
theorem c6_counterexample :
    (mm_malloc (freshSt 4112) 10).2 = some 16 ∧
    sizeAt (mm_malloc (freshSt 4112) 10).1 16 = 16 ∧
    (mm_realloc (mm_malloc (freshSt 4112) 10).1 16 14).2.2 = some 14 ∧
    (14 : Nat) ≠ min 14 (16 - 4) := by decide

/-- C7, code bug.  For the request `n = 2^64 - 5` the `size_t` sum
`WSIZE + size + (DSIZE-1)` wraps, so the adjusted size is computed as 0 instead
of `8 * ⌈(n+4)/8⌉`; on a fresh heap `malloc` then returns the non-NULL pointer
16 heading a block of stored size 4096 — far below the claimed bound `n + 4` —
and that block is even left free and still on its list. -/
theorem c7_overflow_bug :
    asizeOf (2 ^ 64 - 5) = 0 ∧
    (mm_malloc (freshSt 4112) (2 ^ 64 - 5)).2 = some 16 ∧
    sizeAt (mm_malloc (freshSt 4112) (2 ^ 64 - 5)).1 16 = 4096 ∧
    4096 < (2 ^ 64 - 5) + 4 ∧
    ((mm_malloc (freshSt 4112) (2 ^ 64 - 5)).1.blocks.get? 0).map Blk.al = some false := by
  decide

/-- C8, code bug.  After `allocate(4000)` exhausts the heap, the allocation
inside `zero_allocate(1, 5000)` fails (returns NULL), yet the code still
performs `memset(newptr, 0, 5000)`: the memset call recorded by the model has
a NULL target and a positive length, so the failure path does dereference the
failed result, contrary to the claim. -/
theorem c8_memset_on_null :
    (mm_calloc (mm_malloc (freshSt 4112) 4000).1 1 5000).2.1 = none ∧
    (mm_calloc (mm_malloc (freshSt 4112) 4000).1 1 5000).2.2 = ⟨none, 5000⟩ := by decide

/-- C9, counterexample.  The freshly initialized heap satisfies the full
invariant (`wfB`), yet `mm_checkheap` invoked with verbosity 0 aborts: the
free-block counter of the block walk is incremented only inside the
`if (lineno)` body, so it stays 0 while the list walks count the one free
block, and the final count-consistency check calls `exit(0)`. -/
theorem c9_counterexample :
    wfB (mm_init (freshSt 4112)) = true ∧
    mm_checkheap (mm_init (freshSt 4112)) 0 = false := by decide

theorem classOf_eq_1 (a : Nat)  (hk : a ≤ 12) : classOf a = 1 := by
  unfold classOf num01 num02 num03 num04 num05 num06 num07 num08 num09 num10 num11 num12 num13 num14
  rw [if_pos hk]

theorem classOf_eq_2 (a : Nat) (h1 : ¬ (a ≤ 12)) (hk : a ≤ 16) : classOf a = 2 := by
  unfold classOf num01 num02 num03 num04 num05 num06 num07 num08 num09 num10 num11 num12 num13 num14
  rw [if_neg h1, if_pos hk]

theorem classOf_eq_3 (a : Nat) (h1 : ¬ (a ≤ 12)) (h2 : ¬ (a ≤ 16)) (hk : a ≤ 20) : classOf a = 3 := by
  unfold classOf num01 num02 num03 num04 num05 num06 num07 num08 num09 num10 num11 num12 num13 num14
  rw [if_neg h1, if_neg h2, if_pos hk]

theorem classOf_eq_4 (a : Nat) (h1 : ¬ (a ≤ 12)) (h2 : ¬ (a ≤ 16)) (h3 : ¬ (a ≤ 20)) (hk : a = 64) : classOf a = 4 := by
  unfold classOf num01 num02 num03 num04 num05 num06 num07 num08 num09 num10 num11 num12 num13 num14
  rw [if_neg h1, if_neg h2, if_neg h3, if_pos hk]

theorem classOf_eq_5 (a : Nat) (h1 : ¬ (a ≤ 12)) (h2 : ¬ (a ≤ 16)) (h3 : ¬ (a ≤ 20)) (h4 : ¬ (a = 64)) (hk : a = 112) : classOf a = 5 := by
  unfold classOf num01 num02 num03 num04 num05 num06 num07 num08 num09 num10 num11 num12 num13 num14
  rw [if_neg h1, if_neg h2, if_neg h3, if_neg h4, if_pos hk]

theorem classOf_eq_6 (a : Nat) (h1 : ¬ (a ≤ 12)) (h2 : ¬ (a ≤ 16)) (h3 : ¬ (a ≤ 20)) (h4 : ¬ (a = 64)) (h5 : ¬ (a = 112)) (hk : a ≤ 120) : classOf a = 6 := by
  unfold classOf num01 num02 num03 num04 num05 num06 num07 num08 num09 num10 num11 num12 num13 num14
  rw [if_neg h1, if_neg h2, if_neg h3, if_neg h4, if_neg h5, if_pos hk]

theorem classOf_eq_7 (a : Nat) (h1 : ¬ (a ≤ 12)) (h2 : ¬ (a ≤ 16)) (h3 : ¬ (a ≤ 20)) (h4 : ¬ (a = 64)) (h5 : ¬ (a = 112)) (h6 : ¬ (a ≤ 120)) (hk : a ≤ 256) : classOf a = 7 := by
  unfold classOf num01 num02 num03 num04 num05 num06 num07 num08 num09 num10 num11 num12 num13 num14
  rw [if_neg h1, if_neg h2, if_neg h3, if_neg h4, if_neg h5, if_neg h6, if_pos hk]

theorem classOf_eq_8 (a : Nat) (h1 : ¬ (a ≤ 12)) (h2 : ¬ (a ≤ 16)) (h3 : ¬ (a ≤ 20)) (h4 : ¬ (a = 64)) (h5 : ¬ (a = 112)) (h6 : ¬ (a ≤ 120)) (h7 : ¬ (a ≤ 256)) (hk : a ≤ 448) : classOf a = 8 := by
  unfold classOf num01 num02 num03 num04 num05 num06 num07 num08 num09 num10 num11 num12 num13 num14
  rw [if_neg h1, if_neg h2, if_neg h3, if_neg h4, if_neg h5, if_neg h6, if_neg h7, if_pos hk]

theorem classOf_eq_9 (a : Nat) (h1 : ¬ (a ≤ 12)) (h2 : ¬ (a ≤ 16)) (h3 : ¬ (a ≤ 20)) (h4 : ¬ (a = 64)) (h5 : ¬ (a = 112)) (h6 : ¬ (a ≤ 120)) (h7 : ¬ (a ≤ 256)) (h8 : ¬ (a ≤ 448)) (hk : a ≤ 512) : classOf a = 9 := by
  unfold classOf num01 num02 num03 num04 num05 num06 num07 num08 num09 num10 num11 num12 num13 num14
  rw [if_neg h1, if_neg h2, if_neg h3, if_neg h4, if_neg h5, if_neg h6, if_neg h7, if_neg h8, if_pos hk]

theorem classOf_eq_10 (a : Nat) (h1 : ¬ (a ≤ 12)) (h2 : ¬ (a ≤ 16)) (h3 : ¬ (a ≤ 20)) (h4 : ¬ (a = 64)) (h5 : ¬ (a = 112)) (h6 : ¬ (a ≤ 120)) (h7 : ¬ (a ≤ 256)) (h8 : ¬ (a ≤ 448)) (h9 : ¬ (a ≤ 512)) (hk : a ≤ 1024) : classOf a = 10 := by
  unfold classOf num01 num02 num03 num04 num05 num06 num07 num08 num09 num10 num11 num12 num13 num14
  rw [if_neg h1, if_neg h2, if_neg h3, if_neg h4, if_neg h5, if_neg h6, if_neg h7, if_neg h8, if_neg h9, if_pos hk]

theorem classOf_eq_11 (a : Nat) (h1 : ¬ (a ≤ 12)) (h2 : ¬ (a ≤ 16)) (h3 : ¬ (a ≤ 20)) (h4 : ¬ (a = 64)) (h5 : ¬ (a = 112)) (h6 : ¬ (a ≤ 120)) (h7 : ¬ (a ≤ 256)) (h8 : ¬ (a ≤ 448)) (h9 : ¬ (a ≤ 512)) (h10 : ¬ (a ≤ 1024)) (hk : a ≤ 2048) : classOf a = 11 := by
  unfold classOf num01 num02 num03 num04 num05 num06 num07 num08 num09 num10 num11 num12 num13 num14
  rw [if_neg h1, if_neg h2, if_neg h3, if_neg h4, if_neg h5, if_neg h6, if_neg h7, if_neg h8, if_neg h9, if_neg h10, if_pos hk]

theorem classOf_eq_12 (a : Nat) (h1 : ¬ (a ≤ 12)) (h2 : ¬ (a ≤ 16)) (h3 : ¬ (a ≤ 20)) (h4 : ¬ (a = 64)) (h5 : ¬ (a = 112)) (h6 : ¬ (a ≤ 120)) (h7 : ¬ (a ≤ 256)) (h8 : ¬ (a ≤ 448)) (h9 : ¬ (a ≤ 512)) (h10 : ¬ (a ≤ 1024)) (h11 : ¬ (a ≤ 2048)) (hk : a ≤ 3072) : classOf a = 12 := by
  unfold classOf num01 num02 num03 num04 num05 num06 num07 num08 num09 num10 num11 num12 num13 num14
  rw [if_neg h1, if_neg h2, if_neg h3, if_neg h4, if_neg h5, if_neg h6, if_neg h7, if_neg h8, if_neg h9, if_neg h10, if_neg h11, if_pos hk]

theorem classOf_eq_13 (a : Nat) (h1 : ¬ (a ≤ 12)) (h2 : ¬ (a ≤ 16)) (h3 : ¬ (a ≤ 20)) (h4 : ¬ (a = 64)) (h5 : ¬ (a = 112)) (h6 : ¬ (a ≤ 120)) (h7 : ¬ (a ≤ 256)) (h8 : ¬ (a ≤ 448)) (h9 : ¬ (a ≤ 512)) (h10 : ¬ (a ≤ 1024)) (h11 : ¬ (a ≤ 2048)) (h12 : ¬ (a ≤ 3072)) (hk : a ≤ 4096) : classOf a = 13 := by
  unfold classOf num01 num02 num03 num04 num05 num06 num07 num08 num09 num10 num11 num12 num13 num14
  rw [if_neg h1, if_neg h2, if_neg h3, if_neg h4, if_neg h5, if_neg h6, if_neg h7, if_neg h8, if_neg h9, if_neg h10, if_neg h11, if_neg h12, if_pos hk]

theorem classOf_eq_14 (a : Nat) (h1 : ¬ (a ≤ 12)) (h2 : ¬ (a ≤ 16)) (h3 : ¬ (a ≤ 20)) (h4 : ¬ (a = 64)) (h5 : ¬ (a = 112)) (h6 : ¬ (a ≤ 120)) (h7 : ¬ (a ≤ 256)) (h8 : ¬ (a ≤ 448)) (h9 : ¬ (a ≤ 512)) (h10 : ¬ (a ≤ 1024)) (h11 : ¬ (a ≤ 2048)) (h12 : ¬ (a ≤ 3072)) (h13 : ¬ (a ≤ 4096)) (hk : a ≤ 8192) : classOf a = 14 := by
  unfold classOf num01 num02 num03 num04 num05 num06 num07 num08 num09 num10 num11 num12 num13 num14
  rw [if_neg h1, if_neg h2, if_neg h3, if_neg h4, if_neg h5, if_neg h6, if_neg h7, if_neg h8, if_neg h9, if_neg h10, if_neg h11, if_neg h12, if_neg h13, if_pos hk]

theorem classOf_eq_15 (a : Nat) (h1 : ¬ (a ≤ 12)) (h2 : ¬ (a ≤ 16)) (h3 : ¬ (a ≤ 20)) (h4 : ¬ (a = 64)) (h5 : ¬ (a = 112)) (h6 : ¬ (a ≤ 120)) (h7 : ¬ (a ≤ 256)) (h8 : ¬ (a ≤ 448)) (h9 : ¬ (a ≤ 512)) (h10 : ¬ (a ≤ 1024)) (h11 : ¬ (a ≤ 2048)) (h12 : ¬ (a ≤ 3072)) (h13 : ¬ (a ≤ 4096)) (h14 : ¬ (a ≤ 8192)) : classOf a = 15 := by
  unfold classOf num01 num02 num03 num04 num05 num06 num07 num08 num09 num10 num11 num12 num13 num14
  rw [if_neg h1, if_neg h2, if_neg h3, if_neg h4, if_neg h5, if_neg h6, if_neg h7, if_neg h8, if_neg h9, if_neg h10, if_neg h11, if_neg h12, if_neg h13, if_neg h14]

theorem clPred_c1 (a : Nat) : clPred a 1 = decide (a ≤ 12) := rfl
theorem clPred_c2 (a : Nat) : clPred a 2 = decide (a ≤ 16) := rfl
theorem clPred_c3 (a : Nat) : clPred a 3 = decide (a ≤ 20) := rfl
theorem clPred_c4 (a : Nat) : clPred a 4 = decide (a = 64) := rfl
theorem clPred_c5 (a : Nat) : clPred a 5 = decide (a = 112) := rfl
theorem clPred_c6 (a : Nat) : clPred a 6 = decide (a ≤ 120) := rfl
theorem clPred_c7 (a : Nat) : clPred a 7 = decide (a ≤ 256) := rfl
theorem clPred_c8 (a : Nat) : clPred a 8 = decide (a ≤ 448) := rfl
theorem clPred_c9 (a : Nat) : clPred a 9 = decide (a ≤ 512) := rfl
theorem clPred_c10 (a : Nat) : clPred a 10 = decide (a ≤ 1024) := rfl
theorem clPred_c11 (a : Nat) : clPred a 11 = decide (a ≤ 2048) := rfl
theorem clPred_c12 (a : Nat) : clPred a 12 = decide (a ≤ 3072) := rfl
theorem clPred_c13 (a : Nat) : clPred a 13 = decide (a ≤ 4096) := rfl
theorem clPred_c14 (a : Nat) : clPred a 14 = decide (a ≤ 8192) := rfl
theorem clPred_c15 (a : Nat) : clPred a 15 = true := rfl

theorem classOf_spec (a : Nat) :
    (a ≤ 12 ∧ classOf a = 1) ∨ (12 < a ∧ a ≤ 16 ∧ classOf a = 2) ∨
    (16 < a ∧ a ≤ 20 ∧ classOf a = 3) ∨ (a = 64 ∧ classOf a = 4) ∨
    (a = 112 ∧ classOf a = 5) ∨
    (20 < a ∧ a ≤ 120 ∧ a ≠ 64 ∧ a ≠ 112 ∧ classOf a = 6) ∨
    (120 < a ∧ a ≤ 256 ∧ classOf a = 7) ∨ (256 < a ∧ a ≤ 448 ∧ classOf a = 8) ∨
    (448 < a ∧ a ≤ 512 ∧ classOf a = 9) ∨ (512 < a ∧ a ≤ 1024 ∧ classOf a = 10) ∨
    (1024 < a ∧ a ≤ 2048 ∧ classOf a = 11) ∨ (2048 < a ∧ a ≤ 3072 ∧ classOf a = 12) ∨
    (3072 < a ∧ a ≤ 4096 ∧ classOf a = 13) ∨ (4096 < a ∧ a ≤ 8192 ∧ classOf a = 14) ∨
    (8192 < a ∧ classOf a = 15) := by
  by_cases h1 : a ≤ 12
  · exact Or.inl ⟨h1, classOf_eq_1 a h1⟩
  by_cases h2 : a ≤ 16
  · exact Or.inr (Or.inl ⟨by omega, h2, classOf_eq_2 a h1 h2⟩)
  by_cases h3 : a ≤ 20
  · exact Or.inr (Or.inr (Or.inl ⟨by omega, h3, classOf_eq_3 a h1 h2 h3⟩))
  by_cases h4 : a = 64
  · exact Or.inr (Or.inr (Or.inr (Or.inl ⟨h4, classOf_eq_4 a h1 h2 h3 h4⟩)))
  by_cases h5 : a = 112
  · exact Or.inr (Or.inr (Or.inr (Or.inr (Or.inl ⟨h5, classOf_eq_5 a h1 h2 h3 h4 h5⟩))))
  by_cases h6 : a ≤ 120
  · exact Or.inr (Or.inr (Or.inr (Or.inr (Or.inr (Or.inl
      ⟨by omega, h6, h4, h5, classOf_eq_6 a h1 h2 h3 h4 h5 h6⟩)))))
  by_cases h7 : a ≤ 256
  · refine Or.inr (Or.inr (Or.inr (Or.inr (Or.inr (Or.inr (Or.inl
      ⟨by omega, h7, classOf_eq_7 a h1 h2 h3 h4 h5 h6 h7⟩))))))
  by_cases h8 : a ≤ 448
  · refine Or.inr (Or.inr (Or.inr (Or.inr (Or.inr (Or.inr (Or.inr (Or.inl
      ⟨by omega, h8, classOf_eq_8 a h1 h2 h3 h4 h5 h6 h7 h8⟩)))))))
  by_cases h9 : a ≤ 512
  · refine Or.inr (Or.inr (Or.inr (Or.inr (Or.inr (Or.inr (Or.inr (Or.inr (Or.inl
      ⟨by omega, h9, classOf_eq_9 a h1 h2 h3 h4 h5 h6 h7 h8 h9⟩))))))))
  by_cases h10 : a ≤ 1024
  · refine Or.inr (Or.inr (Or.inr (Or.inr (Or.inr (Or.inr (Or.inr (Or.inr (Or.inr (Or.inl
      ⟨by omega, h10, classOf_eq_10 a h1 h2 h3 h4 h5 h6 h7 h8 h9 h10⟩)))))))))
  by_cases h11 : a ≤ 2048
  · refine Or.inr (Or.inr (Or.inr (Or.inr (Or.inr (Or.inr (Or.inr (Or.inr (Or.inr (Or.inr
      (Or.inl ⟨by omega, h11, classOf_eq_11 a h1 h2 h3 h4 h5 h6 h7 h8 h9 h10 h11⟩))))))))))
  by_cases h12 : a ≤ 3072
  · refine Or.inr (Or.inr (Or.inr (Or.inr (Or.inr (Or.inr (Or.inr (Or.inr (Or.inr (Or.inr
      (Or.inr (Or.inl
        ⟨by omega, h12, classOf_eq_12 a h1 h2 h3 h4 h5 h6 h7 h8 h9 h10 h11 h12⟩)))))))))))
  by_cases h13 : a ≤ 4096
  · refine Or.inr (Or.inr (Or.inr (Or.inr (Or.inr (Or.inr (Or.inr (Or.inr (Or.inr (Or.inr
      (Or.inr (Or.inr (Or.inl
        ⟨by omega, h13, classOf_eq_13 a h1 h2 h3 h4 h5 h6 h7 h8 h9 h10 h11 h12 h13⟩))))))))))))
  by_cases h14 : a ≤ 8192
  · refine Or.inr (Or.inr (Or.inr (Or.inr (Or.inr (Or.inr (Or.inr (Or.inr (Or.inr (Or.inr
      (Or.inr (Or.inr (Or.inr (Or.inl
        ⟨by omega, h14,
          classOf_eq_14 a h1 h2 h3 h4 h5 h6 h7 h8 h9 h10 h11 h12 h13 h14⟩)))))))))))))
  exact Or.inr (Or.inr (Or.inr (Or.inr (Or.inr (Or.inr (Or.inr (Or.inr (Or.inr (Or.inr
    (Or.inr (Or.inr (Or.inr (Or.inr
      ⟨by omega, classOf_eq_15 a h1 h2 h3 h4 h5 h6 h7 h8 h9 h10 h11 h12 h13 h14⟩)))))))))))))

theorem clPred_characterization (a : Nat) (c : Nat) (hc : c ∈ classSeq) :
    clPred a c = true ↔
      (classOf a ≤ c ∧ (c = 4 → a = 64) ∧ (c = 5 → a = 112)) := by
  have h15 : c = 1 ∨ c = 2 ∨ c = 3 ∨ c = 4 ∨ c = 5 ∨ c = 6 ∨ c = 7 ∨ c = 8 ∨ c = 9 ∨
      c = 10 ∨ c = 11 ∨ c = 12 ∨ c = 13 ∨ c = 14 ∨ c = 15 := by
    simpa [classSeq] using hc
  rcases classOf_spec a with ⟨ha, hk⟩ | ⟨ha, ha2, hk⟩ | ⟨ha, ha2, hk⟩ | ⟨ha, hk⟩ |
    ⟨ha, hk⟩ | ⟨ha, ha2, ha3, ha4, hk⟩ | ⟨ha, ha2, hk⟩ | ⟨ha, ha2, hk⟩ | ⟨ha, ha2, hk⟩ |
    ⟨ha, ha2, hk⟩ | ⟨ha, ha2, hk⟩ | ⟨ha, ha2, hk⟩ | ⟨ha, ha2, hk⟩ | ⟨ha, ha2, hk⟩ |
    ⟨ha, hk⟩ <;>
  rcases h15 with rfl | rfl | rfl | rfl | rfl | rfl | rfl | rfl | rfl | rfl | rfl | rfl |
    rfl | rfl | rfl <;>
  simp only [hk, clPred_c1, clPred_c2, clPred_c3, clPred_c4, clPred_c5, clPred_c6,
    clPred_c7, clPred_c8, clPred_c9, clPred_c10, clPred_c11, clPred_c12, clPred_c13,
    clPred_c14, clPred_c15, decide_eq_true_eq, true_iff, iff_true, true_implies] <;>
  omega

theorem ffCascade_cons (s : St) (asize : Nat) (c : Nat) (cs : List Nat) :
    ffCascade s asize (c :: cs) =
      if clPred asize c = true then
        match (getCl s.ls c).find? fun a => decide (asize ≤ sizeAt s a) with
        | some a => some a
        | none => ffCascade s asize cs
      else ffCascade s asize cs := rfl

theorem ffCascade_eq (s : St) (asize : Nat) (cs : List Nat) :
    ffCascade s asize cs =
      (cs.filter fun c => clPred asize c).findSome? fun c =>
        (getCl s.ls c).find? fun a => decide (asize ≤ sizeAt s a) := by
  induction cs with
  | nil => rfl
  | cons c rest ih =>
    rw [ffCascade_cons]
    by_cases hc : clPred asize c = true
    · rw [if_pos hc]
      cases hfind : (getCl s.ls c).find? fun a => decide (asize ≤ sizeAt s a) with
      | none => simp [List.filter_cons, hc, List.findSome?_cons, hfind, ih]
      | some a => simp [List.filter_cons, hc, List.findSome?_cons, hfind]
    · rw [if_neg hc]
      simp only [Bool.not_eq_true] at hc
      simp [List.filter_cons, hc, ih]

theorem mem_classSeq_bound (c : Nat) (hc : c ∈ classSeq) : 1 ≤ c ∧ c ≤ 15 := by
  have h15 : c = 1 ∨ c = 2 ∨ c = 3 ∨ c = 4 ∨ c = 5 ∨ c = 6 ∨ c = 7 ∨ c = 8 ∨ c = 9 ∨
      c = 10 ∨ c = 11 ∨ c = 12 ∨ c = 13 ∨ c = 14 ∨ c = 15 := by
    simpa [classSeq] using hc
  omega

theorem getCl_eq_get (ls : List (List Nat)) (hlen : ls.length = 15) (c : Nat)
    (hc : c ∈ classSeq) :
    getCl ls c = ls.get ⟨c - 1, by have := mem_classSeq_bound c hc; omega⟩ := by
  have hb : c - 1 < ls.length := by have := mem_classSeq_bound c hc; omega
  simp [getCl, List.getD_eq_getElem?_getD, List.getElem?_eq_getElem, hb]

theorem listsDisjoint (s : St) (hnd : (joinLs s).Nodup) (hlen : s.ls.length = 15)
    (c1 c2 : Nat) (h1 : c1 ∈ classSeq) (h2 : c2 ∈ classSeq) (a : Nat)
    (ha1 : a ∈ getCl s.ls c1) (ha2 : a ∈ getCl s.ls c2) : c1 = c2 := by
  by_contra hne
  have hd : List.Pairwise List.Disjoint s.ls := (List.nodup_flatten.mp hnd).2
  have hb1 := mem_classSeq_bound c1 h1
  have hb2 := mem_classSeq_bound c2 h2
  rw [getCl_eq_get s.ls hlen c1 h1] at ha1
  rw [getCl_eq_get s.ls hlen c2 h2] at ha2
  have hij : c1 - 1 ≠ c2 - 1 := by omega
  rcases Nat.lt_or_ge (c1 - 1) (c2 - 1) with hlt | hge
  · exact (List.pairwise_iff_get.mp hd ⟨c1 - 1, by omega⟩ ⟨c2 - 1, by omega⟩ hlt) ha1 ha2
  · have hlt2 : c2 - 1 < c1 - 1 := by omega
    exact (List.pairwise_iff_get.mp hd ⟨c2 - 1, by omega⟩ ⟨c1 - 1, by omega⟩ hlt2) ha2 ha1

theorem wf_unpack (s : St) (h : Wf s) :
    s.ls.length = 15 ∧ chainB 16 s.blocks = true ∧ sizesB s.blocks = true ∧
    ftrB s.blocks = true ∧ pvOk true s.blocks = true ∧ s.epiPv = endAl true s.blocks ∧
    adjOk true s.blocks = true ∧ listedB s = true ∧ freeListedB s = true ∧
    (joinLs s).Nodup := by
  unfold Wf wfB at h
  simp only [Bool.and_eq_true, decide_eq_true_eq] at h
  tauto

/-- C5.  On a well-formed heap, `find_fit(asize)` equals the first-fit scan
over the class cascade: among the classes whose guard accepts `asize` — which
are exactly the classes from `classOf asize` up through 15, except that the
singleton classes 4 and 5 are entered only when `asize` is exactly 64 or 112 —
taken in ascending order, it returns the first list member whose stored header
size is at least `asize`; it returns NULL exactly when no scanned list holds
such a block, every returned block satisfies the size bound, and a block
residing on the class-4 list can only be returned when `asize = 64`. -/
theorem c5_find_fit_cascade (s : St) (asize : Nat) (hWf : Wf s) :
    find_fit s asize = findFitSpec s asize ∧
    (∀ c ∈ classSeq, clPred asize c = true ↔
      (classOf asize ≤ c ∧ (c = 4 → asize = 64) ∧ (c = 5 → asize = 112))) ∧
    (find_fit s asize = none ↔
      ∀ c ∈ classSeq, clPred asize c = true → ∀ a ∈ getCl s.ls c, sizeAt s a < asize) ∧
    (∀ a, find_fit s asize = some a → asize ≤ sizeAt s a) ∧
    (∀ a, find_fit s asize = some a → a ∈ getCl s.ls 4 → asize = 64) := by
  obtain ⟨hlen, _, _, _, _, _, _, _, _, hnd⟩ := wf_unpack s hWf
  have h1 : find_fit s asize = findFitSpec s asize := ffCascade_eq s asize classSeq
  refine ⟨h1, fun c hc => clPred_characterization asize c hc, ?_, ?_, ?_⟩
  · rw [h1]
    unfold findFitSpec
    rw [List.findSome?_eq_none_iff]
    constructor
    · intro h c hc hp a ha
      have h2 := h c (List.mem_filter.mpr ⟨hc, hp⟩)
      rw [List.find?_eq_none] at h2
      have h3 := h2 a ha
      simpa [Nat.lt_iff_add_one_le, Nat.not_le] using h3
    · intro h c hcf
      obtain ⟨hc, hp⟩ := List.mem_filter.mp hcf
      rw [List.find?_eq_none]
      intro a ha
      have h4 := h c hc hp a ha
      simp only [decide_eq_true_eq]
      omega
  · intro a hfa
    rw [h1] at hfa
    unfold findFitSpec at hfa
    obtain ⟨c, hcf, hfind⟩ := List.exists_of_findSome?_eq_some hfa
    have h5 := List.find?_some hfind
    simpa using h5
  · intro a hfa ha4
    rw [h1] at hfa
    unfold findFitSpec at hfa
    obtain ⟨c, hcf, hfind⟩ := List.exists_of_findSome?_eq_some hfa
    obtain ⟨hc, hp⟩ := List.mem_filter.mp hcf
    have hmem := List.mem_of_find?_eq_some hfind
    have hceq : c = 4 := listsDisjoint s hnd hlen c 4 hc (by simp [classSeq]) a hmem ha4
    subst hceq
    rw [clPred_c4] at hp
    simpa using hp

theorem c5_witness :
    find_fit (mm_init (freshSt 4112)) 24 = findFitSpec (mm_init (freshSt 4112)) 24 ∧
    (∀ c ∈ classSeq, clPred 24 c = true ↔
      (classOf 24 ≤ c ∧ (c = 4 → (24 : Nat) = 64) ∧ (c = 5 → (24 : Nat) = 112))) ∧
    (find_fit (mm_init (freshSt 4112)) 24 = none ↔
      ∀ c ∈ classSeq, clPred 24 c = true →
        ∀ a ∈ getCl (mm_init (freshSt 4112)).ls c, sizeAt (mm_init (freshSt 4112)) a < 24) ∧
    (∀ a, find_fit (mm_init (freshSt 4112)) 24 = some a →
      24 ≤ sizeAt (mm_init (freshSt 4112)) a) ∧
    (∀ a, find_fit (mm_init (freshSt 4112)) 24 = some a →
      a ∈ getCl (mm_init (freshSt 4112)).ls 4 → (24 : Nat) = 64) :=
  c5_find_fit_cascade (mm_init (freshSt 4112)) 24 (by decide)

theorem insertx_initDone (s : St) (a n : Nat) : (insertx s a n).initDone = s.initDone := rfl

theorem deletex_initDone (s : St) (a n : Nat) : (deletex s a n).initDone = s.initDone := rfl

theorem coalesce_initDone (s : St) (p : Nat) : (coalesce s p).1.initDone = s.initDone := by
  unfold coalesce
  split
  · rfl
  · dsimp only
    split_ifs <;> simp [insertx, deletex]

theorem extend_heap_initDone (s : St) (w : Nat) : (extend_heap s w).1.initDone = s.initDone := by
  unfold extend_heap
  dsimp only
  split_ifs <;> simp [coalesce_initDone]

theorem mm_init_initDone (s : St) : (mm_init s).initDone = true := by
  unfold mm_init
  dsimp only
  split
  · rfl
  · rw [extend_heap_initDone]

/-- C10.  When the heap has not been initialized yet (`heap_listp` still 0),
`malloc` behaves exactly as if `mm_init` had been run first and the request
then served on the initialized heap, and likewise `free` on a non-NULL
pointer; `mm_init` itself marks the heap initialized and, given the 16
bootstrap bytes, consists of clearing the fifteen list heads, laying down the
empty prologue/epilogue heap, and extending it by the initial chunk of 1024
words. -/
theorem c10_lazy_init (s : St) (n p : Nat) (h : s.initDone = false) (hc : 16 ≤ s.cap) :
    mm_malloc s n = mm_malloc (mm_init s) n ∧
    (p ≠ 0 → mm_free s p = mm_free (mm_init s) p) ∧
    (mm_init s).initDone = true ∧
    mm_init s = (extend_heap ⟨true, [], true, freshLists, s.cap - 16⟩ 1024).1 := by
  refine ⟨?_, ?_, mm_init_initDone s, ?_⟩
  · unfold mm_malloc
    rw [h, mm_init_initDone]
    simp only [Bool.false_eq_true, if_false, if_true]
  · intro hp
    unfold mm_free
    rw [if_neg hp, if_neg hp, h, mm_init_initDone]
    simp only [Bool.false_eq_true, if_false, if_true]
  · unfold mm_init
    dsimp only
    rw [if_neg (by omega)]

theorem c10_witness :
    mm_malloc (freshSt 4112) 24 = mm_malloc (mm_init (freshSt 4112)) 24 ∧
    ((16 : Nat) ≠ 0 → mm_free (freshSt 4112) 16 = mm_free (mm_init (freshSt 4112)) 16) ∧
    (mm_init (freshSt 4112)).initDone = true ∧
    mm_init (freshSt 4112) =
      (extend_heap ⟨true, [], true, freshLists, (freshSt 4112).cap - 16⟩ 1024).1 :=
  c10_lazy_init (freshSt 4112) 24 16 (by decide) (by decide)



theorem set_mid {α : Type} (X Y : List α) (b b2 : α) :
    (X ++ b :: Y).set X.length b2 = X ++ b2 :: Y := by
  induction X with
  | nil => rfl
  | cons x xs ih => simp [List.set, ih]

theorem get?_mid {α : Type} (X Y : List α) (b : α) :
    (X ++ b :: Y).get? X.length = some b := by
  induction X with
  | nil => rfl
  | cons x xs ih => simpa using ih

theorem getD_mid (X Y : List Blk) (b : Blk) :
    (X ++ b :: Y).getD X.length default = b := by
  have h := get?_mid X Y b
  rw [List.get?_eq_getElem?] at h
  rw [List.getD_eq_getElem?_getD, h]
  rfl

theorem get?_mid_succ {α : Type} (X Y : List α) (b : α) :
    (X ++ b :: Y).get? (X.length + 1) = Y.head? := by
  induction X with
  | nil => cases Y <;> rfl
  | cons x xs ih => simpa using ih

theorem take_mid {α : Type} (X Y : List α) (b : α) :
    (X ++ b :: Y).take X.length = X := by
  induction X with
  | nil => rfl
  | cons x xs ih => simp [ih]

theorem drop_mid {α : Type} (X Y : List α) (b : α) :
    (X ++ b :: Y).drop (X.length + 1) = Y := by
  induction X with
  | nil => rfl
  | cons x xs ih => simpa using ih



theorem chainB_append (a : Nat) (xs ys : List Blk) :
    chainB a (xs ++ ys) = (chainB a xs && chainB (afterAddr a xs) ys) := by
  induction xs generalizing a with
  | nil => simp [chainB, afterAddr]
  | cons b bs ih => simp [chainB, afterAddr, ih, Bool.and_assoc]

theorem pvOk_append (pr : Bool) (xs ys : List Blk) :
    pvOk pr (xs ++ ys) = (pvOk pr xs && pvOk (endAl pr xs) ys) := by
  induction xs generalizing pr with
  | nil => simp [pvOk, endAl]
  | cons b bs ih => simp [pvOk, endAl, ih, Bool.and_assoc]

theorem adjOk_append (pr : Bool) (xs ys : List Blk) :
    adjOk pr (xs ++ ys) = (adjOk pr xs && adjOk (endAl pr xs) ys) := by
  induction xs generalizing pr with
  | nil => simp [adjOk, endAl]
  | cons b bs ih => simp [adjOk, endAl, ih, Bool.and_assoc]

theorem endAl_append (pr : Bool) (xs ys : List Blk) :
    endAl pr (xs ++ ys) = endAl (endAl pr xs) ys := by
  induction xs generalizing pr with
  | nil => simp [endAl]
  | cons b bs ih => simp [endAl, ih]

theorem afterAddr_append (a : Nat) (xs ys : List Blk) :
    afterAddr a (xs ++ ys) = afterAddr (afterAddr a xs) ys := by
  induction xs generalizing a with
  | nil => simp [afterAddr]
  | cons b bs ih => simp [afterAddr, ih]

/-- Under the chain and the size bound, the address of every block in the tail
is at least the start address. -/
theorem chain_mem_ge (a : Nat) (bs : List Blk) (h : chainB a bs = true)
    (b : Blk) (hb : b ∈ bs) : a ≤ b.addr := by
  induction bs generalizing a with
  | nil => cases hb
  | cons x xs ih =>
    simp only [chainB, Bool.and_eq_true, decide_eq_true_eq] at h
    rcases List.mem_cons.mp hb with rfl | hb2
    · omega
    · have := ih (a + x.size) h.2 hb2
      omega

/-- A pointwise size bound: every block is at least 16 bytes and a multiple
of 8. -/
theorem sizesB_forall (bs : List Blk) :
    sizesB bs = true ↔ ∀ b ∈ bs, 16 ≤ b.size ∧ b.size % 8 = 0 := by
  simp [sizesB, List.all_eq_true]

/-- Lookup by `find?` on the address resolves to the decomposed middle block. -/
theorem find?_addr_resolve (a0 : Nat) (X Y : List Blk) (b : Blk)
    (hch : chainB a0 (X ++ b :: Y) = true)
    (hsz : ∀ x ∈ X ++ b :: Y, 1 ≤ x.size) :
    (X ++ b :: Y).find? (fun x => decide (x.addr = b.addr)) = some b := by
  induction X generalizing a0 with
  | nil =>
    simp [List.find?]
  | cons x xs ih =>
    rw [List.cons_append] at hch ⊢
    simp only [chainB, Bool.and_eq_true, decide_eq_true_eq] at hch
    have hge : a0 + x.size ≤ b.addr := by
      have := chain_mem_ge (a0 + x.size) (xs ++ b :: Y) hch.2 b (by simp)
      omega
    have hne : x.addr ≠ b.addr := by
      have hx : 1 ≤ x.size := hsz x (by simp)
      omega
    rw [List.find?_cons_of_neg _ (by simpa using hne)]
    exact ih (a0 + x.size) hch.2 fun y hy => hsz y (by simp [hy])



theorem deletex_blocks (s : St) (a n : Nat) : (deletex s a n).blocks = s.blocks := rfl

theorem insertx_blocks (s : St) (a n : Nat) : (insertx s a n).blocks = s.blocks := rfl

theorem deletex_epiPv (s : St) (a n : Nat) : (deletex s a n).epiPv = s.epiPv := rfl

theorem insertx_epiPv (s : St) (a n : Nat) : (insertx s a n).epiPv = s.epiPv := rfl

theorem findIdx?_addr_resolve (a0 : Nat) (X Y : List Blk) (b : Blk)
    (hch : chainB a0 (X ++ b :: Y) = true)
    (hsz : ∀ x ∈ X ++ b :: Y, 1 ≤ x.size) :
    (X ++ b :: Y).findIdx? (fun x => decide (x.addr = b.addr)) = some X.length := by
  induction X generalizing a0 with
  | nil => simp [List.findIdx?_cons]
  | cons x xs ih =>
    rw [List.cons_append] at hch ⊢
    simp only [chainB, Bool.and_eq_true, decide_eq_true_eq] at hch
    have hge : a0 + x.size ≤ b.addr := by
      have := chain_mem_ge (a0 + x.size) (xs ++ b :: Y) hch.2 b (by simp)
      omega
    have hne : x.addr ≠ b.addr := by
      have hx : 1 ≤ x.size := hsz x (by simp)
      omega
    rw [List.findIdx?_cons, if_neg (by simpa using hne), List.findIdx?_succ,
      ih (a0 + x.size) hch.2 fun y hy => hsz y (by simp [hy])]
    rfl

theorem idxAt_resolve (s : St) (X Y : List Blk) (b : Blk)
    (hb : s.blocks = X ++ b :: Y) (hch : chainB 16 s.blocks = true)
    (hsz : ∀ x ∈ s.blocks, 1 ≤ x.size) :
    idxAt s b.addr = some X.length := by
  unfold idxAt
  rw [hb] at hch hsz ⊢
  exact findIdx?_addr_resolve 16 X Y b hch hsz

theorem sizeAt_resolve (s : St) (X Y : List Blk) (b : Blk)
    (hb : s.blocks = X ++ b :: Y) (hch : chainB 16 s.blocks = true)
    (hsz : ∀ x ∈ s.blocks, 1 ≤ x.size) :
    sizeAt s b.addr = b.size := by
  unfold sizeAt
  rw [hb] at hch hsz ⊢
  rw [find?_addr_resolve 16 X Y b hch hsz]



/-- Shape of `place` when the whole block is handed out (`csize - asize < 16`). -/
theorem place_noSplit (s : St) (X Y : List Blk) (b : Blk) (asize : Nat)
    (hb : s.blocks = X ++ b :: Y) (hch : chainB 16 s.blocks = true)
    (hsz : ∀ x ∈ s.blocks, 1 ≤ x.size)
    (hg : b.size - asize < 16) :
    place s b.addr asize =
      (setPvTrue
        { deletex s b.addr asize with
            blocks := X ++ ⟨b.addr, b.size, b.pv, true, some ⟨b.size, b.pv, true⟩⟩ :: Y }
        (X.length + 1), b.addr) := by
  unfold place
  rw [idxAt_resolve s X Y b hb hch hsz]
  dsimp only
  rw [hb, getD_mid]
  rw [if_neg (by omega)]
  rw [deletex_blocks, hb, set_mid]

/-- Shape of `place` when it splits with the allocation at the head (`asize < 120`). -/
theorem place_headSplit (s : St) (X Y : List Blk) (b : Blk) (asize : Nat)
    (hb : s.blocks = X ++ b :: Y) (hch : chainB 16 s.blocks = true)
    (hsz : ∀ x ∈ s.blocks, 1 ≤ x.size)
    (hg : 16 ≤ b.size - asize) (hg2 : asize < 120) (hg3 : asize ≠ 0) :
    place s b.addr asize =
      (insertx
        { deletex s b.addr asize with
            blocks := X ++ ⟨b.addr, asize, b.pv, true, none⟩ ::
              ⟨b.addr + asize, b.size - asize, true, false,
                some ⟨b.size - asize, true, false⟩⟩ :: Y }
        (b.addr + asize) (b.size - asize), b.addr) := by
  unfold place
  rw [idxAt_resolve s X Y b hb hch hsz]
  dsimp only
  rw [hb, getD_mid]
  rw [if_pos hg, if_pos hg2, if_neg hg3]
  rw [deletex_blocks, hb, take_mid, drop_mid]

/-- Shape of `place` when it splits with the allocation at the tail (`asize ≥ 120`). -/
theorem place_tailSplit (s : St) (X Y : List Blk) (b : Blk) (asize : Nat)
    (hb : s.blocks = X ++ b :: Y) (hch : chainB 16 s.blocks = true)
    (hsz : ∀ x ∈ s.blocks, 1 ≤ x.size)
    (hg : 16 ≤ b.size - asize) (hg2 : 120 ≤ asize) :
    place s b.addr asize =
      (setPvTrue
        (insertx
          { deletex s b.addr asize with
              blocks := X ++ ⟨b.addr, b.size - asize, b.pv, false,
                  some ⟨b.size - asize, b.pv, false⟩⟩ ::
                ⟨b.addr + (b.size - asize), asize, false, true, none⟩ :: Y }
          b.addr (b.size - asize))
        (X.length + 2), b.addr + (b.size - asize)) := by
  unfold place
  rw [idxAt_resolve s X Y b hb hch hsz]
  dsimp only
  rw [hb, getD_mid]
  rw [if_pos hg, if_neg (by omega)]
  rw [deletex_blocks, hb, take_mid, drop_mid]



theorem setPvTrue_mid (s : St) (X Y : List Blk) (c : Blk) (hb : s.blocks = X ++ c :: Y) :
    setPvTrue s X.length =
      { s with blocks :=
          X ++ (⟨c.addr, c.size, true, c.al,
            if c.al then c.ftr else some ⟨c.size, true, false⟩⟩ : Blk) :: Y } := by
  unfold setPvTrue
  rw [hb, get?_mid]
  dsimp only
  rw [set_mid]

theorem setPvTrue_epi (s : St) (j : Nat) (hj : s.blocks.length ≤ j) :
    setPvTrue s j = { s with epiPv := true } := by
  unfold setPvTrue
  rw [List.get?_eq_getElem?, List.getElem?_eq_none hj]

theorem getCl_setCl_same (ls : List (List Nat)) (hlen : ls.length = 15) (c : Nat)
    (hc : c ∈ classSeq) (v : List Nat) : getCl (setCl ls c v) c = v := by
  have hb := mem_classSeq_bound c hc
  unfold getCl setCl
  rw [List.getD_eq_getElem?_getD, List.getElem?_set_self (by omega)]
  rfl

theorem getCl_setCl_other (ls : List (List Nat)) (c c2 : Nat)
    (hne : c ≠ c2) (hc : c ∈ classSeq) (hc2 : c2 ∈ classSeq) (v : List Nat) :
    getCl (setCl ls c v) c2 = getCl ls c2 := by
  have hb := mem_classSeq_bound c hc
  have hb2 := mem_classSeq_bound c2 hc2
  unfold getCl setCl
  rw [List.getD_eq_getElem?_getD, List.getD_eq_getElem?_getD,
    List.getElem?_set_ne (by omega)]

theorem setCl_length (ls : List (List Nat)) (c : Nat) (v : List Nat) :
    (setCl ls c v).length = ls.length := by
  simp [setCl]

/-- The class of a size is always among the fifteen classes, and its guard
accepts that size. -/
theorem classOf_mem (a : Nat) : classOf a ∈ classSeq := by
  rcases classOf_spec a with ⟨_, hk⟩ | ⟨_, _, hk⟩ | ⟨_, _, hk⟩ | ⟨_, hk⟩ | ⟨_, hk⟩ |
    ⟨_, _, _, _, hk⟩ | ⟨_, _, hk⟩ | ⟨_, _, hk⟩ | ⟨_, _, hk⟩ | ⟨_, _, hk⟩ | ⟨_, _, hk⟩ |
    ⟨_, _, hk⟩ | ⟨_, _, hk⟩ | ⟨_, _, hk⟩ | ⟨_, hk⟩ <;> rw [hk] <;> simp [classSeq]

theorem clPred_classOf (a : Nat) : clPred a (classOf a) = true := by
  rcases classOf_spec a with ⟨h, hk⟩ | ⟨h, h2, hk⟩ | ⟨h, h2, hk⟩ | ⟨h, hk⟩ | ⟨h, hk⟩ |
    ⟨h, h2, h3, h4, hk⟩ | ⟨h, h2, hk⟩ | ⟨h, h2, hk⟩ | ⟨h, h2, hk⟩ | ⟨h, h2, hk⟩ |
    ⟨h, h2, hk⟩ | ⟨h, h2, hk⟩ | ⟨h, h2, hk⟩ | ⟨h, h2, hk⟩ | ⟨h, hk⟩ <;> rw [hk] <;>
    simp only [clPred_c1, clPred_c2, clPred_c3, clPred_c4, clPred_c5, clPred_c6, clPred_c7,
      clPred_c8, clPred_c9, clPred_c10, clPred_c11, clPred_c12, clPred_c13, clPred_c14,
      clPred_c15, decide_eq_true_eq] <;> omega

/-- When `asize ≤ csize` and `csize` is not a singleton size, the `deletex`
cascade entered with `asize` reaches the class of `csize`. -/
theorem clPred_reach (asize csize : Nat) (hle : asize ≤ csize)
    (h64 : csize ≠ 64) (h112 : csize ≠ 112) : clPred asize (classOf csize) = true := by
  rcases classOf_spec csize with ⟨h, hk⟩ | ⟨h, h2, hk⟩ | ⟨h, h2, hk⟩ | ⟨h, hk⟩ | ⟨h, hk⟩ |
    ⟨h, h2, h3, h4, hk⟩ | ⟨h, h2, hk⟩ | ⟨h, h2, hk⟩ | ⟨h, h2, hk⟩ | ⟨h, h2, hk⟩ |
    ⟨h, h2, hk⟩ | ⟨h, h2, hk⟩ | ⟨h, h2, hk⟩ | ⟨h, h2, hk⟩ | ⟨h, hk⟩ <;> rw [hk] <;>
    simp only [clPred_c1, clPred_c2, clPred_c3, clPred_c4, clPred_c5, clPred_c6, clPred_c7,
      clPred_c8, clPred_c9, clPred_c10, clPred_c11, clPred_c12, clPred_c13, clPred_c14,
      clPred_c15, decide_eq_true_eq] <;> omega

theorem delCascade_spec (a sz c0 : Nat) (cs : List Nat) (ls : List (List Nat))
    (hc0 : c0 ∈ cs) (hmem : a ∈ getCl ls c0) (hpred : clPred sz c0 = true)
    (hothers : ∀ c ∈ cs, c ≠ c0 → a ∉ getCl ls c) :
    delCascade a sz cs ls = setCl ls c0 ((getCl ls c0).erase a) := by
  induction cs with
  | nil => cases hc0
  | cons c rest ih =>
    by_cases hceq : c = c0
    · subst hceq
      unfold delCascade
      rw [if_pos ⟨hpred, hmem⟩]
    · have hnot : a ∉ getCl ls c := hothers c (by simp) hceq
      unfold delCascade
      rw [if_neg (by tauto)]
      have hc0r : c0 ∈ rest := by
        rcases List.mem_cons.mp hc0 with h | h
        · exact absurd h.symm hceq
        · exact h
      exact ih hc0r fun c2 hc2 hne => hothers c2 (by simp [hc2]) hne



theorem flatten_set_perm {α : Type} (ls : List (List α)) (i : Nat) (v : List α)
    (hi : i < ls.length) :
    (ls.set i v).flatten.Perm (v ++ (ls.set i []).flatten) := by
  induction ls generalizing i with
  | nil => simp at hi
  | cons l rest ih =>
    cases i with
    | zero => simp
    | succ j =>
      simp only [List.set_cons_succ, List.flatten_cons]
      have hj : j < rest.length := by simpa using hi
      refine ((ih j hj).append_left l).trans ?_
      rw [← List.append_assoc, ← List.append_assoc]
      exact List.perm_append_comm.append_right _

theorem flatten_decomp {α : Type} [Inhabited α] (ls : List (List α)) (i : Nat)
    (hi : i < ls.length) :
    ls.flatten.Perm (ls.getD i default ++ (ls.set i []).flatten) := by
  induction ls generalizing i with
  | nil => simp at hi
  | cons l rest ih =>
    cases i with
    | zero => simp
    | succ j =>
      simp only [List.set_cons_succ, List.flatten_cons, List.getD_cons_succ]
      have hj : j < rest.length := by simpa using hi
      refine ((ih j hj).append_left l).trans ?_
      rw [← List.append_assoc, ← List.append_assoc]
      exact List.perm_append_comm.append_right _


theorem getCl_eq_getD_default (ls : List (List Nat)) (c : Nat) :
    getCl ls c = ls.getD (c - 1) default := rfl

theorem joinLs_insertx (s : St) (hlen : s.ls.length = 15) (a sz : Nat) :
    (joinLs (insertx s a sz)).Perm (a :: joinLs s) := by
  have hmem := classOf_mem sz
  have hb := mem_classSeq_bound (classOf sz) hmem
  have hi : classOf sz - 1 < s.ls.length := by omega
  have hd := flatten_decomp s.ls (classOf sz - 1) hi
  unfold joinLs insertx
  dsimp only
  unfold setCl
  refine (flatten_set_perm s.ls (classOf sz - 1) _ hi).trans ?_
  rw [getCl_eq_getD_default, List.cons_append]
  exact (hd.cons a).symm

theorem deletex_ls_spec (s : St) (a sz c0 : Nat) (hc0 : c0 ∈ classSeq)
    (hmem : a ∈ getCl s.ls c0) (hpred : clPred sz c0 = true)
    (hothers : ∀ c ∈ classSeq, c ≠ c0 → a ∉ getCl s.ls c) :
    (deletex s a sz).ls = setCl s.ls c0 ((getCl s.ls c0).erase a) :=
  delCascade_spec a sz c0 classSeq s.ls hc0 hmem hpred hothers

theorem joinLs_deletex (s : St) (hlen : s.ls.length = 15) (a sz c0 : Nat)
    (hc0 : c0 ∈ classSeq) (hmem : a ∈ getCl s.ls c0) (hpred : clPred sz c0 = true)
    (hothers : ∀ c ∈ classSeq, c ≠ c0 → a ∉ getCl s.ls c) :
    (joinLs s).Perm (a :: joinLs (deletex s a sz)) := by
  have hb := mem_classSeq_bound c0 hc0
  have hi : c0 - 1 < s.ls.length := by omega
  have hd := flatten_decomp s.ls (c0 - 1) hi
  have hdel := deletex_ls_spec s a sz c0 hc0 hmem hpred hothers
  have hset := flatten_set_perm s.ls (c0 - 1) ((getCl s.ls c0).erase a) hi
  have he : (getCl s.ls c0).Perm (a :: (getCl s.ls c0).erase a) := List.perm_cons_erase hmem
  refine hd.trans ?_
  have : (joinLs (deletex s a sz)).Perm
      ((getCl s.ls c0).erase a ++ (s.ls.set (c0 - 1) []).flatten) := by
    unfold joinLs
    rw [hdel]
    exact hset
  refine (List.Perm.trans ?_ (this.symm.cons a))
  rw [getCl_eq_getD_default] at he ⊢
  exact (he.append_right _).trans (by rw [List.cons_append])



theorem wf_iff_parts (s : St) : Wf s ↔ WfParts s := by
  constructor
  · intro h
    obtain ⟨h1, h2, h3, h4, h5, h6, h7, h8, h9, h10⟩ := wf_unpack s h
    exact ⟨h1, h2, h3, h4, h5, h6, h7, h8, h9, h10⟩
  · intro h
    unfold Wf wfB
    simp only [Bool.and_eq_true, decide_eq_true_eq]
    exact ⟨⟨⟨⟨⟨⟨⟨⟨⟨h.len, h.chain⟩, h.sizes⟩, h.ftrs⟩, h.pvs⟩, h.epi⟩, h.adjs⟩,
      h.listed⟩, h.freeL⟩, h.nd⟩

theorem listedB_forall (s : St) :
    listedB s = true ↔ ∀ c ∈ classSeq, ∀ a ∈ getCl s.ls c,
      ∃ b ∈ s.blocks, b.addr = a ∧ b.al = false ∧ classOf b.size = c := by
  unfold listedB
  simp only [List.all_eq_true, List.any_eq_true, Bool.and_eq_true, decide_eq_true_eq,
    Bool.not_eq_true']
  constructor
  · intro h c hc a ha
    obtain ⟨b, hb, ⟨hba, hbal⟩, hbc⟩ := h c hc a ha
    exact ⟨b, hb, hba, hbal, hbc⟩
  · intro h c hc a ha
    obtain ⟨b, hb, hba, hbal, hbc⟩ := h c hc a ha
    exact ⟨b, hb, ⟨hba, hbal⟩, hbc⟩

theorem freeListedB_forall (s : St) :
    freeListedB s = true ↔ ∀ b ∈ s.blocks, b.al = false →
      b.addr ∈ getCl s.ls (classOf b.size) := by
  unfold freeListedB
  simp only [List.all_eq_true, Bool.or_eq_true, decide_eq_true_eq]
  constructor
  · intro h b hb hfree
    rcases h b hb with h1 | h1
    · rw [hfree] at h1; cases h1
    · exact h1
  · intro h b hb
    by_cases hal : b.al = true
    · exact Or.inl hal
    · exact Or.inr (h b hb (by simpa using hal))

/-- A listed address is listed in exactly one class list. -/
theorem listed_unique (s : St) (hnd : (joinLs s).Nodup) (hlen : s.ls.length = 15)
    (a c0 : Nat) (hc0 : c0 ∈ classSeq) (hmem : a ∈ getCl s.ls c0) :
    ∀ c ∈ classSeq, c ≠ c0 → a ∉ getCl s.ls c := by
  intro c hc hne ha
  exact hne (listsDisjoint s hnd hlen c c0 hc hc0 a ha hmem)

/-- Inserting an unlisted free block (under its exact size) into the lists
restores the full well-formedness: all heap-shape clauses are untouched and
the list clauses are extended by the new member. -/
theorem insertx_wf (s : St) (X Y : List Blk) (b : Blk)
    (hb : s.blocks = X ++ b :: Y)
    (hlen : s.ls.length = 15)
    (hch : chainB 16 s.blocks = true)
    (hsz : sizesB s.blocks = true)
    (hftr : ftrB s.blocks = true)
    (hpv : pvOk true s.blocks = true)
    (hepi : s.epiPv = endAl true s.blocks)
    (hadj : adjOk true s.blocks = true)
    (hlisted : listedB s = true)
    (hfreeL : ∀ x ∈ s.blocks, x.al = false → x ≠ b → x.addr ∈ getCl s.ls (classOf x.size))
    (hfree : b.al = false)
    (hunl : b.addr ∉ joinLs s)
    (hnd : (joinLs s).Nodup) :
    Wf (insertx s b.addr b.size) ∧
    allocAddrs (insertx s b.addr b.size) = allocAddrs s ∧
    (insertx s b.addr b.size).blocks = s.blocks ∧
    (insertx s b.addr b.size).epiPv = s.epiPv := by
  have hperm := joinLs_insertx s hlen b.addr b.size
  have hmemcl := classOf_mem b.size
  refine ⟨?_, rfl, rfl, rfl⟩
  rw [wf_iff_parts]
  refine ⟨by simpa [insertx, setCl_length] using hlen, hch, hsz, hftr, hpv, hepi, hadj,
    ?_, ?_, ?_⟩
  · -- listedB
    rw [listedB_forall]
    intro c hc a ha
    by_cases hceq : c = classOf b.size
    · subst hceq
      rw [show (insertx s b.addr b.size).ls =
          setCl s.ls (classOf b.size) (b.addr :: getCl s.ls (classOf b.size)) from rfl,
        getCl_setCl_same s.ls hlen _ hmemcl] at ha
      rcases List.mem_cons.mp ha with rfl | ha2
      · exact ⟨b, by rw [insertx_blocks, hb]; exact List.mem_append_right X (List.mem_cons_self b Y), rfl, hfree, rfl⟩
      · exact (listedB_forall s).mp hlisted _ hmemcl a ha2
    · rw [show (insertx s b.addr b.size).ls =
          setCl s.ls (classOf b.size) (b.addr :: getCl s.ls (classOf b.size)) from rfl,
        getCl_setCl_other s.ls _ c (fun h => hceq h.symm) hmemcl hc] at ha
      exact (listedB_forall s).mp hlisted c hc a ha
  · -- freeListedB
    rw [freeListedB_forall]
    intro x hx hxfree
    by_cases hxb : x = b
    · subst hxb
      rw [show (insertx s x.addr x.size).ls =
          setCl s.ls (classOf x.size) (x.addr :: getCl s.ls (classOf x.size)) from rfl,
        getCl_setCl_same s.ls hlen _ (classOf_mem x.size)]
      exact List.mem_cons_self _ _
    · have hx2 := hfreeL x hx hxfree hxb
      by_cases hceq : classOf x.size = classOf b.size
      · rw [show (insertx s b.addr b.size).ls =
            setCl s.ls (classOf b.size) (b.addr :: getCl s.ls (classOf b.size)) from rfl,
          hceq, getCl_setCl_same s.ls hlen _ hmemcl]
        rw [hceq] at hx2
        exact List.mem_cons_of_mem _ hx2
      · rw [show (insertx s b.addr b.size).ls =
            setCl s.ls (classOf b.size) (b.addr :: getCl s.ls (classOf b.size)) from rfl,
          getCl_setCl_other s.ls _ _ (fun h => hceq h.symm) hmemcl (classOf_mem x.size)]
        exact hx2
  · -- Nodup
    exact hperm.symm.nodup (List.nodup_cons.mpr ⟨hunl, hnd⟩)

theorem getD_mid1 (X Y : List Blk) (b c : Blk) :
    (X ++ b :: c :: Y).getD (X.length + 1) default = c := by
  have h := getD_mid (X ++ [b]) Y c
  simpa [List.append_assoc] using h

theorem drop_mid2 {α : Type} (X Y : List α) (b c : α) :
    (X ++ b :: c :: Y).drop (X.length + 2) = Y := by
  have h := drop_mid (X ++ [b]) Y c
  simpa [List.append_assoc] using h

theorem drop_mid3 {α : Type} (X Y : List α) (b c d : α) :
    (X ++ b :: c :: d :: Y).drop (X.length + 3) = Y := by
  have h := drop_mid2 (X ++ [b]) Y c d
  simpa [List.append_assoc, Nat.add_assoc] using h



/-- Shape of `coalesce` in case 1 (previous and next both allocated): no merge, insert. -/
theorem coalesce_case1 (s : St) (X Y : List Blk) (b : Blk)
    (hb : s.blocks = X ++ b :: Y) (hch : chainB 16 s.blocks = true)
    (hsz : ∀ x ∈ s.blocks, 1 ≤ x.size)
    (hpv : b.pv = true)
    (hnext : (Y.head?.map Blk.al).getD true = true) :
    coalesce s b.addr = (insertx s b.addr b.size, b.addr) := by
  unfold coalesce
  rw [idxAt_resolve s X Y b hb hch hsz]
  dsimp only
  rw [hb, getD_mid, get?_mid_succ]
  cases Y with
  | nil =>
    rw [if_pos (by simp [hpv])]
  | cons c Y2 =>
    simp only [List.head?_cons] at hnext
    simp only [Option.getD_some, Option.map_some'] at hnext
    rw [if_pos (by simp [hpv, hnext])]

/-- Shape of `coalesce` in case 2 (previous allocated, next free): merge with the next
block. -/
theorem coalesce_case2 (s : St) (X Y2 : List Blk) (b c : Blk)
    (hb : s.blocks = X ++ b :: c :: Y2) (hch : chainB 16 s.blocks = true)
    (hsz : ∀ x ∈ s.blocks, 1 ≤ x.size)
    (hpv : b.pv = true) (hcal : c.al = false) :
    coalesce s b.addr =
      (insertx
        { deletex s (b.addr + b.size) c.size with
            blocks := X ++ (⟨b.addr, b.size + c.size, true, false,
              some ⟨b.size + c.size, true, false⟩⟩ : Blk) :: Y2 }
        b.addr (b.size + c.size), b.addr) := by
  unfold coalesce
  rw [idxAt_resolve s X (c :: Y2) b hb hch hsz]
  dsimp only
  rw [hb, getD_mid, get?_mid_succ]
  simp only [List.head?_cons]
  rw [if_neg (by simp [hcal]), if_pos (by simp [hpv, hcal])]
  rw [getD_mid1]
  rw [deletex_blocks, hb, take_mid, drop_mid2]

/-- Shape of `coalesce` in case 3 (previous free, next allocated): merge with the previous
block, located through the footer at `bp - 8`. -/
theorem coalesce_case3 (s : St) (X1 Y : List Blk) (a0 b : Blk)
    (hb : s.blocks = X1 ++ a0 :: b :: Y) (hch : chainB 16 s.blocks = true)
    (hsz : ∀ x ∈ s.blocks, 1 ≤ x.size)
    (hpv : b.pv = false)
    (hnext : (Y.head?.map Blk.al).getD true = true)
    (haftr : a0.ftr = some ⟨a0.size, a0.pv, false⟩)
    (haddr : b.addr = a0.addr + a0.size) :
    coalesce s b.addr =
      (insertx
        { deletex s a0.addr a0.size with
            blocks := X1 ++ (⟨a0.addr, b.size + a0.size, true, false,
              some ⟨b.size + a0.size, true, false⟩⟩ : Blk) :: Y }
        a0.addr (b.size + a0.size), a0.addr) := by
  have hb2 : s.blocks = (X1 ++ [a0]) ++ b :: Y := by simpa [List.append_assoc] using hb
  have hnal : (match Y.head? with | some nb => nb.al | none => true) = true := by
    cases Y with
    | nil => rfl
    | cons c Y2 => simpa using hnext
  unfold coalesce
  rw [idxAt_resolve s (X1 ++ [a0]) Y b hb2 hch hsz]
  dsimp only
  rw [hb2, getD_mid, get?_mid_succ]
  have hlen1 : (X1 ++ [a0]).length = X1.length + 1 := by simp
  have hgd : ((X1 ++ [a0]) ++ b :: Y).getD ((X1 ++ [a0]).length - 1) default = a0 := by
    rw [hlen1, List.append_assoc]
    simpa using getD_mid X1 (b :: Y) a0
  rw [if_neg (by simp [hpv]), if_neg (by simp [hpv]), if_pos (by simp [hpv, hnal])]
  rw [hgd, haftr]
  simp only [Option.getD_some]
  have hpa : b.addr - a0.size = a0.addr := by omega
  rw [hpa]
  have hsa : sizeAt s a0.addr = a0.size := sizeAt_resolve s X1 (b :: Y) a0 hb hch hsz
  rw [hsa]
  rw [deletex_blocks, hb2, hlen1]
  have ht : ((X1 ++ [a0]) ++ b :: Y).take (X1.length + 1 - 1) = X1 := by
    rw [List.append_assoc]
    simpa using take_mid X1 (b :: Y) a0
  have hd : ((X1 ++ [a0]) ++ b :: Y).drop (X1.length + 1 + 1) = Y := by
    rw [List.append_assoc]
    simpa [Nat.add_assoc] using drop_mid2 X1 Y a0 b
  rw [ht, hd]

/-- Shape of `coalesce` in case 4 (both neighbours free): merge with both. -/
theorem coalesce_case4 (s : St) (X1 Y2 : List Blk) (a0 b c : Blk)
    (hb : s.blocks = X1 ++ a0 :: b :: c :: Y2) (hch : chainB 16 s.blocks = true)
    (hsz : ∀ x ∈ s.blocks, 1 ≤ x.size)
    (hpv : b.pv = false) (hcal : c.al = false)
    (haftr : a0.ftr = some ⟨a0.size, a0.pv, false⟩)
    (hcftr : c.ftr = some ⟨c.size, c.pv, false⟩)
    (haddr : b.addr = a0.addr + a0.size) :
    coalesce s b.addr =
      (insertx
        { deletex (deletex s a0.addr a0.size) (b.addr + b.size) c.size with
            blocks := X1 ++ (⟨a0.addr, b.size + a0.size + c.size, true, false,
              some ⟨b.size + a0.size + c.size, true, false⟩⟩ : Blk) :: Y2 }
        a0.addr (b.size + a0.size + c.size), a0.addr) := by
  have hb2 : s.blocks = (X1 ++ [a0]) ++ b :: c :: Y2 := by simpa [List.append_assoc] using hb
  unfold coalesce
  rw [idxAt_resolve s (X1 ++ [a0]) (c :: Y2) b hb2 hch hsz]
  dsimp only
  rw [hb2, getD_mid, get?_mid_succ]
  simp only [List.head?_cons]
  rw [if_neg (by simp [hpv]), if_neg (by simp [hpv]), if_neg (by simp [hcal])]
  have hlen1 : (X1 ++ [a0]).length = X1.length + 1 := by simp
  have hgd : ((X1 ++ [a0]) ++ b :: c :: Y2).getD ((X1 ++ [a0]).length - 1) default = a0 := by
    rw [hlen1, List.append_assoc]
    simpa using getD_mid X1 (b :: c :: Y2) a0
  have hgd2 : ((X1 ++ [a0]) ++ b :: c :: Y2).getD ((X1 ++ [a0]).length + 1) default = c :=
    getD_mid1 (X1 ++ [a0]) Y2 b c
  rw [hgd, hgd2, haftr, hcftr]
  simp only [Option.getD_some]
  have hpa : b.addr - a0.size = a0.addr := by omega
  rw [hpa]
  have hsa : sizeAt s a0.addr = a0.size := sizeAt_resolve s X1 (b :: c :: Y2) a0 hb hch hsz
  rw [hsa]
  rw [deletex_blocks, deletex_blocks, hb2, hlen1]
  have ht : ((X1 ++ [a0]) ++ b :: c :: Y2).take (X1.length + 1 - 1) = X1 := by
    rw [List.append_assoc]
    simpa using take_mid X1 (b :: c :: Y2) a0
  have hd : ((X1 ++ [a0]) ++ b :: c :: Y2).drop (X1.length + 1 + 2) = Y2 := by
    rw [List.append_assoc]
    have h3 := drop_mid3 X1 Y2 a0 b c
    have : X1.length + 1 + 2 = X1.length + 3 := by omega
    rw [this]
    simpa using h3
  rw [ht, hd]


theorem delCascade_length (a sz : Nat) (cs : List Nat) (ls : List (List Nat)) :
    (delCascade a sz cs ls).length = ls.length := by
  induction cs generalizing ls with
  | nil => rfl
  | cons c rest ih =>
    unfold delCascade
    split
    · simp [setCl_length]
    · exact ih ls

theorem deletex_ls_length (s : St) (a sz : Nat) :
    (deletex s a sz).ls.length = s.ls.length := delCascade_length a sz classSeq s.ls

theorem chain_lt_of_append (a0 : Nat) (P Q : List Blk) (w : Blk)
    (hch : chainB a0 (P ++ w :: Q) = true)
    (hsz : ∀ x ∈ P ++ w :: Q, 1 ≤ x.size) :
    (∀ x ∈ P, x.addr < w.addr) ∧ ∀ x ∈ Q, w.addr < x.addr := by
  induction P generalizing a0 with
  | nil =>
    simp only [List.nil_append] at hch hsz
    simp only [chainB, Bool.and_eq_true, decide_eq_true_eq] at hch
    refine ⟨by simp, fun x hx => ?_⟩
    have := chain_mem_ge (a0 + w.size) Q hch.2 x hx
    have := hsz w (by simp)
    omega
  | cons p P2 ih =>
    rw [List.cons_append] at hch hsz
    simp only [chainB, Bool.and_eq_true, decide_eq_true_eq] at hch
    have hih := ih (a0 + p.size) hch.2 fun x hx => hsz x (List.mem_cons_of_mem p hx)
    refine ⟨fun x hx => ?_, hih.2⟩
    rcases List.mem_cons.mp hx with heq | hx2
    · have h1 := chain_mem_ge (a0 + p.size) (P2 ++ w :: Q) hch.2 w (by simp)
      have h2 := hsz p (by simp)
      have h3 : x.addr = p.addr := by rw [heq]
      omega
    · exact hih.1 x hx2

/-- Transfer of `listedB` to a state with shrunken lists, when every listed
address keeps a witness block. -/
theorem listedB_of_shrink (sOld s2 : St)
    (hsub : ∀ c ∈ classSeq, ∀ a ∈ getCl s2.ls c, a ∈ getCl sOld.ls c)
    (hwit : ∀ w ∈ sOld.blocks, w.al = false →
      w.addr ∈ joinLs s2 →
      ∃ w2 ∈ s2.blocks, w2.addr = w.addr ∧ w2.al = false ∧ w2.size = w.size)
    (hold : listedB sOld = true)
    (hlen2 : s2.ls.length = 15) :
    listedB s2 = true := by
  rw [listedB_forall]
  intro c hc a ha
  obtain ⟨w, hw, hwa, hwal, hwc⟩ := (listedB_forall sOld).mp hold c hc a (hsub c hc a ha)
  have hmem : a ∈ joinLs s2 := by
    have hb := mem_classSeq_bound c hc
    have hi : c - 1 < s2.ls.length := by omega
    have hd := flatten_decomp s2.ls (c - 1) hi
    rw [getCl_eq_getD_default] at ha
    unfold joinLs
    exact hd.symm.subset (List.mem_append_left _ ha)
  obtain ⟨w2, hw2, hw2a, hw2al, hw2sz⟩ := hwit w hw hwal (hwa ▸ hmem)
  exact ⟨w2, hw2, hwa ▸ hw2a, hw2al, hw2sz ▸ hwc⟩

/-- After a justified `deletex`, class lists only shrink. -/
theorem getCl_deletex_sub (s : St) (hlen : s.ls.length = 15) (a sz c0 : Nat) (hc0 : c0 ∈ classSeq)
    (hmem : a ∈ getCl s.ls c0) (hpred : clPred sz c0 = true)
    (hothers : ∀ c ∈ classSeq, c ≠ c0 → a ∉ getCl s.ls c) :
    ∀ c ∈ classSeq, ∀ x ∈ getCl (deletex s a sz).ls c, x ∈ getCl s.ls c := by
  intro c hc x hx
  rw [deletex_ls_spec s a sz c0 hc0 hmem hpred hothers] at hx
  by_cases hceq : c = c0
  · subst hceq
    rw [getCl_setCl_same s.ls hlen c hc] at hx
    exact List.erase_subset _ _ hx
  · rwa [getCl_setCl_other s.ls c0 c (fun h => hceq h.symm) hc0 hc] at hx

theorem ftrB_forall (bs : List Blk) :
    ftrB bs = true ↔ ∀ b ∈ bs, b.al = false → b.ftr = some ⟨b.size, b.pv, false⟩ := by
  unfold ftrB
  simp only [List.all_eq_true, Bool.or_eq_true, decide_eq_true_eq]
  constructor
  · intro h b hb hfree
    rcases h b hb with h1 | h1
    · rw [hfree] at h1; cases h1
    · exact h1
  · intro h b hb
    by_cases hal : b.al = true
    · exact Or.inl hal
    · exact Or.inr (h b hb (by simpa using hal))

theorem pvOk_decomp (X Y : List Blk) (b : Blk) (h : pvOk true (X ++ b :: Y) = true) :
    pvOk true X = true ∧ b.pv = endAl true X ∧ pvOk b.al Y = true := by
  rw [pvOk_append] at h
  simp only [pvOk, Bool.and_eq_true, decide_eq_true_eq] at h
  exact ⟨h.1, h.2.1, h.2.2⟩

theorem chainB_decomp (X Y : List Blk) (b : Blk) (h : chainB 16 (X ++ b :: Y) = true) :
    chainB 16 X = true ∧ b.addr = afterAddr 16 X ∧
      chainB (b.addr + b.size) Y = true := by
  rw [chainB_append] at h
  simp only [chainB, Bool.and_eq_true, decide_eq_true_eq] at h
  refine ⟨h.1, h.2.1, ?_⟩
  rw [h.2.1]
  exact h.2.2

theorem endAl_concat (X1 : List Blk) (a0 : Blk) : endAl true (X1 ++ [a0]) = a0.al := by
  rw [endAl_append]
  rfl


theorem getCl_deletex_mem (s : St) (hlen : s.ls.length = 15) (a sz c0 : Nat)
    (hc0 : c0 ∈ classSeq) (hmem : a ∈ getCl s.ls c0) (hpred : clPred sz c0 = true)
    (hothers : ∀ c ∈ classSeq, c ≠ c0 → a ∉ getCl s.ls c)
    (x : Nat) (k : Nat) (hk : k ∈ classSeq) (hx : x ∈ getCl s.ls k) (hne : x ≠ a) :
    x ∈ getCl (deletex s a sz).ls k := by
  rw [deletex_ls_spec s a sz c0 hc0 hmem hpred hothers]
  by_cases hkc : k = c0
  · subst hkc
    rw [getCl_setCl_same s.ls hlen k hk]
    exact List.mem_erase_of_ne hne |>.mpr hx
  · rwa [getCl_setCl_other s.ls c0 k (fun h => hkc h.symm) hc0 hk]

/-- The common tail of `coalesce` case 3: inserting the block merged with its
free predecessor restores well-formedness. -/
theorem coalesce_case3_tail (s : St) (X1 Y : List Blk) (a0 b : Blk)
    (hb : s.blocks = (X1 ++ [a0]) ++ b :: Y)
    (hbX : s.blocks = X1 ++ a0 :: b :: Y)
    (hlen : s.ls.length = 15)
    (hch : chainB 16 s.blocks = true)
    (hsz : sizesB s.blocks = true)
    (hftr : ftrB s.blocks = true)
    (hpv : pvOk true s.blocks = true)
    (hepi : s.epiPv = endAl true s.blocks)
    (hadjX : adjOk true (X1 ++ [a0]) = true)
    (hadjY : adjOk true Y = true)
    (hfree : b.al = false)
    (hlisted : listedB s = true)
    (hfreeL : ∀ x ∈ s.blocks, x.al = false → x ≠ b → x.addr ∈ getCl s.ls (classOf x.size))
    (hunl : b.addr ∉ joinLs s)
    (hnd : (joinLs s).Nodup)
    (hsz1 : ∀ x ∈ s.blocks, 1 ≤ x.size)
    (hszf : ∀ x ∈ s.blocks, 16 ≤ x.size ∧ x.size % 8 = 0)
    (hbsz : 16 ≤ b.size ∧ b.size % 8 = 0)
    (ha0sz : 16 ≤ a0.size ∧ a0.size % 8 = 0)
    (hbpv : b.pv = false)
    (ha0al : a0.al = false)
    (hchd0 : chainB 16 X1 = true ∧ a0.addr = afterAddr 16 X1 ∧
      chainB (a0.addr + a0.size) (b :: Y) = true)
    (hchd : chainB 16 (X1 ++ [a0]) = true ∧ b.addr = afterAddr 16 (X1 ++ [a0]) ∧
      chainB (b.addr + b.size) Y = true)
    (haddr : b.addr = a0.addr + a0.size)
    (ha0ftr : a0.ftr = some ⟨a0.size, a0.pv, false⟩)
    (hlt0 : (∀ x ∈ X1, x.addr < a0.addr) ∧ ∀ x ∈ b :: Y, a0.addr < x.addr)
    (hlt : (∀ x ∈ X1 ++ [a0], x.addr < b.addr) ∧ ∀ x ∈ Y, b.addr < x.addr)
    (ha0b : a0 ≠ b)
    (ha0mem : a0.addr ∈ getCl s.ls (classOf a0.size))
    (huniq0 : ∀ c ∈ classSeq, c ≠ classOf a0.size → a0.addr ∉ getCl s.ls c)
    (hdspec0 : (deletex s a0.addr a0.size).ls =
      setCl s.ls (classOf a0.size) ((getCl s.ls (classOf a0.size)).erase a0.addr))
    (hdperm0 : (joinLs s).Perm (a0.addr :: joinLs (deletex s a0.addr a0.size)))
    (hadjX1 : adjOk true X1 = true ∧ endAl true X1 = true)
    (hpvX1 : pvOk true X1 = true ∧ a0.pv = endAl true X1)
    (hpvY : pvOk false Y = true)
    (hadjmY : adjOk false Y = true)
    (hendY : endAl true (X1 ++ a0 :: b :: Y) = endAl false Y) :
    Wf (insertx
      { deletex s a0.addr a0.size with
          blocks := X1 ++ (⟨a0.addr, b.size + a0.size, true, false,
            some ⟨b.size + a0.size, true, false⟩⟩ : Blk) :: Y }
      a0.addr (b.size + a0.size)) ∧
    allocAddrs (insertx
      { deletex s a0.addr a0.size with
          blocks := X1 ++ (⟨a0.addr, b.size + a0.size, true, false,
            some ⟨b.size + a0.size, true, false⟩⟩ : Blk) :: Y }
      a0.addr (b.size + a0.size)) = allocAddrs s ∧
    (∀ w ∈ s.blocks, w.al = true → w ∈ (insertx
      { deletex s a0.addr a0.size with
          blocks := X1 ++ (⟨a0.addr, b.size + a0.size, true, false,
            some ⟨b.size + a0.size, true, false⟩⟩ : Blk) :: Y }
      a0.addr (b.size + a0.size)).blocks) ∧
    (insertx
      { deletex s a0.addr a0.size with
          blocks := X1 ++ (⟨a0.addr, b.size + a0.size, true, false,
            some ⟨b.size + a0.size, true, false⟩⟩ : Blk) :: Y }
      a0.addr (b.size + a0.size)).epiPv = s.epiPv ∧
    ∃ m X2 Y2, (insertx
      { deletex s a0.addr a0.size with
          blocks := X1 ++ (⟨a0.addr, b.size + a0.size, true, false,
            some ⟨b.size + a0.size, true, false⟩⟩ : Blk) :: Y }
      a0.addr (b.size + a0.size)).blocks = X2 ++ m :: Y2 ∧
      a0.addr = m.addr ∧ m.al = false ∧ b.size ≤ m.size := by
  set sd := deletex s a0.addr a0.size with hsd
  set m : Blk := ⟨a0.addr, b.size + a0.size, true, false,
    some ⟨b.size + a0.size, true, false⟩⟩ with hm
  set s2 : St := { sd with blocks := X1 ++ m :: Y } with hs2
  have hndd : (a0.addr :: joinLs sd).Nodup := hdperm0.nodup hnd
  have hsub2 : joinLs s2 ⊆ joinLs s := by
    intro x hx
    exact hdperm0.symm.subset (List.mem_cons_of_mem _ hx)
  have ha0not : a0.addr ∉ joinLs s2 := (List.nodup_cons.mp hndd).1
  have hlen2 : s2.ls.length = 15 := by
    show sd.ls.length = 15
    rw [hsd, deletex_ls_length]
    exact hlen
  have hch2 : chainB 16 s2.blocks = true := by
    show chainB 16 (X1 ++ m :: Y) = true
    rw [chainB_append, Bool.and_eq_true]
    refine ⟨hchd0.1, ?_⟩
    simp only [chainB, Bool.and_eq_true, decide_eq_true_eq]
    refine ⟨hchd0.2.1, ?_⟩
    have harith : afterAddr 16 X1 + m.size = b.addr + b.size := by
      show afterAddr 16 X1 + (b.size + a0.size) = b.addr + b.size
      have h1 := hchd0.2.1
      omega
    rw [harith]
    exact hchd.2.2
  have hsz2 : sizesB s2.blocks = true := by
    rw [sizesB_forall]
    intro x hx
    rcases List.mem_append.mp hx with hxX | hxm
    · exact hszf x (by rw [hbX]; simp [hxX])
    · rcases List.mem_cons.mp hxm with rfl | hxY
      · constructor
        · show 16 ≤ b.size + a0.size
          omega
        · show (b.size + a0.size) % 8 = 0
          omega
      · exact hszf x (by rw [hbX]; simp [hxY])
  have hftr2 : ftrB s2.blocks = true := by
    rw [ftrB_forall]
    intro x hx hxf
    rcases List.mem_append.mp hx with hxX | hxm
    · exact (ftrB_forall s.blocks).mp hftr x (by rw [hbX]; simp [hxX]) hxf
    · rcases List.mem_cons.mp hxm with rfl | hxY
      · rfl
      · exact (ftrB_forall s.blocks).mp hftr x (by rw [hbX]; simp [hxY]) hxf
  have hpv2 : pvOk true s2.blocks = true := by
    show pvOk true (X1 ++ m :: Y) = true
    rw [pvOk_append, Bool.and_eq_true]
    refine ⟨hpvX1.1, ?_⟩
    simp only [pvOk, Bool.and_eq_true, decide_eq_true_eq]
    constructor
    · show true = endAl true X1
      exact hadjX1.2.symm
    · show pvOk false Y = true
      exact hpvY
  have hepi2 : s2.epiPv = endAl true s2.blocks := by
    show s.epiPv = endAl true (X1 ++ m :: Y)
    rw [hepi, hbX, hendY, endAl_append]
    rfl
  have hadj2 : adjOk true s2.blocks = true := by
    show adjOk true (X1 ++ m :: Y) = true
    rw [adjOk_append, Bool.and_eq_true]
    refine ⟨hadjX1.1, ?_⟩
    simp only [adjOk, Bool.and_eq_true, Bool.or_eq_true]
    exact ⟨Or.inl hadjX1.2, hadjmY⟩
  have hlisted2 : listedB s2 = true := by
    refine listedB_of_shrink s s2 ?_ ?_ hlisted hlen2
    · intro k hk x hx
      exact getCl_deletex_sub s hlen a0.addr a0.size (classOf a0.size) (classOf_mem _)
        ha0mem (clPred_classOf _) huniq0 k hk x hx
    · intro w hw hwf hwmem
      rw [hbX] at hw
      rcases List.mem_append.mp hw with hwX | hwm
      · exact ⟨w, List.mem_append_left _ hwX, rfl, hwf, rfl⟩
      · rcases List.mem_cons.mp hwm with rfl | hwm2
        · exact absurd hwmem ha0not
        · rcases List.mem_cons.mp hwm2 with rfl | hwY
          · exact absurd (hsub2 hwmem) hunl
          · exact ⟨w, List.mem_append_right _ (List.mem_cons_of_mem _ hwY), rfl, hwf, rfl⟩
  have hfreeL2 : ∀ x ∈ s2.blocks, x.al = false → x ≠ m →
      x.addr ∈ getCl s2.ls (classOf x.size) := by
    intro x hx hxf hxm
    have hx2 : x ∈ X1 ∨ x ∈ Y := by
      rcases List.mem_append.mp hx with h1 | h1
      · exact Or.inl h1
      · rcases List.mem_cons.mp h1 with rfl | h1
        · exact absurd rfl hxm
        · exact Or.inr h1
    have hxaddr : x.addr ≠ b.addr ∧ x.addr ≠ a0.addr := by
      rcases hx2 with h1 | h1
      · have := hlt0.1 x h1
        omega
      · have h2 := hlt.2 x h1
            
        omega
    have hxb : x ≠ b := fun h => hxaddr.1 (by rw [h])
    have hxin : x.addr ∈ getCl s.ls (classOf x.size) := by
      refine hfreeL x ?_ hxf hxb
      rw [hbX]
      rcases hx2 with h1 | h1
      · simp [h1]
      · simp [h1]
    exact getCl_deletex_mem s hlen a0.addr a0.size (classOf a0.size) (classOf_mem _)
      ha0mem (clPred_classOf _) huniq0 x.addr (classOf x.size) (classOf_mem _)
      hxin hxaddr.2
  have hnd2 : (joinLs s2).Nodup := (List.nodup_cons.mp hndd).2
  obtain ⟨hwf, hA, hB, hE⟩ := insertx_wf s2 X1 Y m rfl hlen2 hch2 hsz2 hftr2 hpv2
    hepi2 hadj2 hlisted2 hfreeL2 rfl ha0not hnd2
  refine ⟨hwf, ?_, ?_, hE, m, X1, Y, by rw [hB], rfl, rfl,
    by show b.size ≤ b.size + a0.size; omega⟩
  · rw [hA]
    show allocAddrs s2 = allocAddrs s
    unfold allocAddrs
    rw [hbX]
    show ((X1 ++ m :: Y).filter fun x => x.al).map Blk.addr =
      ((X1 ++ a0 :: b :: Y).filter fun x => x.al).map Blk.addr
    rw [List.filter_append, List.filter_append]
    rw [List.filter_cons_of_neg (by simp), List.filter_cons_of_neg (by simp [ha0al]),
      List.filter_cons_of_neg (by simp [hfree])]
  · intro w hw hal
    rw [hbX] at hw
    show w ∈ X1 ++ m :: Y
    rcases List.mem_append.mp hw with h1 | h1
    · exact List.mem_append_left _ h1
    · rcases List.mem_cons.mp h1 with rfl | h1
      · rw [ha0al] at hal; cases hal
      · rcases List.mem_cons.mp h1 with rfl | h1
        · rw [hfree] at hal; cases hal
        · exact List.mem_append_right _ (List.mem_cons_of_mem _ h1)

/-- Invariant restoration by `coalesce`: from a state whose only defects are
that the freshly freed block `b` is unlisted and possibly adjacent to free
neighbours, `coalesce` produces a fully well-formed state, returning a free
block at most as low and at least as large as `b`, without touching the
allocated blocks. -/
theorem coalesce_wf (s : St) (X Y : List Blk) (b : Blk)
    (hb : s.blocks = X ++ b :: Y)
    (hlen : s.ls.length = 15)
    (hch : chainB 16 s.blocks = true)
    (hsz : sizesB s.blocks = true)
    (hftr : ftrB s.blocks = true)
    (hpv : pvOk true s.blocks = true)
    (hepi : s.epiPv = endAl true s.blocks)
    (hadjX : adjOk true X = true)
    (hadjY : adjOk true Y = true)
    (hfree : b.al = false)
    (hlisted : listedB s = true)
    (hfreeL : ∀ x ∈ s.blocks, x.al = false → x ≠ b → x.addr ∈ getCl s.ls (classOf x.size))
    (hunl : b.addr ∉ joinLs s)
    (hnd : (joinLs s).Nodup) :
    Wf (coalesce s b.addr).1 ∧
    allocAddrs (coalesce s b.addr).1 = allocAddrs s ∧
    (∀ w ∈ s.blocks, w.al = true → w ∈ (coalesce s b.addr).1.blocks) ∧
    (coalesce s b.addr).1.epiPv = s.epiPv ∧
    ∃ m X2 Y2, (coalesce s b.addr).1.blocks = X2 ++ m :: Y2 ∧
      (coalesce s b.addr).2 = m.addr ∧ m.al = false ∧ b.size ≤ m.size := by
  have hsz1 : ∀ x ∈ s.blocks, 1 ≤ x.size := by
    intro x hx
    have := (sizesB_forall s.blocks).mp hsz x hx
    omega
  have hpvd := pvOk_decomp X Y b (hb ▸ hpv)
  cases hbpv : b.pv with
  | true =>
    -- previous block allocated
    have hnextSplit : Y = [] ∨ (∃ c Y2, Y = c :: Y2 ∧ c.al = true) ∨
        (∃ c Y2, Y = c :: Y2 ∧ c.al = false) := by
      cases Y with
      | nil => exact Or.inl rfl
      | cons c Y2 =>
        cases hcal : c.al with
        | true => exact Or.inr (Or.inl ⟨c, Y2, rfl, hcal⟩)
        | false => exact Or.inr (Or.inr ⟨c, Y2, rfl, hcal⟩)
    rcases hnextSplit with rfl | ⟨c, Y2, rfl, hcal⟩ | ⟨c, Y2, rfl, hcal⟩
    · -- Case 1a: b is the last block
      rw [coalesce_case1 s X [] b hb hch hsz1 hbpv (by simp)]
      have hadjFull : adjOk true s.blocks = true := by
        rw [hb, adjOk_append, Bool.and_eq_true]
        refine ⟨hadjX, ?_⟩
        simp [adjOk, ← hpvd.2.1, hbpv]
      obtain ⟨hwf, hA, hB, hE⟩ := insertx_wf s X [] b hb hlen hch hsz hftr hpv hepi
        hadjFull hlisted (fun x hx h1 h2 => hfreeL x hx h1 h2) hfree hunl hnd
      exact ⟨hwf, hA, fun w hw _ => hw, hE, b, X, [], by rw [hB, hb], rfl, hfree, le_refl _⟩
    · -- Case 1b: next block allocated
      rw [coalesce_case1 s X (c :: Y2) b hb hch hsz1 hbpv (by simp [hcal])]
      have hadjFull : adjOk true s.blocks = true := by
        rw [hb, adjOk_append, Bool.and_eq_true]
        refine ⟨hadjX, ?_⟩
        have hadjY2 : adjOk c.al Y2 = true := by
          have h0 := hadjY
          simp only [adjOk, Bool.and_eq_true] at h0
          exact h0.2
        rw [hcal] at hadjY2
        simp [adjOk, ← hpvd.2.1, hbpv, hcal, hadjY2]
      obtain ⟨hwf, hA, hB, hE⟩ := insertx_wf s X (c :: Y2) b hb hlen hch hsz hftr hpv hepi
        hadjFull hlisted (fun x hx h1 h2 => hfreeL x hx h1 h2) hfree hunl hnd
      exact ⟨hwf, hA, fun w hw _ => hw, hE, b, X, c :: Y2, by rw [hB, hb], rfl, hfree,
        le_refl _⟩
    · -- Case 2: next block free, merge with it
      have hchd := chainB_decomp X (c :: Y2) b (hb ▸ hch)
      have hcaddr : c.addr = b.addr + b.size := by
        have h0 := hchd.2.2
        simp only [chainB, Bool.and_eq_true, decide_eq_true_eq] at h0
        exact h0.1
      have hszf := (sizesB_forall s.blocks).mp hsz
      have hbsz := hszf b (by rw [hb]; simp)
      have hcsz := hszf c (by rw [hb]; simp)
      have hlt := chain_lt_of_append 16 X (c :: Y2) b (hb ▸ hch) (hb ▸ hsz1)
      have hltY := chain_lt_of_append 16 (X ++ [b]) Y2 c
        (by rw [show (X ++ [b]) ++ c :: Y2 = X ++ b :: c :: Y2 by simp, ← hb]; exact hch)
        (by rw [show (X ++ [b]) ++ c :: Y2 = X ++ b :: c :: Y2 by simp, ← hb]; exact hsz1)
      have hcb : c ≠ b := fun h => by
        have : c.addr = b.addr := by rw [h]
        omega
      have hcmem : c.addr ∈ getCl s.ls (classOf c.size) :=
        hfreeL c (by rw [hb]; simp) hcal hcb
      have huniq := listed_unique s hnd hlen c.addr (classOf c.size) (classOf_mem _) hcmem
      have hdspec := deletex_ls_spec s c.addr c.size (classOf c.size) (classOf_mem _)
        hcmem (clPred_classOf _) huniq
      have hdperm := joinLs_deletex s hlen c.addr c.size (classOf c.size) (classOf_mem _)
        hcmem (clPred_classOf _) huniq
      rw [coalesce_case2 s X Y2 b c hb hch hsz1 hbpv hcal]
      rw [← hcaddr]
      set sd := deletex s c.addr c.size with hsd
      set m : Blk := ⟨b.addr, b.size + c.size, true, false,
        some ⟨b.size + c.size, true, false⟩⟩ with hm
      set s2 : St := { sd with blocks := X ++ m :: Y2 } with hs2
      have hndd : (c.addr :: joinLs sd).Nodup := hdperm.nodup hnd
      have hsub2 : joinLs s2 ⊆ joinLs s := by
        intro x hx
        exact hdperm.symm.subset (List.mem_cons_of_mem _ hx)
      have hcnot : c.addr ∉ joinLs s2 := (List.nodup_cons.mp hndd).1
      have hlen2 : s2.ls.length = 15 := by
        show sd.ls.length = 15
        rw [hsd, deletex_ls_length]
        exact hlen
      have hch2 : chainB 16 s2.blocks = true := by
        show chainB 16 (X ++ m :: Y2) = true
        rw [chainB_append, Bool.and_eq_true]
        refine ⟨hchd.1, ?_⟩
        simp only [chainB, Bool.and_eq_true, decide_eq_true_eq]
        refine ⟨hchd.2.1, ?_⟩
        have h0 := hchd.2.2
        simp only [chainB, Bool.and_eq_true, decide_eq_true_eq] at h0
        have harith : afterAddr 16 X + m.size = b.addr + b.size + c.size := by
          rw [hm]
          dsimp only
          omega
        rw [harith]
        exact hcaddr ▸ h0.2
      have hsz2 : sizesB s2.blocks = true := by
        rw [sizesB_forall]
        intro x hx
        rcases List.mem_append.mp hx with hxX | hxm
        · exact hszf x (by rw [hb]; simp [hxX])
        · rcases List.mem_cons.mp hxm with rfl | hxY
          · constructor
            · show 16 ≤ b.size + c.size
              omega
            · show (b.size + c.size) % 8 = 0
              omega
          · exact hszf x (by rw [hb]; simp [hxY])
      have hftr2 : ftrB s2.blocks = true := by
        rw [ftrB_forall]
        intro x hx hxf
        rcases List.mem_append.mp hx with hxX | hxm
        · exact (ftrB_forall s.blocks).mp hftr x (by rw [hb]; simp [hxX]) hxf
        · rcases List.mem_cons.mp hxm with rfl | hxY
          · rfl
          · exact (ftrB_forall s.blocks).mp hftr x (by rw [hb]; simp [hxY]) hxf
      have hpv2 : pvOk true s2.blocks = true := by
        show pvOk true (X ++ m :: Y2) = true
        rw [pvOk_append, Bool.and_eq_true]
        refine ⟨hpvd.1, ?_⟩
        simp only [pvOk, Bool.and_eq_true, decide_eq_true_eq]
        have h0 := hpvd.2.2
        simp only [pvOk, Bool.and_eq_true, decide_eq_true_eq] at h0
        refine ⟨by rw [← hpvd.2.1, hbpv], ?_⟩
        have h1 := h0.2
        rw [hcal] at h1
        exact h1
      have hepi2 : s2.epiPv = endAl true s2.blocks := by
        show s.epiPv = endAl true (X ++ m :: Y2)
        rw [hepi, hb, endAl_append, endAl_append]
        simp only [endAl]
        rw [hcal]
      have hadj2 : adjOk true s2.blocks = true := by
        show adjOk true (X ++ m :: Y2) = true
        rw [adjOk_append, Bool.and_eq_true]
        refine ⟨hadjX, ?_⟩
        simp only [adjOk, Bool.and_eq_true]
        constructor
        · rw [← hpvd.2.1, hbpv]
          simp
        · have h0 := hadjY
          simp only [adjOk, Bool.and_eq_true] at h0
          have h1 := h0.2
          rw [hcal] at h1
          exact h1
      have hlisted2 : listedB s2 = true := by
        refine listedB_of_shrink s s2 ?_ ?_ hlisted hlen2
        · intro k hk x hx
          exact getCl_deletex_sub s hlen c.addr c.size (classOf c.size) (classOf_mem _)
            hcmem (clPred_classOf _) huniq k hk x hx
        · intro w hw hwf hwmem
          rw [hb] at hw
          rcases List.mem_append.mp hw with hwX | hwm
          · exact ⟨w, List.mem_append_left _ hwX, rfl, hwf, rfl⟩
          · rcases List.mem_cons.mp hwm with rfl | hwm2
            · exact absurd (hsub2 hwmem) hunl
            · rcases List.mem_cons.mp hwm2 with rfl | hwY
              · exact absurd hwmem hcnot
              · exact ⟨w, List.mem_append_right _ (List.mem_cons_of_mem _ hwY), rfl, hwf, rfl⟩
      have hfreeL2 : ∀ x ∈ s2.blocks, x.al = false → x ≠ m →
          x.addr ∈ getCl s2.ls (classOf x.size) := by
        intro x hx hxf hxm
        have hx2 : x ∈ X ∨ x ∈ Y2 := by
          rcases List.mem_append.mp hx with h1 | h1
          · exact Or.inl h1
          · rcases List.mem_cons.mp h1 with rfl | h1
            · exact absurd rfl hxm
            · exact Or.inr h1
        have hxaddr : x.addr ≠ b.addr ∧ x.addr ≠ c.addr := by
          rcases hx2 with h1 | h1
          · have := hlt.1 x h1
            omega
          · have h2 := hltY.2 x h1
            have h3 := hlt.2 x (List.mem_cons_of_mem _ h1)
            omega
        have hxb : x ≠ b := fun h => hxaddr.1 (by rw [h])
        have hxin : x.addr ∈ getCl s.ls (classOf x.size) := by
          refine hfreeL x ?_ hxf hxb
          rw [hb]
          rcases hx2 with h1 | h1
          · simp [h1]
          · simp [h1]
        exact getCl_deletex_mem s hlen c.addr c.size (classOf c.size) (classOf_mem _)
          hcmem (clPred_classOf _) huniq x.addr (classOf x.size) (classOf_mem _)
          hxin hxaddr.2
      have hunl2 : m.addr ∉ joinLs s2 := by
        intro h
        exact hunl (hsub2 h)
      have hnd2 : (joinLs s2).Nodup := (List.nodup_cons.mp hndd).2
      obtain ⟨hwf, hA, hB, hE⟩ := insertx_wf s2 X Y2 m rfl hlen2 hch2 hsz2 hftr2 hpv2
        hepi2 hadj2 hlisted2 hfreeL2 rfl hunl2 hnd2
      refine ⟨hwf, ?_, ?_, hE, m, X, Y2, by rw [hB], rfl, rfl,
        by show b.size ≤ b.size + c.size; omega⟩
      · rw [hA]
        show allocAddrs s2 = allocAddrs s
        unfold allocAddrs
        rw [hb]
        show ((X ++ m :: Y2).filter fun x => x.al).map Blk.addr =
          ((X ++ b :: c :: Y2).filter fun x => x.al).map Blk.addr
        rw [List.filter_append, List.filter_append]
        rw [List.filter_cons_of_neg (by simp), List.filter_cons_of_neg (by simp [hfree]),
          List.filter_cons_of_neg (by simp [hcal])]
      · intro w hw hal
        rw [hb] at hw
        show w ∈ X ++ m :: Y2
        rcases List.mem_append.mp hw with h1 | h1
        · exact List.mem_append_left _ h1
        · rcases List.mem_cons.mp h1 with rfl | h1
          · rw [hfree] at hal; cases hal
          · rcases List.mem_cons.mp h1 with rfl | h1
            · rw [hcal] at hal; cases hal
            · exact List.mem_append_right _ (List.mem_cons_of_mem _ h1)

  | false =>
    -- previous block free: the prologue is allocated, so X is nonempty
    rcases List.eq_nil_or_concat X with rfl | ⟨X1, a0, hX⟩
    · rw [show endAl true ([] : List Blk) = true from rfl] at hpvd
      rw [hpvd.2.1] at hbpv
      cases hbpv
    rw [List.concat_eq_append] at hX
    subst hX
    have ha0al : a0.al = false := by
      have h0 := hpvd.2.1
      rw [endAl_concat] at h0
      rw [← h0, ← hbpv]
    have hbX : s.blocks = X1 ++ a0 :: b :: Y := by
      rw [hb]
      simp [List.append_assoc]
    have hszf := (sizesB_forall s.blocks).mp hsz
    have hbsz := hszf b (by rw [hb]; simp)
    have ha0sz := hszf a0 (by rw [hb]; simp)
    have hchd0 := chainB_decomp X1 (b :: Y) a0 (hbX ▸ hch)
    have hchd := chainB_decomp (X1 ++ [a0]) Y b (hb ▸ hch)
    have haddr : b.addr = a0.addr + a0.size := by
      have h1 := hchd.2.1
      rw [afterAddr_append] at h1
      rw [h1, ← hchd0.2.1]
      rfl
    have ha0ftr : a0.ftr = some ⟨a0.size, a0.pv, false⟩ :=
      (ftrB_forall s.blocks).mp hftr a0 (by rw [hb]; simp) ha0al
    have hlt0 := chain_lt_of_append 16 X1 (b :: Y) a0 (hbX ▸ hch) (hbX ▸ hsz1)
    have hlt := chain_lt_of_append 16 (X1 ++ [a0]) Y b (hb ▸ hch) (hb ▸ hsz1)
    have ha0b : a0 ≠ b := fun h => by
      have : a0.addr = b.addr := by rw [h]
      omega
    have ha0mem : a0.addr ∈ getCl s.ls (classOf a0.size) :=
      hfreeL a0 (by rw [hb]; simp) ha0al ha0b
    have huniq0 := listed_unique s hnd hlen a0.addr (classOf a0.size) (classOf_mem _) ha0mem
    have hdspec0 := deletex_ls_spec s a0.addr a0.size (classOf a0.size) (classOf_mem _)
      ha0mem (clPred_classOf _) huniq0
    have hdperm0 := joinLs_deletex s hlen a0.addr a0.size (classOf a0.size) (classOf_mem _)
      ha0mem (clPred_classOf _) huniq0
    have hadjX1 : adjOk true X1 = true ∧ endAl true X1 = true := by
      rw [adjOk_append, Bool.and_eq_true] at hadjX
      refine ⟨hadjX.1, ?_⟩
      have h0 := hadjX.2
      simp only [adjOk, Bool.and_eq_true, Bool.or_eq_true] at h0
      rcases h0.1 with h1 | h1
      · exact h1
      · rw [ha0al] at h1; cases h1
    have hpvX1 : pvOk true X1 = true ∧ a0.pv = endAl true X1 := by
      have h0 := hpvd.1
      rw [pvOk_append] at h0
      simp only [pvOk, Bool.and_eq_true, decide_eq_true_eq] at h0
      exact ⟨h0.1, h0.2.1⟩
    have hnextSplit : Y = [] ∨ (∃ c Y2, Y = c :: Y2 ∧ c.al = true) ∨
        (∃ c Y2, Y = c :: Y2 ∧ c.al = false) := by
      cases Y with
      | nil => exact Or.inl rfl
      | cons c Y2 =>
        cases hcal : c.al with
        | true => exact Or.inr (Or.inl ⟨c, Y2, rfl, hcal⟩)
        | false => exact Or.inr (Or.inr ⟨c, Y2, rfl, hcal⟩)
    rcases hnextSplit with rfl | ⟨c, Y2, rfl, hcal⟩ | ⟨c, Y2, rfl, hcal⟩
    · -- Case 3 with b the last block
      rw [coalesce_case3 s X1 [] a0 b hbX hch hsz1 hbpv (by simp) ha0ftr haddr]
      exact coalesce_case3_tail s X1 [] a0 b hb hbX hlen hch hsz hftr hpv hepi hadjX
        hadjY hfree hlisted hfreeL hunl hnd hsz1 hszf hbsz ha0sz hbpv ha0al hchd0 hchd
        haddr ha0ftr hlt0 hlt ha0b ha0mem huniq0 hdspec0 hdperm0 hadjX1 hpvX1
        rfl rfl (by rw [endAl_append]; simp only [endAl]; exact hfree)
    · -- Case 3 with allocated next block
      rw [coalesce_case3 s X1 (c :: Y2) a0 b hbX hch hsz1 hbpv (by simp [hcal]) ha0ftr haddr]
      have hpvY : pvOk false (c :: Y2) = true := by
        have h0 := hpvd.2.2
        rw [hfree] at h0
        exact h0
      have hadjmY : adjOk false (c :: Y2) = true := by
        simp only [adjOk, Bool.and_eq_true, Bool.or_eq_true]
        have h0 := hadjY
        simp only [adjOk, Bool.and_eq_true] at h0
        exact ⟨Or.inr hcal, h0.2⟩
      exact coalesce_case3_tail s X1 (c :: Y2) a0 b hb hbX hlen hch hsz hftr hpv hepi hadjX
        hadjY hfree hlisted hfreeL hunl hnd hsz1 hszf hbsz ha0sz hbpv ha0al hchd0 hchd
        haddr ha0ftr hlt0 hlt ha0b ha0mem huniq0 hdspec0 hdperm0 hadjX1 hpvX1
        hpvY hadjmY (by rw [endAl_append]; simp only [endAl])
    · -- Case 4: both neighbours free
      have hc2 := hchd.2.2
      simp only [chainB, Bool.and_eq_true, decide_eq_true_eq] at hc2
      have hcaddr : c.addr = b.addr + b.size := hc2.1
      have hcsz := hszf c (by rw [hbX]; simp)
      have hcftr : c.ftr = some ⟨c.size, c.pv, false⟩ :=
        (ftrB_forall s.blocks).mp hftr c (by rw [hbX]; simp) hcal
      have hltc := chain_lt_of_append 16 ((X1 ++ [a0]) ++ [b]) Y2 c
        (by rw [show ((X1 ++ [a0]) ++ [b]) ++ c :: Y2 = (X1 ++ [a0]) ++ b :: c :: Y2
              by simp, ← hb]
            exact hch)
        (by rw [show ((X1 ++ [a0]) ++ [b]) ++ c :: Y2 = (X1 ++ [a0]) ++ b :: c :: Y2
              by simp, ← hb]
            exact hsz1)
      have hcb : c ≠ b := fun h => by
        have : c.addr = b.addr := by rw [h]
        omega
      have hcmem : c.addr ∈ getCl s.ls (classOf c.size) :=
        hfreeL c (by rw [hbX]; simp) hcal hcb
      rw [coalesce_case4 s X1 Y2 a0 b c hbX hch hsz1 hbpv hcal ha0ftr hcftr haddr]
      rw [← hcaddr]
      set sd1 := deletex s a0.addr a0.size with hsd1
      have hca0addr : c.addr ≠ a0.addr := by
        have h1 := hlt0.2 c (by simp)
        omega
      have hndd0 : (a0.addr :: joinLs sd1).Nodup := hdperm0.nodup hnd
      have hnd1 : (joinLs sd1).Nodup := (List.nodup_cons.mp hndd0).2
      have ha0not1 : a0.addr ∉ joinLs sd1 := (List.nodup_cons.mp hndd0).1
      have hlen1 : sd1.ls.length = 15 := by rw [hsd1, deletex_ls_length]; exact hlen
      have hcmem1 : c.addr ∈ getCl sd1.ls (classOf c.size) :=
        getCl_deletex_mem s hlen a0.addr a0.size (classOf a0.size) (classOf_mem _)
          ha0mem (clPred_classOf _) huniq0 c.addr (classOf c.size) (classOf_mem _)
          hcmem hca0addr
      have huniqc1 := listed_unique sd1 hnd1 hlen1 c.addr (classOf c.size)
        (classOf_mem _) hcmem1
      have hdpermc := joinLs_deletex sd1 hlen1 c.addr c.size (classOf c.size)
        (classOf_mem _) hcmem1 (clPred_classOf _) huniqc1
      set sd2 := deletex sd1 c.addr c.size with hsd2
      set m : Blk := ⟨a0.addr, b.size + a0.size + c.size, true, false,
        some ⟨b.size + a0.size + c.size, true, false⟩⟩ with hm
      set s2 : St := { sd2 with blocks := X1 ++ m :: Y2 } with hs2
      have hndd1 : (c.addr :: joinLs sd2).Nodup := hdpermc.nodup hnd1
      have hcnot2 : c.addr ∉ joinLs s2 := (List.nodup_cons.mp hndd1).1
      have hnd2 : (joinLs s2).Nodup := (List.nodup_cons.mp hndd1).2
      have hsub21 : joinLs s2 ⊆ joinLs sd1 := fun x hx =>
        hdpermc.symm.subset (List.mem_cons_of_mem _ hx)
      have hsub2 : joinLs s2 ⊆ joinLs s := fun x hx =>
        hdperm0.symm.subset (List.mem_cons_of_mem _ (hsub21 hx))
      have ha0not : a0.addr ∉ joinLs s2 := fun h => ha0not1 (hsub21 h)
      have hlen2 : s2.ls.length = 15 := by
        show sd2.ls.length = 15
        rw [hsd2, deletex_ls_length]
        exact hlen1
      have hch2 : chainB 16 s2.blocks = true := by
        show chainB 16 (X1 ++ m :: Y2) = true
        rw [chainB_append, Bool.and_eq_true]
        refine ⟨hchd0.1, ?_⟩
        simp only [chainB, Bool.and_eq_true, decide_eq_true_eq]
        refine ⟨hchd0.2.1, ?_⟩
        have harith : afterAddr 16 X1 + m.size = b.addr + b.size + c.size := by
          show afterAddr 16 X1 + (b.size + a0.size + c.size) = b.addr + b.size + c.size
          have h1 := hchd0.2.1
          omega
        rw [harith]
        exact hc2.2
      have hsz2 : sizesB s2.blocks = true := by
        rw [sizesB_forall]
        intro x hx
        rcases List.mem_append.mp hx with hxX | hxm
        · exact hszf x (by rw [hbX]; simp [hxX])
        · rcases List.mem_cons.mp hxm with rfl | hxY
          · constructor
            · show 16 ≤ b.size + a0.size + c.size
              omega
            · show (b.size + a0.size + c.size) % 8 = 0
              omega
          · exact hszf x (by rw [hbX]; simp [hxY])
      have hftr2 : ftrB s2.blocks = true := by
        rw [ftrB_forall]
        intro x hx hxf
        rcases List.mem_append.mp hx with hxX | hxm
        · exact (ftrB_forall s.blocks).mp hftr x (by rw [hbX]; simp [hxX]) hxf
        · rcases List.mem_cons.mp hxm with rfl | hxY
          · rfl
          · exact (ftrB_forall s.blocks).mp hftr x (by rw [hbX]; simp [hxY]) hxf
      have hpv2 : pvOk true s2.blocks = true := by
        show pvOk true (X1 ++ m :: Y2) = true
        rw [pvOk_append, Bool.and_eq_true]
        refine ⟨hpvX1.1, ?_⟩
        simp only [pvOk, Bool.and_eq_true, decide_eq_true_eq]
        constructor
        · show true = endAl true X1
          exact hadjX1.2.symm
        · show pvOk false Y2 = true
          have h0 := hpvd.2.2
          rw [hfree] at h0
          simp only [pvOk, Bool.and_eq_true, decide_eq_true_eq] at h0
          rw [← hcal]
          exact h0.2
      have hepi2 : s2.epiPv = endAl true s2.blocks := by
        show s.epiPv = endAl true (X1 ++ m :: Y2)
        have hendY4 : endAl true (X1 ++ a0 :: b :: c :: Y2) = endAl false Y2 := by
          rw [endAl_append]
          simp only [endAl]
          rw [hcal]
        rw [hepi, hbX, hendY4, endAl_append]
        rfl
      have hadj2 : adjOk true s2.blocks = true := by
        show adjOk true (X1 ++ m :: Y2) = true
        rw [adjOk_append, Bool.and_eq_true]
        refine ⟨hadjX1.1, ?_⟩
        simp only [adjOk, Bool.and_eq_true, Bool.or_eq_true]
        refine ⟨Or.inl hadjX1.2, ?_⟩
        show adjOk false Y2 = true
        have h0 := hadjY
        simp only [adjOk, Bool.and_eq_true] at h0
        rw [← hcal]
        exact h0.2
      have hlisted2 : listedB s2 = true := by
        refine listedB_of_shrink s s2 ?_ ?_ hlisted hlen2
        · intro k hk x hx
          have hx1 : x ∈ getCl sd1.ls k :=
            getCl_deletex_sub sd1 hlen1 c.addr c.size (classOf c.size) (classOf_mem _)
              hcmem1 (clPred_classOf _) huniqc1 k hk x hx
          exact getCl_deletex_sub s hlen a0.addr a0.size (classOf a0.size)
            (classOf_mem _) ha0mem (clPred_classOf _) huniq0 k hk x hx1
        · intro w hw hwf hwmem
          rw [hbX] at hw
          rcases List.mem_append.mp hw with hwX | hwm
          · exact ⟨w, List.mem_append_left _ hwX, rfl, hwf, rfl⟩
          · rcases List.mem_cons.mp hwm with rfl | hwm2
            · exact absurd hwmem ha0not
            · rcases List.mem_cons.mp hwm2 with rfl | hwm3
              · exact absurd (hsub2 hwmem) hunl
              · rcases List.mem_cons.mp hwm3 with rfl | hwY
                · exact absurd hwmem hcnot2
                · exact ⟨w, List.mem_append_right _ (List.mem_cons_of_mem _ hwY),
                    rfl, hwf, rfl⟩
      have hfreeL2 : ∀ x ∈ s2.blocks, x.al = false → x ≠ m →
          x.addr ∈ getCl s2.ls (classOf x.size) := by
        intro x hx hxf hxm
        have hx2 : x ∈ X1 ∨ x ∈ Y2 := by
          rcases List.mem_append.mp hx with h1 | h1
          · exact Or.inl h1
          · rcases List.mem_cons.mp h1 with rfl | h1
            · exact absurd rfl hxm
            · exact Or.inr h1
        have hxaddr : x.addr ≠ b.addr ∧ x.addr ≠ a0.addr ∧ x.addr ≠ c.addr := by
          rcases hx2 with h1 | h1
          · have h2 := hlt0.1 x h1
            have h3 := ha0sz.1
            have h4 := hbsz.1
            omega
          · have h2 := hltc.2 x h1
            have h3 := ha0sz.1
            have h4 := hbsz.1
            omega
        have hxb : x ≠ b := fun h => hxaddr.1 (by rw [h])
        have hxin : x.addr ∈ getCl s.ls (classOf x.size) := by
          refine hfreeL x ?_ hxf hxb
          rw [hbX]
          rcases hx2 with h1 | h1
          · simp [h1]
          · simp [h1]
        have hxin1 : x.addr ∈ getCl sd1.ls (classOf x.size) :=
          getCl_deletex_mem s hlen a0.addr a0.size (classOf a0.size) (classOf_mem _)
            ha0mem (clPred_classOf _) huniq0 x.addr (classOf x.size) (classOf_mem _)
            hxin hxaddr.2.1
        exact getCl_deletex_mem sd1 hlen1 c.addr c.size (classOf c.size) (classOf_mem _)
          hcmem1 (clPred_classOf _) huniqc1 x.addr (classOf x.size) (classOf_mem _)
          hxin1 hxaddr.2.2
      obtain ⟨hwf, hA, hB, hE⟩ := insertx_wf s2 X1 Y2 m rfl hlen2 hch2 hsz2 hftr2 hpv2
        hepi2 hadj2 hlisted2 hfreeL2 rfl ha0not hnd2
      refine ⟨hwf, ?_, ?_, hE, m, X1, Y2, by rw [hB], rfl, rfl,
        by show b.size ≤ b.size + a0.size + c.size; omega⟩
      · rw [hA]
        show allocAddrs s2 = allocAddrs s
        unfold allocAddrs
        rw [hbX]
        show ((X1 ++ m :: Y2).filter fun x => x.al).map Blk.addr =
          ((X1 ++ a0 :: b :: c :: Y2).filter fun x => x.al).map Blk.addr
        rw [List.filter_append, List.filter_append]
        rw [List.filter_cons_of_neg (by simp), List.filter_cons_of_neg (by simp [ha0al]),
          List.filter_cons_of_neg (by simp [hfree]),
          List.filter_cons_of_neg (by simp [hcal])]
      · intro w hw hal
        rw [hbX] at hw
        show w ∈ X1 ++ m :: Y2
        rcases List.mem_append.mp hw with h1 | h1
        · exact List.mem_append_left _ h1
        · rcases List.mem_cons.mp h1 with rfl | h1
          · rw [ha0al] at hal; cases hal
          · rcases List.mem_cons.mp h1 with rfl | h1
            · rw [hfree] at hal; cases hal
            · rcases List.mem_cons.mp h1 with rfl | h1
              · rw [hcal] at hal; cases hal
              · exact List.mem_append_right _ (List.mem_cons_of_mem _ h1)


theorem mem_allocAddrs (s : St) (a : Nat) :
    a ∈ allocAddrs s ↔ ∃ w ∈ s.blocks, w.al = true ∧ w.addr = a := by
  unfold allocAddrs
  simp only [List.mem_map, List.mem_filter]
  constructor
  · rintro ⟨w, ⟨hw, hal⟩, rfl⟩
    exact ⟨w, hw, hal, rfl⟩
  · rintro ⟨w, hw, hal, rfl⟩
    exact ⟨w, ⟨hw, hal⟩, rfl⟩

theorem mem_joinLs_class (s : St) (hlen : s.ls.length = 15) (a : Nat)
    (h : a ∈ joinLs s) : ∃ c ∈ classSeq, a ∈ getCl s.ls c := by
  unfold joinLs at h
  rw [List.mem_flatten] at h
  obtain ⟨l, hl, hal⟩ := h
  obtain ⟨i, hi, hgl⟩ := List.getElem_of_mem hl
  refine ⟨i + 1, ?_, ?_⟩
  · rw [hlen] at hi
    interval_cases i <;> simp [classSeq]
  · unfold getCl
    rw [Nat.add_sub_cancel]
    rw [List.getD_eq_getElem?_getD, List.getElem?_eq_getElem hi, Option.getD_some, hgl]
    exact hal

theorem listed_block (s : St) (hlen : s.ls.length = 15) (hlisted : listedB s = true)
    (a : Nat) (h : a ∈ joinLs s) :
    ∃ w ∈ s.blocks, w.addr = a ∧ w.al = false := by
  obtain ⟨c, hc, hmem⟩ := mem_joinLs_class s hlen a h
  obtain ⟨w, hw, hwa, hwal, _⟩ := (listedB_forall s).mp hlisted c hc a hmem
  exact ⟨w, hw, hwa, hwal⟩

theorem afterAddr_ge (a : Nat) (bs : List Blk) : a ≤ afterAddr a bs := by
  induction bs generalizing a with
  | nil => exact le_refl a
  | cons x xs ih =>
    have := ih (a + x.size)
    unfold afterAddr
    omega

theorem mem_addr_lt_afterAddr (a : Nat) (bs : List Blk) (hch : chainB a bs = true)
    (hsz : ∀ x ∈ bs, 1 ≤ x.size) (w : Blk) (hw : w ∈ bs) :
    w.addr < afterAddr a bs := by
  induction bs generalizing a with
  | nil => cases hw
  | cons x xs ih =>
    simp only [chainB, Bool.and_eq_true, decide_eq_true_eq] at hch
    rcases List.mem_cons.mp hw with heq | hw2
    · have h1 := afterAddr_ge (a + x.size) xs
      have h2 := hsz x (by simp)
      have h3 : w.addr = x.addr := by rw [heq]
      unfold afterAddr
      omega
    · exact ih (a + x.size) hch.2 (fun y hy => hsz y (List.mem_cons_of_mem _ hy)) hw2

theorem chain_last (a : Nat) (bs : List Blk) (hch : chainB a bs = true) :
    (match bs.getLast? with | some b => b.addr + b.size | none => a) = afterAddr a bs := by
  induction bs generalizing a with
  | nil => rfl
  | cons x xs ih =>
    simp only [chainB, Bool.and_eq_true, decide_eq_true_eq] at hch
    cases xs with
    | nil =>
      show x.addr + x.size = afterAddr a [x]
      unfold afterAddr afterAddr
      omega
    | cons y ys =>
      rw [List.getLast?_cons_cons]
      show (match (y :: ys).getLast? with | some b => b.addr + b.size | none => a) =
        afterAddr a (x :: y :: ys)
      have h2 := ih (a + x.size) hch.2
      rw [show afterAddr a (x :: y :: ys) = afterAddr (a + x.size) (y :: ys) from rfl]
      rw [← h2]
      cases hy : (y :: ys).getLast? with
      | some z => rfl
      | none => simp at hy

theorem heapTop_eq (s : St) (hch : chainB 16 s.blocks = true) :
    heapTop s = afterAddr 16 s.blocks := by
  unfold heapTop
  exact chain_last 16 s.blocks hch

theorem setPvTrue_at (s : St) (P Q : List Blk) (d : Blk) (h : s.blocks = P ++ d :: Q) :
    setPvTrue s P.length =
      { s with blocks := P ++ (⟨d.addr, d.size, true, d.al,
          if d.al then d.ftr else some ⟨d.size, true, false⟩⟩ : Blk) :: Q } := by
  unfold setPvTrue
  rw [h, get?_mid]
  dsimp only
  rw [set_mid]

theorem insertx_setPvTrue_comm (s : St) (a n j : Nat) :
    setPvTrue (insertx s a n) j = insertx (setPvTrue s j) a n := by
  show setPvTrue { s with ls := setCl s.ls (classOf n) (a :: getCl s.ls (classOf n)) } j =
    insertx (setPvTrue s j) a n
  unfold setPvTrue
  dsimp only
  cases hj : s.blocks.get? j with
  | some d => rfl
  | none => rfl

/-- Shape of `place` on a head split: `16 ≤ csize - asize` and `0 < asize < 120` —
allocation at the head, residual inserted at the tail. -/
theorem place_case_head (s : St) (X Y : List Blk) (b : Blk) (asize : Nat)
    (hb : s.blocks = X ++ b :: Y) (hch : chainB 16 s.blocks = true)
    (hsz : ∀ x ∈ s.blocks, 1 ≤ x.size)
    (h16 : 16 ≤ b.size - asize) (h120 : asize < 120) (h0 : asize ≠ 0) :
    place s b.addr asize =
      (insertx
        { deletex s b.addr asize with
            blocks := X ++ (⟨b.addr, asize, b.pv, true, none⟩ : Blk) ::
              (⟨b.addr + asize, b.size - asize, true, false,
                some ⟨b.size - asize, true, false⟩⟩ : Blk) :: Y }
        (b.addr + asize) (b.size - asize), b.addr) := by
  unfold place
  rw [idxAt_resolve s X Y b hb hch hsz]
  dsimp only
  rw [hb, getD_mid]
  rw [if_pos h16, if_pos h120, if_neg h0]
  rw [deletex_blocks, hb, take_mid, drop_mid]

/-- Shape of `place` on a tail split: `16 ≤ csize - asize` and `asize ≥ 120` —
residual inserted at the head, allocation at the tail, downstream
prev-allocated bit set. -/
theorem place_case_tail (s : St) (X Y : List Blk) (b : Blk) (asize : Nat)
    (hb : s.blocks = X ++ b :: Y) (hch : chainB 16 s.blocks = true)
    (hsz : ∀ x ∈ s.blocks, 1 ≤ x.size)
    (h16 : 16 ≤ b.size - asize) (h120 : ¬ asize < 120) :
    place s b.addr asize =
      (setPvTrue
        (insertx
          { deletex s b.addr asize with
              blocks := X ++ (⟨b.addr, b.size - asize, b.pv, false,
                some ⟨b.size - asize, b.pv, false⟩⟩ : Blk) ::
                (⟨b.addr + (b.size - asize), asize, false, true, none⟩ : Blk) :: Y }
          b.addr (b.size - asize))
        (X.length + 2), b.addr + (b.size - asize)) := by
  unfold place
  rw [idxAt_resolve s X Y b hb hch hsz]
  dsimp only
  rw [hb, getD_mid]
  rw [if_pos h16, if_neg h120]
  rw [deletex_blocks, hb, take_mid, drop_mid]

/-- Shape of `place` with no split: `csize - asize < 16` — the whole block is handed
out and the downstream prev-allocated bit set. -/
theorem place_case_whole (s : St) (X Y : List Blk) (b : Blk) (asize : Nat)
    (hb : s.blocks = X ++ b :: Y) (hch : chainB 16 s.blocks = true)
    (hsz : ∀ x ∈ s.blocks, 1 ≤ x.size)
    (h16 : ¬ 16 ≤ b.size - asize) :
    place s b.addr asize =
      (setPvTrue
        { deletex s b.addr asize with
            blocks := X ++ (⟨b.addr, b.size, b.pv, true,
              some ⟨b.size, b.pv, true⟩⟩ : Blk) :: Y }
        (X.length + 1), b.addr) := by
  unfold place
  rw [idxAt_resolve s X Y b hb hch hsz]
  dsimp only
  rw [hb, getD_mid]
  rw [if_neg h16]
  rw [deletex_blocks, hb, set_mid]



theorem place_wf (s : St) (X Y : List Blk) (b : Blk) (asize : Nat)
    (hb : s.blocks = X ++ b :: Y)
    (hwf : Wf s)
    (hfree : b.al = false)
    (ha16 : 16 ≤ asize) (ha8 : asize % 8 = 0) (hale : asize ≤ b.size)
    (hcl : clPred asize (classOf b.size) = true) :
    PlaceOK s (place s b.addr asize) := by
  obtain ⟨hlen, hch, hsz, hftr, hpv, hepi, hadj, hlisted, hfreeL0, hnd⟩ := wf_unpack s hwf
  have hfreeLf := (freeListedB_forall s).mp hfreeL0
  have hsz1 : ∀ x ∈ s.blocks, 1 ≤ x.size := by
    intro x hx
    have := (sizesB_forall s.blocks).mp hsz x hx
    omega
  have hszf := (sizesB_forall s.blocks).mp hsz
  have hbsz := hszf b (by rw [hb]; simp)
  have hchd := chainB_decomp X Y b (hb ▸ hch)
  have hpvd := pvOk_decomp X Y b (hb ▸ hpv)
  have hadjd : adjOk true X = true ∧ endAl true X = true ∧ adjOk false Y = true := by
    rw [hb, adjOk_append, Bool.and_eq_true] at hadj
    have h0 := hadj.2
    simp only [adjOk, Bool.and_eq_true, Bool.or_eq_true] at h0
    refine ⟨hadj.1, ?_, ?_⟩
    · rcases h0.1 with h1 | h1
      · exact h1
      · rw [hfree] at h1; cases h1
    · rw [← hfree]; exact h0.2
  have hlt := chain_lt_of_append 16 X Y b (hb ▸ hch) (hb ▸ hsz1)
  have hmem : b.addr ∈ getCl s.ls (classOf b.size) := hfreeLf b (by rw [hb]; simp) hfree
  have hothers := listed_unique s hnd hlen b.addr (classOf b.size) (classOf_mem _) hmem
  have hdspec := deletex_ls_spec s b.addr asize (classOf b.size) (classOf_mem _)
    hmem hcl hothers
  have hdperm := joinLs_deletex s hlen b.addr asize (classOf b.size) (classOf_mem _)
    hmem hcl hothers
  have hndd : (b.addr :: joinLs (deletex s b.addr asize)).Nodup := hdperm.nodup hnd
  have hnd1 : (joinLs (deletex s b.addr asize)).Nodup := (List.nodup_cons.mp hndd).2
  have hbnot : b.addr ∉ joinLs (deletex s b.addr asize) := (List.nodup_cons.mp hndd).1
  have hsubd : joinLs (deletex s b.addr asize) ⊆ joinLs s := fun x hx =>
    hdperm.symm.subset (List.mem_cons_of_mem _ hx)
  have hlend : (deletex s b.addr asize).ls.length = 15 := by
    rw [deletex_ls_length]; exact hlen
  have hjoinb : ∀ a ∈ joinLs s, a ≠ b.addr → a < b.addr ∨ b.addr + b.size ≤ a := by
    intro a ha hne
    obtain ⟨w, hw, hwa, hwal⟩ := listed_block s hlen hlisted a ha
    rw [hb] at hw
    rcases List.mem_append.mp hw with h1 | h1
    · left
      have := hlt.1 w h1
      omega
    · rcases List.mem_cons.mp h1 with rfl | h1
      · exact absurd hwa.symm hne
      · right
        have h2 := chain_mem_ge (b.addr + b.size) Y hchd.2.2 w h1
        omega
  have hbNA : b.addr ∉ allocAddrs s := by
    intro h
    obtain ⟨w, hw, hal, haddr⟩ := (mem_allocAddrs s _).mp h
    rw [hb] at hw
    rcases List.mem_append.mp hw with h1 | h1
    · have := hlt.1 w h1; omega
    · rcases List.mem_cons.mp h1 with rfl | h1
      · rw [hfree] at hal; cases hal
      · have h2 := chain_mem_ge (b.addr + b.size) Y hchd.2.2 w h1
        omega
  have hdal : Y = [] ∨ ∃ d Y3, Y = d :: Y3 ∧ d.al = true := by
    cases Y with
    | nil => exact Or.inl rfl
    | cons d Y3 =>
      right
      refine ⟨d, Y3, rfl, ?_⟩
      have h0 := hadjd.2.2
      simp only [adjOk, Bool.and_eq_true, Bool.or_eq_true] at h0
      exact h0.1.resolve_left (by simp)
  have hxaddrXY : ∀ x, (x ∈ X ∨ x ∈ Y) → x.addr ≠ b.addr := by
    intro x hx2 hxe
    rcases hx2 with h1 | h1
    · have := hlt.1 x h1; omega
    · have h2 := chain_mem_ge (b.addr + b.size) Y hchd.2.2 x h1
      have := hbsz.1
      omega
  have hsurv : ∀ x, (x ∈ X ∨ x ∈ Y) → x.al = false →
      x.addr ∈ getCl (deletex s b.addr asize).ls (classOf x.size) := by
    intro x hx2 hxf
    have hxin : x.addr ∈ getCl s.ls (classOf x.size) := by
      refine hfreeLf x ?_ hxf
      rw [hb]
      rcases hx2 with h1 | h1
      · simp [h1]
      · simp [h1]
    exact getCl_deletex_mem s hlen b.addr asize (classOf b.size) (classOf_mem _)
      hmem hcl hothers x.addr (classOf x.size) (classOf_mem _) hxin (hxaddrXY x hx2)
  by_cases h16 : 16 ≤ b.size - asize
  · by_cases h120 : asize < 120
    · -- head split: allocation at b.addr, residual inserted at b.addr + asize
      rw [place_case_head s X Y b asize hb hch hsz1 h16 h120 (by omega)]
      set sd := deletex s b.addr asize with hsd
      set hA : Blk := ⟨b.addr, asize, b.pv, true, none⟩ with hhA
      set res : Blk := ⟨b.addr + asize, b.size - asize, true, false,
        some ⟨b.size - asize, true, false⟩⟩ with hres
      set s2 : St := { sd with blocks := X ++ hA :: res :: Y } with hs2
      have hb2 : s2.blocks = (X ++ [hA]) ++ res :: Y := by
        show X ++ hA :: res :: Y = (X ++ [hA]) ++ res :: Y
        simp
      have hch2 : chainB 16 s2.blocks = true := by
        show chainB 16 (X ++ hA :: res :: Y) = true
        rw [chainB_append, Bool.and_eq_true]
        refine ⟨hchd.1, ?_⟩
        simp only [chainB, Bool.and_eq_true, decide_eq_true_eq]
        refine ⟨hchd.2.1, ?_, ?_⟩
        · show b.addr + asize = afterAddr 16 X + asize
          have h1 := hchd.2.1
          omega
        · have harith : afterAddr 16 X + asize + (b.size - asize) = b.addr + b.size := by
            have h1 := hchd.2.1
            omega
          show chainB (afterAddr 16 X + asize + (b.size - asize)) Y = true
          rw [harith]
          exact hchd.2.2
      have hsz2 : sizesB s2.blocks = true := by
        rw [sizesB_forall]
        intro x hx
        rcases List.mem_append.mp hx with h1 | h1
        · exact hszf x (by rw [hb]; simp [h1])
        · rcases List.mem_cons.mp h1 with rfl | h1
          · exact ⟨ha16, ha8⟩
          · rcases List.mem_cons.mp h1 with rfl | h1
            · refine ⟨h16, ?_⟩
              show (b.size - asize) % 8 = 0
              omega
            · exact hszf x (by rw [hb]; simp [h1])
      have hftr2 : ftrB s2.blocks = true := by
        rw [ftrB_forall]
        intro x hx hxf
        rcases List.mem_append.mp hx with h1 | h1
        · exact (ftrB_forall s.blocks).mp hftr x (by rw [hb]; simp [h1]) hxf
        · rcases List.mem_cons.mp h1 with rfl | h1
          · rw [hhA] at hxf; simp at hxf
          · rcases List.mem_cons.mp h1 with rfl | h1
            · rfl
            · exact (ftrB_forall s.blocks).mp hftr x (by rw [hb]; simp [h1]) hxf
      have hpv2 : pvOk true s2.blocks = true := by
        show pvOk true (X ++ hA :: res :: Y) = true
        rw [pvOk_append, Bool.and_eq_true]
        refine ⟨hpvd.1, ?_⟩
        simp only [pvOk, Bool.and_eq_true, decide_eq_true_eq]
        refine ⟨hpvd.2.1, trivial, ?_⟩
        show pvOk false Y = true
        have h0 := hpvd.2.2
        rw [hfree] at h0
        exact h0
      have hepi2 : s2.epiPv = endAl true s2.blocks := by
        show s.epiPv = endAl true (X ++ hA :: res :: Y)
        rw [hepi, hb, endAl_append, endAl_append]
        simp only [endAl]
        rw [hfree]
      have hadj2 : adjOk true s2.blocks = true := by
        show adjOk true (X ++ hA :: res :: Y) = true
        rw [adjOk_append, Bool.and_eq_true]
        refine ⟨hadjd.1, ?_⟩
        simp only [adjOk, Bool.and_eq_true, Bool.or_eq_true]
        refine ⟨Or.inr trivial, Or.inl trivial, ?_⟩
        show adjOk false Y = true
        exact hadjd.2.2
      have hlisted2 : listedB s2 = true := by
        refine listedB_of_shrink s s2 ?_ ?_ hlisted ?_
        · intro k hk x hx
          exact getCl_deletex_sub s hlen b.addr asize (classOf b.size) (classOf_mem _)
            hmem hcl hothers k hk x hx
        · intro w hw hwf2 hwmem
          rw [hb] at hw
          rcases List.mem_append.mp hw with h1 | h1
          · exact ⟨w, List.mem_append_left _ h1, rfl, hwf2, rfl⟩
          · rcases List.mem_cons.mp h1 with rfl | h1
            · exact absurd hwmem hbnot
            · exact ⟨w, List.mem_append_right _
                (List.mem_cons_of_mem _ (List.mem_cons_of_mem _ h1)), rfl, hwf2, rfl⟩
        · show sd.ls.length = 15
          exact hlend
      have hfreeL2 : ∀ x ∈ s2.blocks, x.al = false → x ≠ res →
          x.addr ∈ getCl s2.ls (classOf x.size) := by
        intro x hx hxf hxr
        have hx2 : x ∈ X ∨ x ∈ Y := by
          rcases List.mem_append.mp hx with h1 | h1
          · exact Or.inl h1
          · rcases List.mem_cons.mp h1 with rfl | h1
            · rw [hhA] at hxf; simp at hxf
            · rcases List.mem_cons.mp h1 with rfl | h1
              · exact absurd rfl hxr
              · exact Or.inr h1
        exact hsurv x hx2 hxf
      have hunl2 : res.addr ∉ joinLs s2 := by
        intro hmem2
        have h1 := hsubd hmem2
        have hra : res.addr = b.addr + asize := rfl
        have h2 := hjoinb _ h1 (by omega)
        rcases h2 with h3 | h3 <;> omega
      obtain ⟨hwf2, hA2, hB2, hE2⟩ := insertx_wf s2 (X ++ [hA]) Y res hb2 hlend hch2
        hsz2 hftr2 hpv2 hepi2 hadj2 hlisted2 hfreeL2 rfl hunl2 hnd1
      refine ⟨hwf2, rfl, ?_, ?_, hbNA⟩
      · intro w hw hal
        rw [hb] at hw
        refine ⟨w, ?_, rfl, hal, rfl⟩
        rw [hB2]
        show w ∈ X ++ hA :: res :: Y
        rcases List.mem_append.mp hw with h1 | h1
        · exact List.mem_append_left _ h1
        · rcases List.mem_cons.mp h1 with rfl | h1
          · rw [hfree] at hal; cases hal
          · exact List.mem_append_right _
              (List.mem_cons_of_mem _ (List.mem_cons_of_mem _ h1))
      · rw [mem_allocAddrs]
        refine ⟨hA, ?_, rfl, rfl⟩
        rw [hB2]
        show hA ∈ X ++ hA :: res :: Y
        simp
    · -- tail split: residual at the head, allocation at b.addr + (csize - asize)
      rw [place_case_tail s X Y b asize hb hch hsz1 h16 h120]
      have hretNA : b.addr + (b.size - asize) ∉ allocAddrs s := by
        intro h
        obtain ⟨w, hw, hal, haddr⟩ := (mem_allocAddrs s _).mp h
        rw [hb] at hw
        rcases List.mem_append.mp hw with h1 | h1
        · have := hlt.1 w h1; omega
        · rcases List.mem_cons.mp h1 with rfl | h1
          · rw [hfree] at hal; cases hal
          · have h2 := chain_mem_ge (b.addr + b.size) Y hchd.2.2 w h1
            omega
      rw [insertx_setPvTrue_comm]
      set sd := deletex s b.addr asize with hsd
      set hB : Blk := ⟨b.addr, b.size - asize, b.pv, false,
        some ⟨b.size - asize, b.pv, false⟩⟩ with hhB
      set tB : Blk := ⟨b.addr + (b.size - asize), asize, false, true, none⟩ with htB
      set s2 : St := { sd with blocks := X ++ hB :: tB :: Y } with hs2
      rcases hdal with rfl | ⟨d, Y3, rfl, hdY⟩
      · -- the split block was last: the new epilogue prev-allocated bit is set
        have hsep : setPvTrue s2 (X.length + 2) = { s2 with epiPv := true } := by
          apply setPvTrue_epi
          show (X ++ hB :: tB :: []).length ≤ X.length + 2
          simp
        rw [hsep]
        set s3 : St := { s2 with epiPv := true } with hs3
        have hb3 : s3.blocks = X ++ hB :: [tB] := rfl
        have hch3 : chainB 16 s3.blocks = true := by
          show chainB 16 (X ++ hB :: tB :: []) = true
          rw [chainB_append, Bool.and_eq_true]
          refine ⟨hchd.1, ?_⟩
          simp only [chainB, Bool.and_eq_true, decide_eq_true_eq]
          refine ⟨hchd.2.1, ?_, trivial⟩
          show b.addr + (b.size - asize) = afterAddr 16 X + (b.size - asize)
          have h1 := hchd.2.1
          omega
        have hsz3 : sizesB s3.blocks = true := by
          rw [sizesB_forall]
          intro x hx
          rcases List.mem_append.mp hx with h1 | h1
          · exact hszf x (by rw [hb]; simp [h1])
          · rcases List.mem_cons.mp h1 with rfl | h1
            · refine ⟨h16, ?_⟩
              show (b.size - asize) % 8 = 0
              omega
            · rcases List.mem_cons.mp h1 with rfl | h1
              · exact ⟨ha16, ha8⟩
              · cases h1
        have hftr3 : ftrB s3.blocks = true := by
          rw [ftrB_forall]
          intro x hx hxf
          rcases List.mem_append.mp hx with h1 | h1
          · exact (ftrB_forall s.blocks).mp hftr x (by rw [hb]; simp [h1]) hxf
          · rcases List.mem_cons.mp h1 with rfl | h1
            · rfl
            · rcases List.mem_cons.mp h1 with rfl | h1
              · rw [htB] at hxf; simp at hxf
              · cases h1
        have hpv3 : pvOk true s3.blocks = true := by
          show pvOk true (X ++ hB :: tB :: []) = true
          rw [pvOk_append, Bool.and_eq_true]
          refine ⟨hpvd.1, ?_⟩
          simp only [pvOk, Bool.and_eq_true, decide_eq_true_eq]
          exact ⟨hpvd.2.1, trivial, trivial⟩
        have hepi3 : s3.epiPv = endAl true s3.blocks := by
          show true = endAl true (X ++ hB :: tB :: [])
          rw [endAl_append]
          rfl
        have hadj3 : adjOk true s3.blocks = true := by
          show adjOk true (X ++ hB :: tB :: []) = true
          rw [adjOk_append, Bool.and_eq_true]
          refine ⟨hadjd.1, ?_⟩
          simp only [adjOk, Bool.and_eq_true, Bool.or_eq_true]
          exact ⟨Or.inl hadjd.2.1, Or.inr trivial, trivial⟩
        have hlisted3 : listedB s3 = true := by
          refine listedB_of_shrink s s3 ?_ ?_ hlisted ?_
          · intro k hk x hx
            exact getCl_deletex_sub s hlen b.addr asize (classOf b.size) (classOf_mem _)
              hmem hcl hothers k hk x hx
          · intro w hw hwf2 hwmem
            rw [hb] at hw
            rcases List.mem_append.mp hw with h1 | h1
            · exact ⟨w, List.mem_append_left _ h1, rfl, hwf2, rfl⟩
            · rcases List.mem_cons.mp h1 with rfl | h1
              · exact absurd hwmem hbnot
              · cases h1
          · show sd.ls.length = 15
            exact hlend
        have hfreeL3 : ∀ x ∈ s3.blocks, x.al = false → x ≠ hB →
            x.addr ∈ getCl s3.ls (classOf x.size) := by
          intro x hx hxf hxr
          have hx2 : x ∈ X ∨ x ∈ ([] : List Blk) := by
            rcases List.mem_append.mp hx with h1 | h1
            · exact Or.inl h1
            · rcases List.mem_cons.mp h1 with rfl | h1
              · exact absurd rfl hxr
              · rcases List.mem_cons.mp h1 with rfl | h1
                · rw [htB] at hxf; simp at hxf
                · cases h1
          exact hsurv x hx2 hxf
        obtain ⟨hwf3, hA3, hB3, hE3⟩ := insertx_wf s3 X [tB] hB hb3 hlend hch3
          hsz3 hftr3 hpv3 hepi3 hadj3 hlisted3 hfreeL3 rfl hbnot hnd1
        refine ⟨hwf3, rfl, ?_, ?_, hretNA⟩
        · intro w hw hal
          rw [hb] at hw
          refine ⟨w, ?_, rfl, hal, rfl⟩
          rw [hB3]
          show w ∈ X ++ hB :: tB :: []
          rcases List.mem_append.mp hw with h1 | h1
          · exact List.mem_append_left _ h1
          · rcases List.mem_cons.mp h1 with rfl | h1
            · rw [hfree] at hal; cases hal
            · cases h1
        · rw [mem_allocAddrs]
          refine ⟨tB, ?_, rfl, rfl⟩
          rw [hB3]
          show tB ∈ X ++ hB :: tB :: []
          simp
      · -- an allocated block follows: its prev-allocated bit is set
        have hcd : d.addr = b.addr + b.size ∧
            chainB (b.addr + b.size + d.size) Y3 = true := by
          have h0 := hchd.2.2
          simp only [chainB, Bool.and_eq_true, decide_eq_true_eq] at h0
          exact h0
        have hpvY3 : pvOk true Y3 = true := by
          have h0 := hpvd.2.2
          rw [hfree] at h0
          simp only [pvOk, Bool.and_eq_true, decide_eq_true_eq] at h0
          have h2 := h0.2
          rw [hdY] at h2
          exact h2
        have hadjY3 : adjOk true Y3 = true := by
          have h0 := hadjd.2.2
          simp only [adjOk, Bool.and_eq_true, Bool.or_eq_true] at h0
          have h2 := h0.2
          rw [hdY] at h2
          exact h2
        have hdsz := hszf d (by rw [hb]; simp)
        have hPlen : (X ++ [hB, tB]).length = X.length + 2 := by simp
        have hsp : setPvTrue s2 (X.length + 2) =
            { s2 with blocks := (X ++ [hB, tB]) ++ (⟨d.addr, d.size, true, d.al,
              if d.al then d.ftr else some ⟨d.size, true, false⟩⟩ : Blk) :: Y3 } := by
          rw [← hPlen]
          exact setPvTrue_at s2 (X ++ [hB, tB]) Y3 d
            (by show X ++ hB :: tB :: d :: Y3 = _; simp)
        have hd2 : (⟨d.addr, d.size, true, d.al,
            if d.al then d.ftr else some ⟨d.size, true, false⟩⟩ : Blk) =
            ⟨d.addr, d.size, true, true, d.ftr⟩ := by
          rw [hdY]
          simp
        rw [hsp, hd2]
        set d2 : Blk := ⟨d.addr, d.size, true, true, d.ftr⟩ with hdd2
        set s3 : St := { s2 with blocks := (X ++ [hB, tB]) ++ d2 :: Y3 } with hs3
        have hb3 : s3.blocks = X ++ hB :: tB :: d2 :: Y3 := by
          show (X ++ [hB, tB]) ++ d2 :: Y3 = X ++ hB :: tB :: d2 :: Y3
          simp
        have hch3 : chainB 16 s3.blocks = true := by
          rw [hb3]
          rw [chainB_append, Bool.and_eq_true]
          refine ⟨hchd.1, ?_⟩
          simp only [chainB, Bool.and_eq_true, decide_eq_true_eq]
          refine ⟨hchd.2.1, ?_, ?_, ?_⟩
          · show b.addr + (b.size - asize) = afterAddr 16 X + (b.size - asize)
            have h1 := hchd.2.1
            omega
          · show d.addr = afterAddr 16 X + (b.size - asize) + asize
            have h1 := hchd.2.1
            have h2 := hcd.1
            omega
          · show chainB (afterAddr 16 X + (b.size - asize) + asize + d.size) Y3 = true
            have harith : afterAddr 16 X + (b.size - asize) + asize + d.size =
                b.addr + b.size + d.size := by
              have h1 := hchd.2.1
              omega
            rw [harith]
            exact hcd.2
        have hsz3 : sizesB s3.blocks = true := by
          rw [hb3, sizesB_forall]
          intro x hx
          rcases List.mem_append.mp hx with h1 | h1
          · exact hszf x (by rw [hb]; simp [h1])
          · rcases List.mem_cons.mp h1 with rfl | h1
            · refine ⟨h16, ?_⟩
              show (b.size - asize) % 8 = 0
              omega
            · rcases List.mem_cons.mp h1 with rfl | h1
              · exact ⟨ha16, ha8⟩
              · rcases List.mem_cons.mp h1 with rfl | h1
                · exact hdsz
                · exact hszf x (by rw [hb]; simp [h1])
        have hftr3 : ftrB s3.blocks = true := by
          rw [hb3, ftrB_forall]
          intro x hx hxf
          rcases List.mem_append.mp hx with h1 | h1
          · exact (ftrB_forall s.blocks).mp hftr x (by rw [hb]; simp [h1]) hxf
          · rcases List.mem_cons.mp h1 with rfl | h1
            · rfl
            · rcases List.mem_cons.mp h1 with rfl | h1
              · rw [htB] at hxf; simp at hxf
              · rcases List.mem_cons.mp h1 with rfl | h1
                · rw [hdd2] at hxf; simp at hxf
                · exact (ftrB_forall s.blocks).mp hftr x (by rw [hb]; simp [h1]) hxf
        have hpv3 : pvOk true s3.blocks = true := by
          rw [hb3]
          rw [pvOk_append, Bool.and_eq_true]
          refine ⟨hpvd.1, ?_⟩
          simp only [pvOk, Bool.and_eq_true, decide_eq_true_eq]
          refine ⟨hpvd.2.1, trivial, trivial, ?_⟩
          show pvOk true Y3 = true
          exact hpvY3
        have hepi3 : s3.epiPv = endAl true s3.blocks := by
          rw [hb3]
          show s.epiPv = endAl true (X ++ hB :: tB :: d2 :: Y3)
          rw [hepi, hb, endAl_append, endAl_append]
          simp only [endAl]
          rw [hdY]
        have hadj3 : adjOk true s3.blocks = true := by
          rw [hb3]
          rw [adjOk_append, Bool.and_eq_true]
          refine ⟨hadjd.1, ?_⟩
          simp only [adjOk, Bool.and_eq_true, Bool.or_eq_true]
          refine ⟨Or.inl hadjd.2.1, Or.inr trivial, Or.inl trivial, ?_⟩
          show adjOk true Y3 = true
          exact hadjY3
        have hlisted3 : listedB s3 = true := by
          refine listedB_of_shrink s s3 ?_ ?_ hlisted ?_
          · intro k hk x hx
            exact getCl_deletex_sub s hlen b.addr asize (classOf b.size) (classOf_mem _)
              hmem hcl hothers k hk x hx
          · intro w hw hwf2 hwmem
            rw [hb] at hw
            rcases List.mem_append.mp hw with h1 | h1
            · refine ⟨w, ?_, rfl, hwf2, rfl⟩
              rw [hb3]
              exact List.mem_append_left _ h1
            · rcases List.mem_cons.mp h1 with rfl | h1
              · exact absurd hwmem hbnot
              · rcases List.mem_cons.mp h1 with rfl | h1
                · rw [hdY] at hwf2; cases hwf2
                · refine ⟨w, ?_, rfl, hwf2, rfl⟩
                  rw [hb3]
                  exact List.mem_append_right _ (List.mem_cons_of_mem _
                    (List.mem_cons_of_mem _ (List.mem_cons_of_mem _ h1)))
          · show sd.ls.length = 15
            exact hlend
        have hfreeL3 : ∀ x ∈ s3.blocks, x.al = false → x ≠ hB →
            x.addr ∈ getCl s3.ls (classOf x.size) := by
          intro x hx hxf hxr
          rw [hb3] at hx
          have hx2 : x ∈ X ∨ x ∈ d :: Y3 := by
            rcases List.mem_append.mp hx with h1 | h1
            · exact Or.inl h1
            · rcases List.mem_cons.mp h1 with rfl | h1
              · exact absurd rfl hxr
              · rcases List.mem_cons.mp h1 with rfl | h1
                · rw [htB] at hxf; simp at hxf
                · rcases List.mem_cons.mp h1 with rfl | h1
                  · rw [hdd2] at hxf; simp at hxf
                  · exact Or.inr (List.mem_cons_of_mem _ h1)
          exact hsurv x hx2 hxf
        obtain ⟨hwf3, hA3, hB3, hE3⟩ := insertx_wf s3 X (tB :: d2 :: Y3) hB hb3 hlend
          hch3 hsz3 hftr3 hpv3 hepi3 hadj3 hlisted3 hfreeL3 rfl hbnot hnd1
        refine ⟨hwf3, rfl, ?_, ?_, hretNA⟩
        · intro w hw hal
          rw [hb] at hw
          rcases List.mem_append.mp hw with h1 | h1
          · refine ⟨w, ?_, rfl, hal, rfl⟩
            rw [hB3, hb3]
            exact List.mem_append_left _ h1
          · rcases List.mem_cons.mp h1 with rfl | h1
            · rw [hfree] at hal; cases hal
            · rcases List.mem_cons.mp h1 with rfl | h1
              · refine ⟨d2, ?_, rfl, rfl, rfl⟩
                rw [hB3, hb3]
                exact List.mem_append_right _ (List.mem_cons_of_mem _
                  (List.mem_cons_of_mem _ (List.mem_cons_self _ _)))
              · refine ⟨w, ?_, rfl, hal, rfl⟩
                rw [hB3, hb3]
                exact List.mem_append_right _ (List.mem_cons_of_mem _
                  (List.mem_cons_of_mem _ (List.mem_cons_of_mem _ h1)))
        · rw [mem_allocAddrs]
          refine ⟨tB, ?_, rfl, rfl⟩
          rw [hB3, hb3]
          show tB ∈ X ++ hB :: tB :: d2 :: Y3
          simp
  · -- whole block handed out
    rw [place_case_whole s X Y b asize hb hch hsz1 h16]
    set sd := deletex s b.addr asize with hsd
    set b2 : Blk := ⟨b.addr, b.size, b.pv, true, some ⟨b.size, b.pv, true⟩⟩ with hb2d
    set s2 : St := { sd with blocks := X ++ b2 :: Y } with hs2
    rcases hdal with rfl | ⟨d, Y3, rfl, hdY⟩
    · -- the block was last: the epilogue prev-allocated bit is set
      have hsep : setPvTrue s2 (X.length + 1) = { s2 with epiPv := true } := by
        apply setPvTrue_epi
        show (X ++ b2 :: []).length ≤ X.length + 1
        simp
      rw [hsep]
      refine ⟨?_, rfl, ?_, ?_, hbNA⟩
      · rw [wf_iff_parts]
        refine ⟨?_, ?_, ?_, ?_, ?_, ?_, ?_, ?_, ?_, ?_⟩
        · show sd.ls.length = 15
          exact hlend
        · show chainB 16 (X ++ b2 :: []) = true
          rw [chainB_append, Bool.and_eq_true]
          refine ⟨hchd.1, ?_⟩
          simp only [chainB, Bool.and_eq_true, decide_eq_true_eq]
          exact ⟨hchd.2.1, trivial⟩
        · show sizesB (X ++ b2 :: []) = true
          rw [sizesB_forall]
          intro x hx
          rcases List.mem_append.mp hx with h1 | h1
          · exact hszf x (by rw [hb]; simp [h1])
          · rcases List.mem_cons.mp h1 with rfl | h1
            · exact hbsz
            · cases h1
        · show ftrB (X ++ b2 :: []) = true
          rw [ftrB_forall]
          intro x hx hxf
          rcases List.mem_append.mp hx with h1 | h1
          · exact (ftrB_forall s.blocks).mp hftr x (by rw [hb]; simp [h1]) hxf
          · rcases List.mem_cons.mp h1 with rfl | h1
            · rw [hb2d] at hxf; simp at hxf
            · cases h1
        · show pvOk true (X ++ b2 :: []) = true
          rw [pvOk_append, Bool.and_eq_true]
          refine ⟨hpvd.1, ?_⟩
          simp only [pvOk, Bool.and_eq_true, decide_eq_true_eq]
          exact ⟨hpvd.2.1, trivial⟩
        · show true = endAl true (X ++ b2 :: [])
          rw [endAl_append]
          rfl
        · show adjOk true (X ++ b2 :: []) = true
          rw [adjOk_append, Bool.and_eq_true]
          refine ⟨hadjd.1, ?_⟩
          simp only [adjOk, Bool.and_eq_true, Bool.or_eq_true]
          exact ⟨Or.inr trivial, trivial⟩
        · show listedB { s2 with epiPv := true } = true
          refine listedB_of_shrink s _ ?_ ?_ hlisted ?_
          · intro k hk x hx
            exact getCl_deletex_sub s hlen b.addr asize (classOf b.size) (classOf_mem _)
              hmem hcl hothers k hk x hx
          · intro w hw hwf2 hwmem
            rw [hb] at hw
            rcases List.mem_append.mp hw with h1 | h1
            · exact ⟨w, List.mem_append_left _ h1, rfl, hwf2, rfl⟩
            · rcases List.mem_cons.mp h1 with rfl | h1
              · exact absurd hwmem hbnot
              · cases h1
          · show sd.ls.length = 15
            exact hlend
        · rw [freeListedB_forall]
          intro x hx hxf
          have hx2 : x ∈ X ∨ x ∈ ([] : List Blk) := by
            rcases List.mem_append.mp hx with h1 | h1
            · exact Or.inl h1
            · rcases List.mem_cons.mp h1 with rfl | h1
              · rw [hb2d] at hxf; simp at hxf
              · cases h1
          exact hsurv x hx2 hxf
        · show (joinLs sd).Nodup
          exact hnd1
      · intro w hw hal
        rw [hb] at hw
        refine ⟨w, ?_, rfl, hal, rfl⟩
        show w ∈ X ++ b2 :: []
        rcases List.mem_append.mp hw with h1 | h1
        · exact List.mem_append_left _ h1
        · rcases List.mem_cons.mp h1 with rfl | h1
          · rw [hfree] at hal; cases hal
          · cases h1
      · rw [mem_allocAddrs]
        refine ⟨b2, ?_, rfl, rfl⟩
        show b2 ∈ X ++ b2 :: []
        simp
    · -- an allocated block follows: its prev-allocated bit is set
      have hcd : d.addr = b.addr + b.size ∧
          chainB (b.addr + b.size + d.size) Y3 = true := by
        have h0 := hchd.2.2
        simp only [chainB, Bool.and_eq_true, decide_eq_true_eq] at h0
        exact h0
      have hpvY3 : pvOk true Y3 = true := by
        have h0 := hpvd.2.2
        rw [hfree] at h0
        simp only [pvOk, Bool.and_eq_true, decide_eq_true_eq] at h0
        have h2 := h0.2
        rw [hdY] at h2
        exact h2
      have hadjY3 : adjOk true Y3 = true := by
        have h0 := hadjd.2.2
        simp only [adjOk, Bool.and_eq_true, Bool.or_eq_true] at h0
        have h2 := h0.2
        rw [hdY] at h2
        exact h2
      have hdsz := hszf d (by rw [hb]; simp)
      have hPlen : (X ++ [b2]).length = X.length + 1 := by simp
      have hsp : setPvTrue s2 (X.length + 1) =
          { s2 with blocks := (X ++ [b2]) ++ (⟨d.addr, d.size, true, d.al,
            if d.al then d.ftr else some ⟨d.size, true, false⟩⟩ : Blk) :: Y3 } := by
        rw [← hPlen]
        exact setPvTrue_at s2 (X ++ [b2]) Y3 d
          (by show X ++ b2 :: d :: Y3 = _; simp)
      have hd2 : (⟨d.addr, d.size, true, d.al,
          if d.al then d.ftr else some ⟨d.size, true, false⟩⟩ : Blk) =
          ⟨d.addr, d.size, true, true, d.ftr⟩ := by
        rw [hdY]
        simp
      rw [hsp, hd2]
      set d2 : Blk := ⟨d.addr, d.size, true, true, d.ftr⟩ with hdd2
      set s3 : St := { s2 with blocks := (X ++ [b2]) ++ d2 :: Y3 } with hs3
      have hb3 : s3.blocks = X ++ b2 :: d2 :: Y3 := by
        show (X ++ [b2]) ++ d2 :: Y3 = X ++ b2 :: d2 :: Y3
        simp
      refine ⟨?_, rfl, ?_, ?_, hbNA⟩
      · rw [wf_iff_parts]
        refine ⟨?_, ?_, ?_, ?_, ?_, ?_, ?_, ?_, ?_, ?_⟩
        · show sd.ls.length = 15
          exact hlend
        · rw [hb3]
          rw [chainB_append, Bool.and_eq_true]
          refine ⟨hchd.1, ?_⟩
          simp only [chainB, Bool.and_eq_true, decide_eq_true_eq]
          refine ⟨hchd.2.1, ?_, ?_⟩
          · show d.addr = afterAddr 16 X + b.size
            have h1 := hchd.2.1
            have h2 := hcd.1
            omega
          · show chainB (afterAddr 16 X + b.size + d.size) Y3 = true
            have harith : afterAddr 16 X + b.size + d.size = b.addr + b.size + d.size := by
              have h1 := hchd.2.1
              omega
            rw [harith]
            exact hcd.2
        · rw [hb3, sizesB_forall]
          intro x hx
          rcases List.mem_append.mp hx with h1 | h1
          · exact hszf x (by rw [hb]; simp [h1])
          · rcases List.mem_cons.mp h1 with rfl | h1
            · exact hbsz
            · rcases List.mem_cons.mp h1 with rfl | h1
              · exact hdsz
              · exact hszf x (by rw [hb]; simp [h1])
        · rw [hb3, ftrB_forall]
          intro x hx hxf
          rcases List.mem_append.mp hx with h1 | h1
          · exact (ftrB_forall s.blocks).mp hftr x (by rw [hb]; simp [h1]) hxf
          · rcases List.mem_cons.mp h1 with rfl | h1
            · rw [hb2d] at hxf; simp at hxf
            · rcases List.mem_cons.mp h1 with rfl | h1
              · rw [hdd2] at hxf; simp at hxf
              · exact (ftrB_forall s.blocks).mp hftr x (by rw [hb]; simp [h1]) hxf
        · rw [hb3]
          rw [pvOk_append, Bool.and_eq_true]
          refine ⟨hpvd.1, ?_⟩
          simp only [pvOk, Bool.and_eq_true, decide_eq_true_eq]
          refine ⟨hpvd.2.1, trivial, ?_⟩
          show pvOk true Y3 = true
          exact hpvY3
        · rw [hb3]
          show s.epiPv = endAl true (X ++ b2 :: d2 :: Y3)
          rw [hepi, hb, endAl_append, endAl_append]
          simp only [endAl]
          rw [hdY]
        · rw [hb3]
          rw [adjOk_append, Bool.and_eq_true]
          refine ⟨hadjd.1, ?_⟩
          simp only [adjOk, Bool.and_eq_true, Bool.or_eq_true]
          refine ⟨Or.inr trivial, Or.inl trivial, ?_⟩
          show adjOk true Y3 = true
          exact hadjY3
        · refine listedB_of_shrink s s3 ?_ ?_ hlisted ?_
          · intro k hk x hx
            exact getCl_deletex_sub s hlen b.addr asize (classOf b.size) (classOf_mem _)
              hmem hcl hothers k hk x hx
          · intro w hw hwf2 hwmem
            rw [hb] at hw
            rcases List.mem_append.mp hw with h1 | h1
            · refine ⟨w, ?_, rfl, hwf2, rfl⟩
              rw [hb3]
              exact List.mem_append_left _ h1
            · rcases List.mem_cons.mp h1 with rfl | h1
              · exact absurd hwmem hbnot
              · rcases List.mem_cons.mp h1 with rfl | h1
                · rw [hdY] at hwf2; cases hwf2
                · refine ⟨w, ?_, rfl, hwf2, rfl⟩
                  rw [hb3]
                  exact List.mem_append_right _ (List.mem_cons_of_mem _
                    (List.mem_cons_of_mem _ h1))
          · show sd.ls.length = 15
            exact hlend
        · rw [freeListedB_forall]
          intro x hx hxf
          rw [hb3] at hx
          have hx2 : x ∈ X ∨ x ∈ d :: Y3 := by
            rcases List.mem_append.mp hx with h1 | h1
            · exact Or.inl h1
            · rcases List.mem_cons.mp h1 with rfl | h1
              · rw [hb2d] at hxf; simp at hxf
              · rcases List.mem_cons.mp h1 with rfl | h1
                · rw [hdd2] at hxf; simp at hxf
                · exact Or.inr (List.mem_cons_of_mem _ h1)
          exact hsurv x hx2 hxf
        · show (joinLs sd).Nodup
          exact hnd1
      · intro w hw hal
        rw [hb] at hw
        rcases List.mem_append.mp hw with h1 | h1
        · refine ⟨w, ?_, rfl, hal, rfl⟩
          rw [hb3]
          exact List.mem_append_left _ h1
        · rcases List.mem_cons.mp h1 with rfl | h1
          · rw [hfree] at hal; cases hal
          · rcases List.mem_cons.mp h1 with rfl | h1
            · refine ⟨d2, ?_, rfl, rfl, rfl⟩
              rw [hb3]
              exact List.mem_append_right _ (List.mem_cons_of_mem _
                (List.mem_cons_self _ _))
            · refine ⟨w, ?_, rfl, hal, rfl⟩
              rw [hb3]
              exact List.mem_append_right _ (List.mem_cons_of_mem _
                (List.mem_cons_of_mem _ h1))
      · rw [mem_allocAddrs]
        refine ⟨b2, ?_, rfl, rfl⟩
        rw [hb3]
        show b2 ∈ X ++ b2 :: d2 :: Y3
        simp

/-- Shape of `mm_free` when the freed block is last: header/footer rewritten
free, epilogue prev-allocated bit cleared, then coalesce. -/
theorem mm_free_case_last (s : St) (X : List Blk) (b : Blk)
    (hb : s.blocks = X ++ b :: []) (hch : chainB 16 s.blocks = true)
    (hsz : ∀ x ∈ s.blocks, 1 ≤ x.size) (hinit : s.initDone = true)
    (hp0 : ¬ b.addr = 0) :
    mm_free s b.addr =
      (coalesce { s with blocks := X ++ (⟨b.addr, b.size, b.pv, false,
          some ⟨b.size, b.pv, false⟩⟩ : Blk) :: [], epiPv := false } b.addr).1 := by
  unfold mm_free
  rw [if_neg hp0, hinit, if_pos rfl]
  dsimp only
  rw [idxAt_resolve s X [] b hb hch hsz]
  dsimp only
  rw [hb, getD_mid, set_mid, get?_mid_succ]
  rw [hinit]
  rfl

/-- Shape of `mm_free` with a following block: header/footer rewritten free, the
next block's prev-allocated bit cleared (its footer rewritten when free), then
coalesce. -/
theorem mm_free_case_next (s : St) (X Y3 : List Blk) (b d : Blk)
    (hb : s.blocks = X ++ b :: d :: Y3) (hch : chainB 16 s.blocks = true)
    (hsz : ∀ x ∈ s.blocks, 1 ≤ x.size) (hinit : s.initDone = true)
    (hp0 : ¬ b.addr = 0) :
    mm_free s b.addr =
      (coalesce { s with blocks := X ++ (⟨b.addr, b.size, b.pv, false,
          some ⟨b.size, b.pv, false⟩⟩ : Blk) :: (⟨d.addr, d.size, false, d.al,
          if d.al then d.ftr else some ⟨d.size, false, false⟩⟩ : Blk) :: Y3 }
        b.addr).1 := by
  unfold mm_free
  rw [if_neg hp0, hinit, if_pos rfl]
  dsimp only
  rw [idxAt_resolve s X (d :: Y3) b hb hch hsz]
  dsimp only
  rw [hb, getD_mid, set_mid, get?_mid_succ]
  dsimp only [List.head?_cons]
  by_cases hda : d.al = true
  · rw [if_pos hda]
    have hs2 : (X ++ (⟨b.addr, b.size, b.pv, false,
        some ⟨b.size, b.pv, false⟩⟩ : Blk) :: d :: Y3).set (X.length + 1)
        { d with pv := false } =
        X ++ (⟨b.addr, b.size, b.pv, false, some ⟨b.size, b.pv, false⟩⟩ : Blk) ::
          ({ d with pv := false } : Blk) :: Y3 := by
      have h := set_mid (X ++ [(⟨b.addr, b.size, b.pv, false,
        some ⟨b.size, b.pv, false⟩⟩ : Blk)]) Y3 d ({ d with pv := false } : Blk)
      simpa [List.append_assoc] using h
    rw [hs2]
    have hd2 : ({ d with pv := false } : Blk) =
        (⟨d.addr, d.size, false, d.al, if d.al then d.ftr
          else some ⟨d.size, false, false⟩⟩ : Blk) := by
      rw [hda]
      simp
    rw [hd2, hinit]
  · have hfda : d.al = false := by revert hda; cases d.al <;> simp
    rw [if_neg hda]
    have hs2 : (X ++ (⟨b.addr, b.size, b.pv, false,
        some ⟨b.size, b.pv, false⟩⟩ : Blk) :: d :: Y3).set (X.length + 1)
        { d with pv := false, ftr := some ⟨d.size, false, false⟩ } =
        X ++ (⟨b.addr, b.size, b.pv, false, some ⟨b.size, b.pv, false⟩⟩ : Blk) ::
          ({ d with pv := false, ftr := some ⟨d.size, false, false⟩ } : Blk) :: Y3 := by
      have h := set_mid (X ++ [(⟨b.addr, b.size, b.pv, false,
        some ⟨b.size, b.pv, false⟩⟩ : Blk)]) Y3 d
        ({ d with pv := false, ftr := some ⟨d.size, false, false⟩ } : Blk)
      simpa [List.append_assoc] using h
    rw [hs2]
    have hd2 : ({ d with pv := false, ftr := some ⟨d.size, false, false⟩ } : Blk) =
        (⟨d.addr, d.size, false, d.al, if d.al then d.ftr
          else some ⟨d.size, false, false⟩⟩ : Blk) := by
      rw [hfda]
      simp
    rw [hd2, hinit]

theorem free_wf (s : St) (X Y : List Blk) (b : Blk)
    (hb : s.blocks = X ++ b :: Y) (hwf : Wf s) (hal : b.al = true)
    (hinit : s.initDone = true) :
    Wf (mm_free s b.addr) ∧
    (mm_free s b.addr).initDone = true ∧
    ∀ q ∈ allocAddrs s, q ≠ b.addr → q ∈ allocAddrs (mm_free s b.addr) := by
  obtain ⟨hlen, hch, hsz, hftr, hpv, hepi, hadj, hlisted, hfreeL0, hnd⟩ := wf_unpack s hwf
  have hfreeLf := (freeListedB_forall s).mp hfreeL0
  have hsz1 : ∀ x ∈ s.blocks, 1 ≤ x.size := by
    intro x hx
    have := (sizesB_forall s.blocks).mp hsz x hx
    omega
  have hszf := (sizesB_forall s.blocks).mp hsz
  have hbsz := hszf b (by rw [hb]; simp)
  have hchd := chainB_decomp X Y b (hb ▸ hch)
  have hpvd := pvOk_decomp X Y b (hb ▸ hpv)
  have hlt := chain_lt_of_append 16 X Y b (hb ▸ hch) (hb ▸ hsz1)
  have hp0 : ¬ b.addr = 0 := by
    have := chain_mem_ge 16 s.blocks hch b (by rw [hb]; simp)
    omega
  have hbnotJ : b.addr ∉ joinLs s := by
    intro h
    obtain ⟨w, hw, hwa, hwal⟩ := listed_block s hlen hlisted b.addr h
    rw [hb] at hw
    rcases List.mem_append.mp hw with h1 | h1
    · have := hlt.1 w h1; omega
    · rcases List.mem_cons.mp h1 with rfl | h1
      · rw [hal] at hwal; cases hwal
      · have h2 := chain_mem_ge (b.addr + b.size) Y hchd.2.2 w h1
        have h3 := hbsz.1
        omega
  have hadjd : adjOk true X = true ∧ adjOk true Y = true := by
    rw [hb, adjOk_append, Bool.and_eq_true] at hadj
    refine ⟨hadj.1, ?_⟩
    have h0 := hadj.2
    simp only [adjOk, Bool.and_eq_true, Bool.or_eq_true] at h0
    have h2 := h0.2
    rw [hal] at h2
    exact h2
  cases Y with
  | nil =>
    rw [mm_free_case_last s X b hb hch hsz1 hinit hp0]
    set b2 : Blk := ⟨b.addr, b.size, b.pv, false, some ⟨b.size, b.pv, false⟩⟩ with hb2
    set s2 : St := { s with blocks := X ++ b2 :: [], epiPv := false } with hs2
    have hch2 : chainB 16 s2.blocks = true := by
      show chainB 16 (X ++ b2 :: []) = true
      rw [chainB_append, Bool.and_eq_true]
      refine ⟨hchd.1, ?_⟩
      simp only [chainB, Bool.and_eq_true, decide_eq_true_eq]
      exact ⟨hchd.2.1, trivial⟩
    have hsz2 : sizesB s2.blocks = true := by
      rw [sizesB_forall]
      intro x hx
      rcases List.mem_append.mp hx with h1 | h1
      · exact hszf x (by rw [hb]; simp [h1])
      · rcases List.mem_cons.mp h1 with rfl | h1
        · exact hbsz
        · cases h1
    have hftr2 : ftrB s2.blocks = true := by
      rw [ftrB_forall]
      intro x hx hxf
      rcases List.mem_append.mp hx with h1 | h1
      · exact (ftrB_forall s.blocks).mp hftr x (by rw [hb]; simp [h1]) hxf
      · rcases List.mem_cons.mp h1 with rfl | h1
        · rfl
        · cases h1
    have hpv2 : pvOk true s2.blocks = true := by
      show pvOk true (X ++ b2 :: []) = true
      rw [pvOk_append, Bool.and_eq_true]
      refine ⟨hpvd.1, ?_⟩
      simp only [pvOk, Bool.and_eq_true, decide_eq_true_eq]
      exact ⟨hpvd.2.1, trivial⟩
    have hepi2 : s2.epiPv = endAl true s2.blocks := by
      show false = endAl true (X ++ b2 :: [])
      rw [endAl_append]
      rfl
    have hlisted2 : listedB s2 = true := by
      rw [listedB_forall]
      intro c hc a ha
      obtain ⟨w, hw, hwa, hwal, hwc⟩ := (listedB_forall s).mp hlisted c hc a ha
      rw [hb] at hw
      rcases List.mem_append.mp hw with h1 | h1
      · exact ⟨w, List.mem_append_left _ h1, hwa, hwal, hwc⟩
      · rcases List.mem_cons.mp h1 with rfl | h1
        · rw [hal] at hwal; cases hwal
        · cases h1
    have hfreeL2 : ∀ x ∈ s2.blocks, x.al = false → x ≠ b2 →
        x.addr ∈ getCl s2.ls (classOf x.size) := by
      intro x hx hxf hxr
      rcases List.mem_append.mp hx with h1 | h1
      · exact hfreeLf x (by rw [hb]; simp [h1]) hxf
      · rcases List.mem_cons.mp h1 with rfl | h1
        · exact absurd rfl hxr
        · cases h1
    obtain ⟨hwf2, hA2, hW2, hE2, hex⟩ := coalesce_wf s2 X [] b2 rfl hlen hch2 hsz2
      hftr2 hpv2 hepi2 hadjd.1 rfl rfl hlisted2 hfreeL2 hbnotJ hnd
    refine ⟨hwf2, ?_, ?_⟩
    · rw [coalesce_initDone]
      exact hinit
    · intro q hq hqb
      have hq2 : q ∈ allocAddrs s2 := by
        obtain ⟨w, hw, hwal, hwaddr⟩ := (mem_allocAddrs s q).mp hq
        rw [hb] at hw
        rw [mem_allocAddrs]
        rcases List.mem_append.mp hw with h1 | h1
        · exact ⟨w, List.mem_append_left _ h1, hwal, hwaddr⟩
        · rcases List.mem_cons.mp h1 with rfl | h1
          · exact absurd hwaddr.symm hqb
          · cases h1
      rw [← hA2] at hq2
      exact hq2
  | cons d Y3 =>
    rw [mm_free_case_next s X Y3 b d hb hch hsz1 hinit hp0]
    set b2 : Blk := ⟨b.addr, b.size, b.pv, false, some ⟨b.size, b.pv, false⟩⟩ with hb2
    set d2 : Blk := ⟨d.addr, d.size, false, d.al,
      if d.al then d.ftr else some ⟨d.size, false, false⟩⟩ with hd2
    set s2 : St := { s with blocks := X ++ b2 :: d2 :: Y3 } with hs2
    have hcd : d.addr = b.addr + b.size ∧
        chainB (b.addr + b.size + d.size) Y3 = true := by
      have h0 := hchd.2.2
      simp only [chainB, Bool.and_eq_true, decide_eq_true_eq] at h0
      exact h0
    have hdsz := hszf d (by rw [hb]; simp)
    have hch2 : chainB 16 s2.blocks = true := by
      show chainB 16 (X ++ b2 :: d2 :: Y3) = true
      rw [chainB_append, Bool.and_eq_true]
      refine ⟨hchd.1, ?_⟩
      simp only [chainB, Bool.and_eq_true, decide_eq_true_eq]
      refine ⟨hchd.2.1, ?_, ?_⟩
      · show d.addr = afterAddr 16 X + b.size
        have h1 := hchd.2.1
        have h2 := hcd.1
        omega
      · show chainB (afterAddr 16 X + b.size + d.size) Y3 = true
        have harith : afterAddr 16 X + b.size + d.size = b.addr + b.size + d.size := by
          have h1 := hchd.2.1
          omega
        rw [harith]
        exact hcd.2
    have hsz2 : sizesB s2.blocks = true := by
      rw [sizesB_forall]
      intro x hx
      rcases List.mem_append.mp hx with h1 | h1
      · exact hszf x (by rw [hb]; simp [h1])
      · rcases List.mem_cons.mp h1 with rfl | h1
        · exact hbsz
        · rcases List.mem_cons.mp h1 with rfl | h1
          · exact hdsz
          · exact hszf x (by rw [hb]; simp [h1])
    have hftr2 : ftrB s2.blocks = true := by
      rw [ftrB_forall]
      intro x hx hxf
      rcases List.mem_append.mp hx with h1 | h1
      · exact (ftrB_forall s.blocks).mp hftr x (by rw [hb]; simp [h1]) hxf
      · rcases List.mem_cons.mp h1 with rfl | h1
        · rfl
        · rcases List.mem_cons.mp h1 with rfl | h1
          · have hdf : d.al = false := hxf
            show (⟨d.addr, d.size, false, d.al,
              if d.al then d.ftr else some ⟨d.size, false, false⟩⟩ : Blk).ftr =
              some ⟨d.size, false, false⟩
            rw [hdf]
            simp
          · exact (ftrB_forall s.blocks).mp hftr x (by rw [hb]; simp [h1]) hxf
    have hpv2 : pvOk true s2.blocks = true := by
      show pvOk true (X ++ b2 :: d2 :: Y3) = true
      rw [pvOk_append, Bool.and_eq_true]
      refine ⟨hpvd.1, ?_⟩
      simp only [pvOk, Bool.and_eq_true, decide_eq_true_eq]
      refine ⟨hpvd.2.1, trivial, ?_⟩
      show pvOk d.al Y3 = true
      have h0 := hpvd.2.2
      rw [hal] at h0
      simp only [pvOk, Bool.and_eq_true, decide_eq_true_eq] at h0
      exact h0.2
    have hepi2 : s2.epiPv = endAl true s2.blocks := by
      show s.epiPv = endAl true (X ++ b2 :: d2 :: Y3)
      rw [hepi, hb, endAl_append, endAl_append]
      rfl
    have hadjY2 : adjOk true (d2 :: Y3) = true := by
      simp only [adjOk, Bool.and_eq_true, Bool.or_eq_true]
      refine ⟨Or.inl trivial, ?_⟩
      have h0 := hadjd.2
      simp only [adjOk, Bool.and_eq_true] at h0
      show adjOk d.al Y3 = true
      exact h0.2
    have hlisted2 : listedB s2 = true := by
      rw [listedB_forall]
      intro c hc a ha
      obtain ⟨w, hw, hwa, hwal, hwc⟩ := (listedB_forall s).mp hlisted c hc a ha
      rw [hb] at hw
      rcases List.mem_append.mp hw with h1 | h1
      · exact ⟨w, List.mem_append_left _ h1, hwa, hwal, hwc⟩
      · rcases List.mem_cons.mp h1 with rfl | h1
        · rw [hal] at hwal; cases hwal
        · rcases List.mem_cons.mp h1 with rfl | h1
          · exact ⟨d2, List.mem_append_right _ (List.mem_cons_of_mem _
              (List.mem_cons_self _ _)), hwa, hwal, hwc⟩
          · exact ⟨w, List.mem_append_right _ (List.mem_cons_of_mem _
              (List.mem_cons_of_mem _ h1)), hwa, hwal, hwc⟩
    have hfreeL2 : ∀ x ∈ s2.blocks, x.al = false → x ≠ b2 →
        x.addr ∈ getCl s2.ls (classOf x.size) := by
      intro x hx hxf hxr
      rcases List.mem_append.mp hx with h1 | h1
      · exact hfreeLf x (by rw [hb]; simp [h1]) hxf
      · rcases List.mem_cons.mp h1 with rfl | h1
        · exact absurd rfl hxr
        · rcases List.mem_cons.mp h1 with rfl | h1
          · have hdf : d.al = false := hxf
            exact hfreeLf d (by rw [hb]; simp) hdf
          · exact hfreeLf x (by rw [hb]; simp [h1]) hxf
    obtain ⟨hwf2, hA2, hW2, hE2, hex⟩ := coalesce_wf s2 X (d2 :: Y3) b2 rfl hlen hch2
      hsz2 hftr2 hpv2 hepi2 hadjd.1 hadjY2 rfl hlisted2 hfreeL2 hbnotJ hnd
    refine ⟨hwf2, ?_, ?_⟩
    · rw [coalesce_initDone]
      exact hinit
    · intro q hq hqb
      have hq2 : q ∈ allocAddrs s2 := by
        obtain ⟨w, hw, hwal, hwaddr⟩ := (mem_allocAddrs s q).mp hq
        rw [hb] at hw
        rw [mem_allocAddrs]
        rcases List.mem_append.mp hw with h1 | h1
        · exact ⟨w, List.mem_append_left _ h1, hwal, hwaddr⟩
        · rcases List.mem_cons.mp h1 with rfl | h1
          · exact absurd hwaddr.symm hqb
          · rcases List.mem_cons.mp h1 with rfl | h1
            · exact ⟨d2, List.mem_append_right _ (List.mem_cons_of_mem _
                (List.mem_cons_self _ _)), hwal, hwaddr⟩
            · exact ⟨w, List.mem_append_right _ (List.mem_cons_of_mem _
                (List.mem_cons_of_mem _ h1)), hwal, hwaddr⟩
      rw [← hA2] at hq2
      exact hq2

theorem extend_heap_fail (s : St) (w : Nat)
    (h : s.cap < (if w % 2 = 1 then w + 1 else w) * 4) :
    extend_heap s w = (s, none) := by
  unfold extend_heap
  dsimp only
  rw [if_pos h]





theorem extend_heap_go (s : St) (w : Nat)
    (h : ¬ s.cap < (if w % 2 = 1 then w + 1 else w) * 4) :
    extend_heap s w =
      ((coalesce (extSt s w) (heapTop s)).1,
       some (coalesce (extSt s w) (heapTop s)).2) := by
  unfold extend_heap
  dsimp only
  rw [if_neg h]
  rfl

theorem extend_heap_wf (s : St) (w : Nat) (hwf : Wf s) (h3 : 3 ≤ w) :
    Wf (extend_heap s w).1 ∧
    (extend_heap s w).1.initDone = s.initDone ∧
    allocAddrs (extend_heap s w).1 = allocAddrs s ∧
    (∀ x ∈ s.blocks, x.al = true → x ∈ (extend_heap s w).1.blocks) ∧
    ∀ p, (extend_heap s w).2 = some p →
      ∃ X2 m Y2, (extend_heap s w).1.blocks = X2 ++ m :: Y2 ∧ m.addr = p ∧
        m.al = false ∧ (if w % 2 = 1 then w + 1 else w) * 4 ≤ m.size := by
  obtain ⟨hlen, hch, hsz, hftr, hpv, hepi, hadj, hlisted, hfreeL0, hnd⟩ := wf_unpack s hwf
  have hfreeLf := (freeListedB_forall s).mp hfreeL0
  have hsz1 : ∀ x ∈ s.blocks, 1 ≤ x.size := by
    intro x hx
    have := (sizesB_forall s.blocks).mp hsz x hx
    omega
  have hszf := (sizesB_forall s.blocks).mp hsz
  by_cases hcap : s.cap < (if w % 2 = 1 then w + 1 else w) * 4
  · rw [extend_heap_fail s w hcap]
    exact ⟨hwf, rfl, rfl, fun x hx _ => hx, fun p hp => by cases hp⟩
  · rw [extend_heap_go s w hcap]
    have hsz16 : 16 ≤ (if w % 2 = 1 then w + 1 else w) * 4 ∧
        (if w % 2 = 1 then w + 1 else w) * 4 % 8 = 0 := by
      by_cases hw2 : w % 2 = 1
      · rw [if_pos hw2]
        omega
      · rw [if_neg hw2]
        omega
    set nb : Blk := extBlk s w with hnb
    set s1 : St := extSt s w with hs1
    have hb1 : s1.blocks = s.blocks ++ nb :: [] := rfl
    have htop : heapTop s = afterAddr 16 s.blocks := heapTop_eq s hch
    have hch1 : chainB 16 s1.blocks = true := by
      show chainB 16 (s.blocks ++ nb :: []) = true
      rw [chainB_append, Bool.and_eq_true]
      refine ⟨hch, ?_⟩
      simp only [chainB, Bool.and_eq_true, decide_eq_true_eq]
      exact ⟨htop, trivial⟩
    have hsz1' : sizesB s1.blocks = true := by
      rw [hb1, sizesB_forall]
      intro x hx
      rcases List.mem_append.mp hx with h1 | h1
      · exact hszf x h1
      · rcases List.mem_cons.mp h1 with rfl | h1
        · exact hsz16
        · cases h1
    have hftr1 : ftrB s1.blocks = true := by
      rw [hb1, ftrB_forall]
      intro x hx hxf
      rcases List.mem_append.mp hx with h1 | h1
      · exact (ftrB_forall s.blocks).mp hftr x h1 hxf
      · rcases List.mem_cons.mp h1 with rfl | h1
        · rfl
        · cases h1
    have hpv1 : pvOk true s1.blocks = true := by
      show pvOk true (s.blocks ++ nb :: []) = true
      rw [pvOk_append, Bool.and_eq_true]
      refine ⟨hpv, ?_⟩
      simp only [pvOk, Bool.and_eq_true, decide_eq_true_eq]
      exact ⟨hepi, trivial⟩
    have hepi1 : s1.epiPv = endAl true s1.blocks := by
      show false = endAl true (s.blocks ++ nb :: [])
      rw [endAl_append]
      rfl
    have hlisted1 : listedB s1 = true := by
      rw [listedB_forall]
      intro c hc a ha
      obtain ⟨x, hx, hxa, hxal, hxc⟩ := (listedB_forall s).mp hlisted c hc a ha
      refine ⟨x, ?_, hxa, hxal, hxc⟩
      rw [hb1]
      exact List.mem_append_left _ hx
    have hfreeL1 : ∀ x ∈ s1.blocks, x.al = false → x ≠ nb →
        x.addr ∈ getCl s1.ls (classOf x.size) := by
      intro x hx hxf hxr
      rw [hb1] at hx
      rcases List.mem_append.mp hx with h1 | h1
      · exact hfreeLf x h1 hxf
      · rcases List.mem_cons.mp h1 with rfl | h1
        · exact absurd rfl hxr
        · cases h1
    have hunl1 : nb.addr ∉ joinLs s1 := by
      intro h
      obtain ⟨x, hx, hxa, _⟩ := listed_block s hlen hlisted _ h
      have h1 := mem_addr_lt_afterAddr 16 s.blocks hch hsz1 x hx
      have h2 : nb.addr = afterAddr 16 s.blocks := htop
      rw [hxa] at h1
      omega
    obtain ⟨hwf2, hA2, hW2, hE2, m, X2, Y2, hblk, hret, hmal, hmsz⟩ :=
      coalesce_wf s1 s.blocks [] nb hb1 hlen hch1 hsz1' hftr1 hpv1 hepi1 hadj rfl
        rfl hlisted1 hfreeL1 hunl1 hnd
    have hA2' : allocAddrs (coalesce s1 (heapTop s)).1 = allocAddrs s1 := hA2
    have hAs1 : allocAddrs s1 = allocAddrs s := by
      unfold allocAddrs
      show ((s.blocks ++ nb :: []).filter fun x => x.al).map Blk.addr =
        (s.blocks.filter fun x => x.al).map Blk.addr
      rw [List.filter_append, List.filter_cons_of_neg (by simp [hnb, extBlk]),
        List.filter_nil, List.append_nil]
    refine ⟨hwf2, ?_, ?_, ?_, ?_⟩
    · show (coalesce s1 (heapTop s)).1.initDone = s.initDone
      rw [coalesce_initDone]
      rfl
    · show allocAddrs (coalesce s1 (heapTop s)).1 = allocAddrs s
      rw [hA2', hAs1]
    · intro x hx hal
      refine hW2 x ?_ hal
      rw [hb1]
      exact List.mem_append_left _ hx
    · intro p hp
      have hp2 : (coalesce s1 (heapTop s)).2 = p := by
        injection hp
      refine ⟨X2, m, Y2, hblk, ?_, hmal, hmsz⟩
      rw [← hp2]
      exact hret.symm

theorem mm_init_wf (s : St) :
    Wf (mm_init s) ∧ (mm_init s).initDone = true ∧ allocAddrs (mm_init s) = [] := by
  unfold mm_init
  dsimp only
  by_cases hc : s.cap < 16
  · rw [if_pos hc]
    exact ⟨rfl, rfl, rfl⟩
  · rw [if_neg hc]
    obtain ⟨h1, h2, h3, _, _⟩ := extend_heap_wf
      (⟨true, [], true, freshLists, s.cap - 16⟩ : St) 1024 rfl (by omega)
    exact ⟨h1, h2, h3⟩

/-- Provenance of a `find_fit` hit: the returned pointer sits on a class list
whose guard accepts `asize`, and its stored size is at least `asize`. -/
theorem find_fit_src (s : St) (asize p : Nat) (h : find_fit s asize = some p) :
    ∃ c ∈ classSeq, clPred asize c = true ∧ p ∈ getCl s.ls c ∧
      asize ≤ sizeAt s p := by
  unfold find_fit at h
  suffices h2 : ∀ cs : List Nat, ffCascade s asize cs = some p →
      ∃ c ∈ cs, clPred asize c = true ∧ p ∈ getCl s.ls c ∧ asize ≤ sizeAt s p by
    exact h2 classSeq h
  intro cs
  induction cs with
  | nil =>
    intro h0
    rw [show ffCascade s asize [] = none from rfl] at h0
    cases h0
  | cons c cs ih =>
    intro h0
    rw [ffCascade_cons] at h0
    by_cases hcl : clPred asize c = true
    · rw [if_pos hcl] at h0
      cases hfind : (getCl s.ls c).find? fun a => decide (asize ≤ sizeAt s a) with
      | some a =>
        rw [hfind] at h0
        have hap : a = p := by injection h0
        subst hap
        refine ⟨c, by simp, hcl, List.mem_of_find?_eq_some hfind, ?_⟩
        have := List.find?_some hfind
        simpa using this
      | none =>
        rw [hfind] at h0
        obtain ⟨c2, hc2, h3⟩ := ih h0
        exact ⟨c2, List.mem_cons_of_mem _ hc2, h3⟩
    · rw [if_neg hcl] at h0
      obtain ⟨c2, hc2, h3⟩ := ih h0
      exact ⟨c2, List.mem_cons_of_mem _ hc2, h3⟩

/-- The size-class guard accepts any request not exceeding the stored size,
for blocks too large for the two singleton classes. -/
theorem clPred_big (k a : Nat) (hk : 112 < k) (ha : a ≤ k) :
    clPred a (classOf k) = true := by
  rcases classOf_spec k with ⟨h1, hc⟩ | ⟨h1, h2, hc⟩ | ⟨h1, h2, hc⟩ | ⟨h1, hc⟩ |
    ⟨h1, hc⟩ | ⟨h1, h2, h3, h4, hc⟩ | ⟨h1, h2, hc⟩ | ⟨h1, h2, hc⟩ | ⟨h1, h2, hc⟩ |
    ⟨h1, h2, hc⟩ | ⟨h1, h2, hc⟩ | ⟨h1, h2, hc⟩ | ⟨h1, h2, hc⟩ | ⟨h1, h2, hc⟩ |
    ⟨h1, hc⟩ <;>
    rw [hc] <;>
    simp only [clPred_c1, clPred_c2, clPred_c3, clPred_c4, clPred_c5, clPred_c6,
      clPred_c7, clPred_c8, clPred_c9, clPred_c10, clPred_c11, clPred_c12,
      clPred_c13, clPred_c14, clPred_c15, num01, num02, num03, num04, num05, num06,
      num07, num08, num09, num10, num11, num12, num13, num14,
      decide_eq_true_eq] <;>
    omega

theorem asizeOf_bounds (n : Nat) (hn : n + 12 ≤ 2 ^ 64) :
    16 ≤ asizeOf n ∧ asizeOf n % 8 = 0 := by
  unfold asizeOf
  by_cases h8 : n ≤ 8
  · rw [if_pos h8]
    omega
  · rw [if_neg h8]
    have hmod : (4 + n + 7) % 2 ^ 64 = 4 + n + 7 := Nat.mod_eq_of_lt (by omega)
    rw [hmod]
    omega

theorem mm_malloc_wf (s : St) (n : Nat) (hwf : Wf s) (hinit : s.initDone = true)
    (hn : n + 12 ≤ 2 ^ 64) :
    Wf (mm_malloc s n).1 ∧
    (mm_malloc s n).1.initDone = true ∧
    (∀ w ∈ s.blocks, w.al = true →
      ∃ w2 ∈ (mm_malloc s n).1.blocks, w2.addr = w.addr ∧ w2.al = true ∧
        w2.size = w.size) ∧
    (∀ p, (mm_malloc s n).2 = some p →
      p ∈ allocAddrs (mm_malloc s n).1 ∧ p ∉ allocAddrs s) ∧
    ((mm_malloc s n).2 = none → (mm_malloc s n).1 = s) := by
  unfold mm_malloc
  rw [hinit, if_pos rfl]
  dsimp only
  by_cases hn0 : n = 0
  · rw [if_pos hn0]
    refine ⟨hwf, hinit, fun w hw hal => ⟨w, hw, rfl, hal, rfl⟩, ?_, fun _ => rfl⟩
    intro p hp
    cases hp
  · rw [if_neg hn0]
    have hasz := asizeOf_bounds n hn
    obtain ⟨hlen, hch, hsz, hftr, hpv, hepi, hadj, hlisted, hfreeL0, hnd⟩ :=
      wf_unpack s hwf
    have hsz1 : ∀ x ∈ s.blocks, 1 ≤ x.size := by
      intro x hx
      have := (sizesB_forall s.blocks).mp hsz x hx
      omega
    cases hff : find_fit s (asizeOf n) with
    | some bp =>
      dsimp only
      obtain ⟨c, hcmem, hclp, hpin, hple⟩ := find_fit_src s (asizeOf n) bp hff
      obtain ⟨b, hbmem, hbaddr, hbal, hbc⟩ :=
        (listedB_forall s).mp hlisted c hcmem bp hpin
      subst hbaddr
      obtain ⟨X, Y, hXY⟩ := List.append_of_mem hbmem
      have hsa : sizeAt s b.addr = b.size := sizeAt_resolve s X Y b hXY hch hsz1
      rw [hsa] at hple
      rw [← hbc] at hclp
      obtain ⟨hw1, hw2, hw3, hw4, hw5⟩ :=
        place_wf s X Y b (asizeOf n) hXY hwf hbal hasz.1 hasz.2 hple hclp
      refine ⟨hw1, ?_, hw3, ?_, ?_⟩
      · rw [hw2]
        exact hinit
      · intro p hp
        have hp2 : (place s b.addr (asizeOf n)).2 = p := by injection hp
        rw [← hp2]
        exact ⟨hw4, hw5⟩
      · intro hp
        cases hp
    | none =>
      dsimp only
      have h3w : 3 ≤ max (asizeOf n) 4096 / 4 := by
        have := Nat.le_max_right (asizeOf n) 4096
        omega
      set wds := max (asizeOf n) 4096 / 4 with hwds
      obtain ⟨he1, he2, he3, he4, he5⟩ := extend_heap_wf s wds hwf h3w
      rcases hee : extend_heap s wds with ⟨s1, r2⟩
      rw [hee] at he1 he2 he3 he4 he5
      cases r2 with
      | none =>
        dsimp only
        have hfail : extend_heap s wds = (s, none) := by
          by_cases hcap : s.cap < (if wds % 2 = 1 then wds + 1 else wds) * 4
          · exact extend_heap_fail s wds hcap
          · rw [extend_heap_go s wds hcap] at hee
            simp at hee
        have hs1 : s1 = s := by
          rw [hfail] at hee
          injection hee.symm
        subst hs1
        refine ⟨he1, ?_, fun w hw hal => ⟨w, he4 w hw hal, rfl, hal, rfl⟩, ?_,
          fun _ => rfl⟩
        · rw [he2]
          exact hinit
        · intro p hp
          cases hp
      | some bp =>
        dsimp only
        obtain ⟨X2, m, Y2, hblk, hmaddr, hmal, hmsz⟩ := he5 bp rfl
        have hext8 : max (asizeOf n) 4096 % 8 = 0 := by
          rcases Nat.le_total (asizeOf n) 4096 with h | h
          · rw [Nat.max_eq_right h]
          · rw [Nat.max_eq_left h]
            exact hasz.2
        have hsz' : (if wds % 2 = 1 then wds + 1 else wds) * 4 = max (asizeOf n) 4096 := by
          rw [hwds]
          have h1 := Nat.le_max_right (asizeOf n) 4096
          by_cases hw2 : (max (asizeOf n) 4096 / 4) % 2 = 1
          · exfalso
            omega
          · rw [if_neg hw2]
            omega
        have hale : asizeOf n ≤ m.size := by
          have h1 := Nat.le_max_left (asizeOf n) 4096
          rw [hsz'] at hmsz
          omega
        have hmbig : 112 < m.size := by
          have h1 := Nat.le_max_right (asizeOf n) 4096
          rw [hsz'] at hmsz
          omega
        have hclp := clPred_big m.size (asizeOf n) hmbig hale
        subst hmaddr
        obtain ⟨hw1, hw2, hw3, hw4, hw5⟩ :=
          place_wf s1 X2 Y2 m (asizeOf n) hblk he1 hmal hasz.1 hasz.2 hale hclp
        refine ⟨hw1, ?_, ?_, ?_, ?_⟩
        · rw [hw2, he2]
          exact hinit
        · intro w hw hal
          obtain ⟨w2, hw2m, hw2a, hw2al, hw2s⟩ := hw3 w (he4 w hw hal) hal
          exact ⟨w2, hw2m, hw2a, hw2al, hw2s⟩
        · intro p hp
          have hp2 : (place s1 m.addr (asizeOf n)).2 = p := by injection hp
          rw [← hp2]
          refine ⟨hw4, ?_⟩
          rw [← he3]
          exact hw5
        · intro hp
          cases hp

theorem mm_malloc_uninit (s : St) (n : Nat) (h : s.initDone = false) :
    mm_malloc s n = mm_malloc (mm_init s) n := by
  unfold mm_malloc
  rw [h, (mm_init_wf s).2.1]
  simp only [Bool.false_eq_true, if_false, if_true]

/-- One `allocate` step preserves the heap invariants and the outstanding
handles' validity. -/
theorem alloc_step (s : St) (H : List Nat) (n : Nat)
    (hwf : Wf s) (hndH : H.Nodup) (hmemH : ∀ p ∈ H, p ∈ allocAddrs s)
    (hinitH : s.initDone = false → H = []) (hn : n + 12 ≤ 2 ^ 64) :
    Wf (mm_malloc s n).1 ∧ (mm_malloc s n).1.initDone = true ∧
    (pushH H (mm_malloc s n).2).Nodup ∧
    ∀ q ∈ pushH H (mm_malloc s n).2, q ∈ allocAddrs (mm_malloc s n).1 := by
  by_cases hinit : s.initDone = true
  · obtain ⟨h1, h2, h3, h4, h5⟩ := mm_malloc_wf s n hwf hinit hn
    refine ⟨h1, h2, ?_, ?_⟩
    · cases hrv : (mm_malloc s n).2 with
      | none => exact hndH
      | some p =>
        show (p :: H).Nodup
        rw [List.nodup_cons]
        refine ⟨?_, hndH⟩
        intro hpH
        exact (h4 p hrv).2 (hmemH p hpH)
    · intro q hq
      cases hrv : (mm_malloc s n).2 with
      | none =>
        have hq' : q ∈ H := by rw [hrv] at hq; exact hq
        obtain ⟨w, hw, hwal, hwaddr⟩ := (mem_allocAddrs s q).mp (hmemH q hq')
        obtain ⟨w2, hw2, hw2a, hw2al, _⟩ := h3 w hw hwal
        exact (mem_allocAddrs _ q).mpr ⟨w2, hw2, hw2al, by rw [hw2a, hwaddr]⟩
      | some p =>
        have hq' : q = p ∨ q ∈ H := by rw [hrv] at hq; exact List.mem_cons.mp hq
        rcases hq' with rfl | hq2
        · exact (h4 q hrv).1
        · obtain ⟨w, hw, hwal, hwaddr⟩ := (mem_allocAddrs s q).mp (hmemH q hq2)
          obtain ⟨w2, hw2, hw2a, hw2al, _⟩ := h3 w hw hwal
          exact (mem_allocAddrs _ q).mpr ⟨w2, hw2, hw2al, by rw [hw2a, hwaddr]⟩
  · have hfalse : s.initDone = false := by revert hinit; cases s.initDone <;> simp
    have hH := hinitH hfalse
    subst hH
    rw [mm_malloc_uninit s n hfalse]
    obtain ⟨hwfI, hinitI, hallocI⟩ := mm_init_wf s
    obtain ⟨h1, h2, h3, h4, h5⟩ := mm_malloc_wf (mm_init s) n hwfI hinitI hn
    refine ⟨h1, h2, ?_, ?_⟩
    · cases hrv : (mm_malloc (mm_init s) n).2 with
      | none => exact List.nodup_nil
      | some p =>
        show (p :: ([] : List Nat)).Nodup
        simp
    · intro q hq
      cases hrv : (mm_malloc (mm_init s) n).2 with
      | none =>
        rw [hrv] at hq
        cases hq
      | some p =>
        have hq' : q = p := by
          rw [hrv] at hq
          rcases List.mem_cons.mp hq with h | h
          · exact h
          · cases h
        subst hq'
        exact (h4 q hrv).1

/-- One `release` step, on an outstanding pointer. -/
theorem release_step (s : St) (H : List Nat) (p : Nat)
    (hwf : Wf s) (hndH : H.Nodup) (hmemH : ∀ q ∈ H, q ∈ allocAddrs s)
    (hinitH : s.initDone = false → H = []) (hp : p ∈ H) :
    Wf (mm_free s p) ∧ (mm_free s p).initDone = true ∧
    (H.erase p).Nodup ∧
    ∀ q ∈ H.erase p, q ∈ allocAddrs (mm_free s p) := by
  have hinit : s.initDone = true := by
    cases hi : s.initDone
    · rw [hinitH hi] at hp
      cases hp
    · rfl
  obtain ⟨w, hw, hwal, hwaddr⟩ := (mem_allocAddrs s p).mp (hmemH p hp)
  obtain ⟨X, Y, hXY⟩ := List.append_of_mem hw
  subst hwaddr
  obtain ⟨hf1, hf2, hf3⟩ := free_wf s X Y w hXY hwf hwal hinit
  refine ⟨hf1, hf2, hndH.erase _, ?_⟩
  intro q hq
  have hq2 := (List.Nodup.mem_erase_iff hndH).mp hq
  exact hf3 q (hmemH q hq2.2) hq2.1

/-- The master invariant: every state reachable by non-overflowing client
sequences is well-formed, its outstanding pointers head distinct allocated
blocks, and the handle list is empty until the heap is initialized. -/
theorem reach_inv (s : St) (H : List Nat) (hr : Reach s H) :
    Wf s ∧ handlesOK s H ∧ (s.initDone = false → H = []) := by
  induction hr with
  | start cap hcap =>
    refine ⟨rfl, ⟨List.nodup_nil, ?_⟩, fun _ => rfl⟩
    intro p hp
    cases hp
  | alloc s H n hr hn ih =>
    obtain ⟨hwf, ⟨hndH, hmemH⟩, hinitH⟩ := ih
    obtain ⟨h1, h2, h3, h4⟩ := alloc_step s H n hwf hndH hmemH hinitH hn
    exact ⟨h1, ⟨h3, h4⟩, fun hcontra => by rw [h2] at hcontra; cases hcontra⟩
  | release s H p hr hp ih =>
    obtain ⟨hwf, ⟨hndH, hmemH⟩, hinitH⟩ := ih
    obtain ⟨h1, h2, h3, h4⟩ := release_step s H p hwf hndH hmemH hinitH hp
    exact ⟨h1, ⟨h3, h4⟩, fun hcontra => by rw [h2] at hcontra; cases hcontra⟩
  | changeSize s H p n hr hp hn ih =>
    obtain ⟨hwf, ⟨hndH, hmemH⟩, hinitH⟩ := ih
    by_cases hn0 : n = 0
    · subst hn0
      have hre : mm_realloc s p 0 = (mm_free s p, none, none) := by
        unfold mm_realloc
        rw [if_pos rfl]
      rw [hre]
      show Wf (mm_free s p) ∧ handlesOK (mm_free s p) (rHandles H p none 0) ∧ _
      have hrh : rHandles H p none 0 = H.erase p := by
        unfold rHandles
        rw [if_pos rfl]
      rw [hrh]
      rcases hp with hp | hp
      · obtain ⟨h1, h2, h3, h4⟩ := release_step s H p hwf hndH hmemH hinitH hp
        exact ⟨h1, ⟨h3, h4⟩, fun hcontra => by rw [h2] at hcontra; cases hcontra⟩
      · subst hp
        have hfr : mm_free s 0 = s := rfl
        rw [hfr]
        refine ⟨hwf, ⟨hndH.erase _, ?_⟩, ?_⟩
        · intro q hq
          exact hmemH q (List.erase_subset _ _ hq)
        · intro hi
          rw [hinitH hi]
          rfl
    · by_cases hpz : p = 0
      · subst hpz
        have hre : mm_realloc s 0 n =
            ((mm_malloc s n).1, (mm_malloc s n).2, none) := by
          unfold mm_realloc
          rw [if_neg hn0, if_pos rfl]
        rw [hre]
        show Wf (mm_malloc s n).1 ∧
          handlesOK (mm_malloc s n).1 (rHandles H 0 (mm_malloc s n).2 n) ∧ _
        have hrh : rHandles H 0 (mm_malloc s n).2 n = pushH H (mm_malloc s n).2 := by
          unfold rHandles
          rw [if_neg hn0, if_pos rfl]
        rw [hrh]
        obtain ⟨h1, h2, h3, h4⟩ := alloc_step s H n hwf hndH hmemH hinitH hn
        exact ⟨h1, ⟨h3, h4⟩, fun hcontra => by rw [h2] at hcontra; cases hcontra⟩
      · have hpH : p ∈ H := hp.resolve_right hpz
        have hinit : s.initDone = true := by
          cases hi : s.initDone
          · rw [hinitH hi] at hpH
            cases hpH
          · rfl
        obtain ⟨h1, h2, h3, h4, h5⟩ := mm_malloc_wf s n hwf hinit hn
        have hre : mm_realloc s p n =
            (match (mm_malloc s n).2 with
             | none => ((mm_malloc s n).1, none, none)
             | some np =>
               (mm_free (mm_malloc s n).1 p, some np,
                some (if n < sizeAt (mm_malloc s n).1 p then n
                  else sizeAt (mm_malloc s n).1 p))) := by
          unfold mm_realloc
          rw [if_neg hn0, if_neg hpz]
        cases hrv : (mm_malloc s n).2 with
        | none =>
          rw [hre, hrv]
          dsimp only
          have hrh : rHandles H p none n = H := by
            unfold rHandles
            rw [if_neg hn0, if_neg hpz]
          rw [hrh]
          rw [h5 hrv]
          exact ⟨hwf, ⟨hndH, hmemH⟩, hinitH⟩
        | some np =>
          rw [hre, hrv]
          dsimp only
          have hrh : rHandles H p (some np) n = np :: H.erase p := by
            unfold rHandles
            rw [if_neg hn0, if_neg hpz]
          rw [hrh]
          have hnp := h4 np hrv
          have hpr : p ∈ allocAddrs (mm_malloc s n).1 := by
            obtain ⟨w, hw, hwal, hwaddr⟩ := (mem_allocAddrs s p).mp (hmemH p hpH)
            obtain ⟨w2, hw2, hw2a, hw2al, _⟩ := h3 w hw hwal
            exact (mem_allocAddrs _ p).mpr ⟨w2, hw2, hw2al, by rw [hw2a, hwaddr]⟩
          obtain ⟨w2, hw2, hw2al, hw2addr⟩ := (mem_allocAddrs _ p).mp hpr
          obtain ⟨X, Y, hXY⟩ := List.append_of_mem hw2
          obtain ⟨hf1, hf2, hf3⟩ := free_wf (mm_malloc s n).1 X Y w2 hXY h1 hw2al h2
          rw [hw2addr] at hf1 hf2 hf3
          have hnpp : np ≠ p := by
            intro hcontra
            exact hnp.2 (hcontra ▸ hmemH p hpH)
          refine ⟨hf1, ⟨?_, ?_⟩, fun hcontra => by rw [hf2] at hcontra; cases hcontra⟩
          · rw [List.nodup_cons]
            refine ⟨?_, hndH.erase _⟩
            intro hnpe
            exact hnp.2 (hmemH np (List.erase_subset _ _ hnpe))
          · intro q hq
            rcases List.mem_cons.mp hq with rfl | hq2
            · exact hf3 q hnp.1 hnpp
            · have hq3 := (List.Nodup.mem_erase_iff hndH).mp hq2
              have hq4 : q ∈ allocAddrs (mm_malloc s n).1 := by
                obtain ⟨w, hw, hwal, hwaddr⟩ := (mem_allocAddrs s q).mp (hmemH q hq3.2)
                obtain ⟨v2, hv2, hv2a, hv2al, _⟩ := h3 w hw hwal
                exact (mem_allocAddrs _ q).mpr ⟨v2, hv2, hv2al, by rw [hv2a, hwaddr]⟩
              exact hf3 q hq4 hq3.1

theorem setPvTrue_ls (s : St) (j : Nat) : (setPvTrue s j).ls = s.ls := by
  unfold setPvTrue
  cases s.blocks.get? j with
  | some d => rfl
  | none => rfl

theorem getCl_subset_joinLs (s : St) (hlen : s.ls.length = 15) (c : Nat)
    (hc : c ∈ classSeq) (a : Nat) (ha : a ∈ getCl s.ls c) : a ∈ joinLs s := by
  have hb := mem_classSeq_bound c hc
  have hi : c - 1 < s.ls.length := by omega
  have hd := flatten_decomp s.ls (c - 1) hi
  rw [getCl_eq_getD_default] at ha
  unfold joinLs
  exact hd.symm.subset (List.mem_append_left _ ha)

/-- C1, amended theorem.  Along every client sequence whose request sizes
satisfy `n + 12 ≤ 2^64` (so that the `size_t` size adjustment does not wrap)
and which releases only outstanding pointers, every reachable heap state
satisfies I4 — each block's prev-allocated bit equals the allocated bit of the
physically preceding block, the first block's being set (the prologue is
allocated) — and the epilogue's prev-allocated bit equals the allocated bit of
the last block. -/
theorem c1_prev_bit_invariant (s : St) (H : List Nat) (hr : Reach s H) :
    pvOk true s.blocks = true ∧ s.epiPv = endAl true s.blocks := by
  obtain ⟨hwf, _, _⟩ := reach_inv s H hr
  obtain ⟨_, _, _, _, hpv, hepi, _, _, _, _⟩ := wf_unpack s hwf
  exact ⟨hpv, hepi⟩

theorem c1_witness :
    pvOk true (mm_malloc (freshSt 4112) 24).1.blocks = true ∧
    (mm_malloc (freshSt 4112) 24).1.epiPv =
      endAl true (mm_malloc (freshSt 4112) 24).1.blocks :=
  c1_prev_bit_invariant (mm_malloc (freshSt 4112) 24).1
    (pushH [] (mm_malloc (freshSt 4112) 24).2)
    (Reach.alloc (freshSt 4112) [] 24 (Reach.start 4112 (by decide)) (by decide))

/-- C2, amended theorem.  Along every client sequence whose request sizes
satisfy `n + 12 ≤ 2^64` and which releases only outstanding pointers, every
reachable heap state satisfies I5: no two physically adjacent blocks are both
free (the guard bit preceding the first block is set, as the prologue is
allocated). -/
theorem c2_no_adjacent_free (s : St) (H : List Nat) (hr : Reach s H) :
    adjOk true s.blocks = true := by
  obtain ⟨hwf, _, _⟩ := reach_inv s H hr
  obtain ⟨_, _, _, _, _, _, hadj, _, _, _⟩ := wf_unpack s hwf
  exact hadj

theorem c2_witness :
    adjOk true (mm_free (mm_malloc (freshSt 4112) 24).1 16).blocks = true := by
  have h1 : Reach (mm_malloc (freshSt 4112) 24).1 (pushH [] (mm_malloc (freshSt 4112) 24).2) :=
    Reach.alloc (freshSt 4112) [] 24 (Reach.start 4112 (by decide)) (by decide)
  have h2 : pushH [] (mm_malloc (freshSt 4112) 24).2 = [16] := by decide
  rw [h2] at h1
  have h3 := Reach.release (mm_malloc (freshSt 4112) 24).1 [16] 16 h1 (by decide)
  exact c2_no_adjacent_free _ _ h3

/-- C3, amended theorem.  `place` passes the *request* size `asize` to
`deletex` (not the size under which `bp` was inserted); nevertheless, whenever
`bp` was obtained from `find_fit(asize)` on a well-formed heap, the cascade
still reaches the one class list holding `bp` — the guards that accepted the
lookup accept the removal — so `bp`'s unique listing is removed before any
header is rewritten.  After `place` returns, `bp` is on no free list provided
`asize < 120` and `asize ≠ 0`; for `asize ≥ 120` with a split the residual at
`bp` is re-inserted (see the counterexample). -/
theorem c3_removal_by_request (s : St) (asize p : Nat) (hwf : Wf s)
    (hff : find_fit s asize = some p) :
    p ∈ joinLs s ∧
    p ∉ joinLs (deletex s p asize) ∧
    (joinLs s).Perm (p :: joinLs (deletex s p asize)) ∧
    ∀ X Y b, s.blocks = X ++ b :: Y → b.addr = p → asize ≠ 0 → asize < 120 →
      p ∉ joinLs (place s p asize).1 := by
  obtain ⟨hlen, hch, hsz, hftr, hpv, hepi, hadj, hlisted, hfreeL0, hnd⟩ := wf_unpack s hwf
  have hsz1 : ∀ x ∈ s.blocks, 1 ≤ x.size := by
    intro x hx
    have := (sizesB_forall s.blocks).mp hsz x hx
    omega
  obtain ⟨c, hcmem, hclp, hpin, hple⟩ := find_fit_src s asize p hff
  have hothers := listed_unique s hnd hlen p c hcmem hpin
  have hdperm := joinLs_deletex s hlen p asize c hcmem hpin hclp hothers
  have hndd : (p :: joinLs (deletex s p asize)).Nodup := hdperm.nodup hnd
  have hnot : p ∉ joinLs (deletex s p asize) := (List.nodup_cons.mp hndd).1
  refine ⟨hdperm.symm.subset (List.mem_cons_self _ _), hnot, hdperm, ?_⟩
  intro X Y b hb hbaddr h0 h120
  subst hbaddr
  by_cases h16 : 16 ≤ b.size - asize
  · rw [place_case_head s X Y b asize hb hch hsz1 h16 h120 h0]
    intro hmem2
    have hlen2 : ({ deletex s b.addr asize with
        blocks := X ++ (⟨b.addr, asize, b.pv, true, none⟩ : Blk) ::
          (⟨b.addr + asize, b.size - asize, true, false,
            some ⟨b.size - asize, true, false⟩⟩ : Blk) :: Y } : St).ls.length = 15 := by
      show (deletex s b.addr asize).ls.length = 15
      rw [deletex_ls_length]
      exact hlen
    have hperm2 := joinLs_insertx ({ deletex s b.addr asize with
        blocks := X ++ (⟨b.addr, asize, b.pv, true, none⟩ : Blk) ::
          (⟨b.addr + asize, b.size - asize, true, false,
            some ⟨b.size - asize, true, false⟩⟩ : Blk) :: Y } : St) hlen2
      (b.addr + asize) (b.size - asize)
    have h3 := hperm2.subset hmem2
    rcases List.mem_cons.mp h3 with h4 | h4
    · omega
    · exact hnot h4
  · rw [place_case_whole s X Y b asize hb hch hsz1 h16]
    intro hmem2
    rw [show joinLs (setPvTrue ({ deletex s b.addr asize with
        blocks := X ++ (⟨b.addr, b.size, b.pv, true,
          some ⟨b.size, b.pv, true⟩⟩ : Blk) :: Y } : St) (X.length + 1)) =
        joinLs (deletex s b.addr asize) from by
      unfold joinLs
      rw [setPvTrue_ls]] at hmem2
    exact hnot hmem2

theorem c3_witness :
    (16 : Nat) ∈ joinLs (mm_init (freshSt 4112)) ∧
    (16 : Nat) ∉ joinLs (deletex (mm_init (freshSt 4112)) 16 24) ∧
    (joinLs (mm_init (freshSt 4112))).Perm
      (16 :: joinLs (deletex (mm_init (freshSt 4112)) 16 24)) ∧
    ∀ X Y b, (mm_init (freshSt 4112)).blocks = X ++ b :: Y → b.addr = 16 →
      (24 : Nat) ≠ 0 → (24 : Nat) < 120 →
      (16 : Nat) ∉ joinLs (place (mm_init (freshSt 4112)) 16 24).1 :=
  c3_removal_by_request (mm_init (freshSt 4112)) 24 16 (by decide) (by decide)

/-- C4: the three-way split policy of `place` on a block of stored size
`csize = b.size` for a request `asize ≤ csize`.  With `csize - asize ≥ 16` and
`asize < 120` the allocation is written at the head (`bp` returned, header
`(asize, prev preserved, alloc=1)`), the residual block
`(csize - asize, prev_alloc=1, alloc=0)` follows it and is inserted into its
class list; with `csize - asize ≥ 16` and `asize ≥ 120` the residual
`(csize - asize, prev preserved, alloc=0)` stays at the head with header and
footer written and is inserted, the allocation `(asize, prev_alloc=0, alloc=1)`
is written at `bp + (csize - asize)` and returned, and the downstream block's
prev-allocated bit is set (footer refreshed when free, the epilogue's bit when
last); with `csize - asize < 16` the whole block is handed out as
`(csize, prev preserved, alloc=1)`, `bp` is returned, and the downstream
prev-allocated bit is set likewise. -/
theorem c4_place_split_policy (s : St) (X Y : List Blk) (b : Blk) (asize : Nat)
    (hb : s.blocks = X ++ b :: Y) (hch : chainB 16 s.blocks = true)
    (hsz : ∀ x ∈ s.blocks, 1 ≤ x.size) (h0 : asize ≠ 0) :
    (16 ≤ b.size - asize → asize < 120 →
      place s b.addr asize =
        (insertx { deletex s b.addr asize with blocks := X ++ (⟨b.addr, asize, b.pv, true, none⟩ : Blk) :: (⟨b.addr + asize, b.size - asize, true, false, some ⟨b.size - asize, true, false⟩⟩ : Blk) :: Y } (b.addr + asize) (b.size - asize), b.addr)) ∧
    (16 ≤ b.size - asize → ¬ asize < 120 →
      place s b.addr asize =
        (setPvTrue (insertx { deletex s b.addr asize with blocks := X ++ (⟨b.addr, b.size - asize, b.pv, false, some ⟨b.size - asize, b.pv, false⟩⟩ : Blk) :: (⟨b.addr + (b.size - asize), asize, false, true, none⟩ : Blk) :: Y } b.addr (b.size - asize)) (X.length + 2), b.addr + (b.size - asize))) ∧
    (b.size - asize < 16 →
      place s b.addr asize =
        (setPvTrue { deletex s b.addr asize with blocks := X ++ (⟨b.addr, b.size, b.pv, true, some ⟨b.size, b.pv, true⟩⟩ : Blk) :: Y } (X.length + 1), b.addr)) :=
  ⟨fun h16 h120 => place_case_head s X Y b asize hb hch hsz h16 h120 h0,
   fun h16 h120 => place_case_tail s X Y b asize hb hch hsz h16 h120,
   fun h16 => place_case_whole s X Y b asize hb hch hsz (by omega)⟩

theorem c4_witness :
    (16 ≤ 4096 - 24 → 24 < 120 →
      place (mm_init (freshSt 4112)) 16 24 =
        (insertx { deletex (mm_init (freshSt 4112)) 16 24 with blocks := [] ++ (⟨16, 24, true, true, none⟩ : Blk) :: (⟨16 + 24, 4096 - 24, true, false, some ⟨4096 - 24, true, false⟩⟩ : Blk) :: [] } (16 + 24) (4096 - 24), 16)) ∧
    (16 ≤ 4096 - 24 → ¬ (24 : Nat) < 120 →
      place (mm_init (freshSt 4112)) 16 24 =
        (setPvTrue (insertx { deletex (mm_init (freshSt 4112)) 16 24 with blocks := [] ++ (⟨16, 4096 - 24, true, false, some ⟨4096 - 24, true, false⟩⟩ : Blk) :: (⟨16 + (4096 - 24), 24, false, true, none⟩ : Blk) :: [] } 16 (4096 - 24)) (List.length ([] : List Blk) + 2), 16 + (4096 - 24))) ∧
    ((4096 : Nat) - 24 < 16 →
      place (mm_init (freshSt 4112)) 16 24 =
        (setPvTrue { deletex (mm_init (freshSt 4112)) 16 24 with blocks := [] ++ (⟨16, 4096, true, true, some ⟨4096, true, true⟩⟩ : Blk) :: [] } (List.length ([] : List Blk) + 1), 16)) :=
  c4_place_split_policy (mm_init (freshSt 4112)) []
    [] (⟨16, 4096, true, false, some ⟨4096, true, false⟩⟩ : Blk) 24
    (by decide) (by decide) (by decide) (by decide)

/-- C6, amended theorem.  For an allocated block at `ptr` with stored header
size `sz` and a request `size > 0` (non-wrapping), `reallocate` on success
copies exactly `min(size, sz)` bytes — the bound is the full stored size, not
the stored size minus the 4-byte header — returns a fresh pointer heading an
allocated block, releases the original, and preserves well-formedness; when
the internal allocation fails it returns NULL with no copy and the heap state
unchanged. -/
theorem c6_realloc_copies_min_stored (s : St) (X Y : List Blk) (b : Blk) (n : Nat)
    (hb : s.blocks = X ++ b :: Y) (hwf : Wf s) (hinit : s.initDone = true)
    (hal : b.al = true) (hn0 : n ≠ 0) (hn : n + 12 ≤ 2 ^ 64) :
    (∀ np, (mm_realloc s b.addr n).2.1 = some np →
      (mm_realloc s b.addr n).2.2 = some (min n b.size) ∧
      np ∈ allocAddrs (mm_realloc s b.addr n).1 ∧
      Wf (mm_realloc s b.addr n).1) ∧
    ((mm_realloc s b.addr n).2.1 = none →
      (mm_realloc s b.addr n).1 = s ∧ (mm_realloc s b.addr n).2.2 = none) := by
  obtain ⟨hlen, hch, hsz, _, _, _, _, _, _, _⟩ := wf_unpack s hwf
  have hp0 : ¬ b.addr = 0 := by
    have := chain_mem_ge 16 s.blocks hch b (by rw [hb]; simp)
    omega
  obtain ⟨h1, h2, h3, h4, h5⟩ := mm_malloc_wf s n hwf hinit hn
  have hre : mm_realloc s b.addr n =
      (match (mm_malloc s n).2 with
       | none => ((mm_malloc s n).1, none, none)
       | some np =>
         (mm_free (mm_malloc s n).1 b.addr, some np,
          some (if n < sizeAt (mm_malloc s n).1 b.addr then n
            else sizeAt (mm_malloc s n).1 b.addr))) := by
    unfold mm_realloc
    rw [if_neg hn0, if_neg hp0]
  cases hrv : (mm_malloc s n).2 with
  | none =>
    rw [hre, hrv]
    refine ⟨?_, ?_⟩
    · intro np hnp
      cases hnp
    · intro _
      exact ⟨h5 hrv, rfl⟩
  | some np0 =>
    rw [hre, hrv]
    dsimp only
    obtain ⟨w2, hw2, hw2a, hw2al, hw2s⟩ := h3 b (by rw [hb]; simp) hal
    obtain ⟨X2, Y2, hXY2⟩ := List.append_of_mem hw2
    obtain ⟨hlen1, hch1, hsz1', _, _, _, _, _, _, _⟩ := wf_unpack _ h1
    have hszz : ∀ x ∈ (mm_malloc s n).1.blocks, 1 ≤ x.size := by
      intro x hx
      have := (sizesB_forall _).mp hsz1' x hx
      omega
    have hsa : sizeAt (mm_malloc s n).1 w2.addr = w2.size :=
      sizeAt_resolve _ X2 Y2 w2 hXY2 hch1 hszz
    rw [hw2a] at hsa
    have hcopied : (if n < sizeAt (mm_malloc s n).1 b.addr then n
        else sizeAt (mm_malloc s n).1 b.addr) = min n b.size := by
      rw [hsa, hw2s]
      split <;> omega
    obtain ⟨hf1, hf2, hf3⟩ := free_wf (mm_malloc s n).1 X2 Y2 w2 hXY2 h1 hw2al h2
    rw [hw2a] at hf1 hf3
    refine ⟨?_, ?_⟩
    · intro np hnp
      have hnpeq : np0 = np := by injection hnp
      subst hnpeq
      refine ⟨by rw [hcopied], ?_, hf1⟩
      have hnpA := h4 np0 hrv
      have hbA : b.addr ∈ allocAddrs s :=
        (mem_allocAddrs s _).mpr ⟨b, by rw [hb]; simp, hal, rfl⟩
      have hne : np0 ≠ b.addr := fun hcontra => hnpA.2 (hcontra ▸ hbA)
      exact hf3 np0 hnpA.1 hne
    · intro hcontra
      cases hcontra

theorem c6_witness :
    (∀ np, (mm_realloc (mm_malloc (freshSt 4112) 10).1 16 14).2.1 = some np →
      (mm_realloc (mm_malloc (freshSt 4112) 10).1 16 14).2.2 = some (min 14 16) ∧
      np ∈ allocAddrs (mm_realloc (mm_malloc (freshSt 4112) 10).1 16 14).1 ∧
      Wf (mm_realloc (mm_malloc (freshSt 4112) 10).1 16 14).1) ∧
    ((mm_realloc (mm_malloc (freshSt 4112) 10).1 16 14).2.1 = none →
      (mm_realloc (mm_malloc (freshSt 4112) 10).1 16 14).1 =
        (mm_malloc (freshSt 4112) 10).1 ∧
      (mm_realloc (mm_malloc (freshSt 4112) 10).1 16 14).2.2 = none) :=
  c6_realloc_copies_min_stored (mm_malloc (freshSt 4112) 10).1 []
    [⟨32, 4080, true, false, some ⟨4080, true, false⟩⟩]
    (⟨16, 16, true, true, none⟩ : Blk) 14 (by decide) (by decide) (by decide)
    (by decide) (by decide) (by decide)

theorem chain_addr_mod8 (a : Nat) (bs : List Blk) (hch : chainB a bs = true)
    (ha : a % 8 = 0) (hsz : ∀ x ∈ bs, x.size % 8 = 0) :
    ∀ x ∈ bs, x.addr % 8 = 0 := by
  induction bs generalizing a with
  | nil =>
    intro x hx
    cases hx
  | cons y ys ih =>
    simp only [chainB, Bool.and_eq_true, decide_eq_true_eq] at hch
    intro x hx
    rcases List.mem_cons.mp hx with heq | hx2
    · rw [heq, hch.1]
      exact ha
    · refine ih (a + y.size) hch.2 ?_ (fun z hz => hsz z (List.mem_cons_of_mem _ hz)) x hx2
      have := hsz y (by simp)
      omega

theorem chain_addr_nodup (a : Nat) (bs : List Blk) (hch : chainB a bs = true)
    (hsz : ∀ x ∈ bs, 1 ≤ x.size) :
    (bs.map Blk.addr).Nodup := by
  induction bs generalizing a with
  | nil => exact List.nodup_nil
  | cons y ys ih =>
    simp only [chainB, Bool.and_eq_true, decide_eq_true_eq] at hch
    rw [List.map_cons, List.nodup_cons]
    constructor
    · intro hmem
      obtain ⟨z, hz, hza⟩ := List.mem_map.mp hmem
      have h1 := chain_mem_ge (a + y.size) ys hch.2 z hz
      have h2 := hsz y (by simp)
      have h3 := hch.1
      omega
    · exact ih (a + y.size) hch.2 (fun z hz => hsz z (List.mem_cons_of_mem _ hz))

/-- The block walk of the checker completes and counts exactly the free
blocks, on any block sequence satisfying alignment, positive sizes, the
adjacency invariant and the footer invariant, when `lineno` is nonzero. -/
theorem walkGo_run (lineno : Nat) (hl : lineno ≠ 0) (bs : List Blk) (mark : Bool)
    (cnt : Nat)
    (hadj : adjOk mark bs = true)
    (hsz : ∀ x ∈ bs, 1 ≤ x.size)
    (hmod : ∀ x ∈ bs, x.addr % 8 = 0)
    (hftr : ∀ x ∈ bs, x.al = false → x.ftr = some ⟨x.size, x.pv, false⟩) :
    walkGo lineno bs mark cnt = ⟨true, cnt + (bs.filter fun x => !x.al).length⟩ := by
  induction bs generalizing mark cnt with
  | nil =>
    show (⟨true, cnt⟩ : ChkRes) = ⟨true, cnt + (List.filter _ []).length⟩
    simp
  | cons y ys ih =>
    unfold walkGo
    rw [if_neg (by have := hmod y (by simp); omega),
      if_neg (by have := hsz y (by simp); omega), if_pos hl]
    simp only [adjOk, Bool.and_eq_true, Bool.or_eq_true] at hadj
    by_cases hya : y.al = true
    · rw [if_pos hya]
      rw [ih true cnt (by have h2 := hadj.2; rw [hya] at h2; exact h2)
        (fun z hz => hsz z (List.mem_cons_of_mem _ hz))
        (fun z hz => hmod z (List.mem_cons_of_mem _ hz))
        (fun z hz => hftr z (List.mem_cons_of_mem _ hz))]
      rw [List.filter_cons_of_neg (by simp [hya])]
    · have hyf : y.al = false := by revert hya; cases y.al <;> simp
      rw [if_neg hya]
      have hmark : mark = true := by
        rcases hadj.1 with h | h
        · exact h
        · rw [hyf] at h
          cases h
      rw [hmark]
      rw [if_neg (by simp)]
      rw [if_neg (by have := hftr y (by simp) hyf; simp [this])]
      rw [ih false (cnt + 1) (by have h2 := hadj.2; rw [hyf] at h2; exact h2)
        (fun z hz => hsz z (List.mem_cons_of_mem _ hz))
        (fun z hz => hmod z (List.mem_cons_of_mem _ hz))
        (fun z hz => hftr z (List.mem_cons_of_mem _ hz))]
      rw [List.filter_cons_of_pos (by simp [hyf])]
      rw [List.length_cons]
      congr 1
      omega

theorem sum_getCl (ls : List (List Nat)) (h : ls.length = 15) :
    (classSeq.map fun c => (getCl ls c).length).sum = ls.flatten.length := by
  rcases ls with _ | ⟨l1, ls⟩
  · simp only [List.length_cons, List.length_nil] at h
    omega
  rcases ls with _ | ⟨l2, ls⟩
  · simp only [List.length_cons, List.length_nil] at h
    omega
  rcases ls with _ | ⟨l3, ls⟩
  · simp only [List.length_cons, List.length_nil] at h
    omega
  rcases ls with _ | ⟨l4, ls⟩
  · simp only [List.length_cons, List.length_nil] at h
    omega
  rcases ls with _ | ⟨l5, ls⟩
  · simp only [List.length_cons, List.length_nil] at h
    omega
  rcases ls with _ | ⟨l6, ls⟩
  · simp only [List.length_cons, List.length_nil] at h
    omega
  rcases ls with _ | ⟨l7, ls⟩
  · simp only [List.length_cons, List.length_nil] at h
    omega
  rcases ls with _ | ⟨l8, ls⟩
  · simp only [List.length_cons, List.length_nil] at h
    omega
  rcases ls with _ | ⟨l9, ls⟩
  · simp only [List.length_cons, List.length_nil] at h
    omega
  rcases ls with _ | ⟨l10, ls⟩
  · simp only [List.length_cons, List.length_nil] at h
    omega
  rcases ls with _ | ⟨l11, ls⟩
  · simp only [List.length_cons, List.length_nil] at h
    omega
  rcases ls with _ | ⟨l12, ls⟩
  · simp only [List.length_cons, List.length_nil] at h
    omega
  rcases ls with _ | ⟨l13, ls⟩
  · simp only [List.length_cons, List.length_nil] at h
    omega
  rcases ls with _ | ⟨l14, ls⟩
  · simp only [List.length_cons, List.length_nil] at h
    omega
  rcases ls with _ | ⟨l15, ls⟩
  · simp only [List.length_cons, List.length_nil] at h
    omega
  rcases ls with _ | ⟨l16, ls⟩
  · simp [classSeq, getCl]
  · simp only [List.length_cons] at h
    omega

/-- C9, amended theorem.  On every heap state satisfying the full invariant
I1–I8, the checker invoked with a *nonzero* verbosity argument runs to
completion without aborting: the block walk succeeds, every list member lies
inside the heap, and the free-block count of the walk — maintained only when
`lineno ≠ 0` — equals the total membership of the fifteen lists.  (With
`lineno = 0` the walk count stays 0 and the checker aborts on any heap with a
free block; see the counterexample.) -/
theorem c9_checkheap_completes (s : St) (lineno : Nat) (hwf : Wf s)
    (hl : lineno ≠ 0) :
    mm_checkheap s lineno = true := by
  obtain ⟨hlen, hch, hsz, hftr, hpv, hepi, hadj, hlisted, hfreeL0, hnd⟩ := wf_unpack s hwf
  have hfreeLf := (freeListedB_forall s).mp hfreeL0
  have hsz1 : ∀ x ∈ s.blocks, 1 ≤ x.size := by
    intro x hx
    have := (sizesB_forall s.blocks).mp hsz x hx
    omega
  have hszf := (sizesB_forall s.blocks).mp hsz
  have hmod := chain_addr_mod8 16 s.blocks hch (by omega) (fun x hx => (hszf x hx).2)
  have hftrf := (ftrB_forall s.blocks).mp hftr
  have hw : walkGo lineno (prologue :: s.blocks) true 0 =
      ⟨true, 0 + (s.blocks.filter fun x => !x.al).length⟩ := by
    unfold walkGo
    rw [if_neg (by decide), if_neg (by decide), if_pos hl,
      if_pos (show prologue.al = true from rfl)]
    exact walkGo_run lineno hl s.blocks true 0 hadj hsz1 hmod hftrf
  have hinH : (classSeq.all fun c => (getCl s.ls c).all fun a => inHeap s a) = true := by
    rw [List.all_eq_true]
    intro c hc
    rw [List.all_eq_true]
    intro a ha
    have hj := getCl_subset_joinLs s hlen c hc a ha
    obtain ⟨w, hw2, hwa, hwal⟩ := listed_block s hlen hlisted a hj
    have h1 := mem_addr_lt_afterAddr 16 s.blocks hch hsz1 w hw2
    unfold inHeap
    rw [heapTop_eq s hch]
    simp only [decide_eq_true_eq]
    omega
  have hfN : ((s.blocks.filter fun x => !x.al).map Blk.addr).Nodup := by
    have h1 := chain_addr_nodup 16 s.blocks hch hsz1
    have hsub : List.Sublist ((s.blocks.filter fun x => !x.al).map Blk.addr)
        (s.blocks.map Blk.addr) :=
      List.Sublist.map Blk.addr (List.filter_sublist s.blocks)
    exact List.Sublist.nodup hsub h1
  have hmemEq : ∀ a, a ∈ (s.blocks.filter fun x => !x.al).map Blk.addr ↔
      a ∈ joinLs s := by
    intro a
    constructor
    · intro h
      obtain ⟨w, hwmem, hwa⟩ := List.mem_map.mp h
      rw [List.mem_filter] at hwmem
      have hwal : w.al = false := by simpa using hwmem.2
      have h2 := hfreeLf w hwmem.1 hwal
      rw [← hwa]
      exact getCl_subset_joinLs s hlen _ (classOf_mem _) w.addr h2
    · intro h
      obtain ⟨w, hwmem, hwa, hwal⟩ := listed_block s hlen hlisted a h
      exact List.mem_map.mpr ⟨w, List.mem_filter.mpr ⟨hwmem, by simp [hwal]⟩, hwa⟩
  have hperm : ((s.blocks.filter fun x => !x.al).map Blk.addr).Perm (joinLs s) :=
    List.Subperm.antisymm
      (hfN.subperm fun a ha => (hmemEq a).mp ha)
      (hnd.subperm fun a ha => (hmemEq a).mpr ha)
  have hlenEq : (s.blocks.filter fun x => !x.al).length = (joinLs s).length := by
    have h2 := hperm.length_eq
    rw [List.length_map] at h2
    exact h2
  unfold mm_checkheap
  rw [hw]
  dsimp only
  rw [if_neg (by simp)]
  rw [hinH]
  rw [if_neg (by simp)]
  rw [decide_eq_true_eq]
  rw [sum_getCl s.ls hlen]
  show 0 + (s.blocks.filter fun x => !x.al).length = (joinLs s).length
  omega

theorem c9_witness : mm_checkheap (mm_init (freshSt 4112)) 163 = true :=
  c9_checkheap_completes (mm_init (freshSt 4112)) 163 (by decide) (by decide)

end MM
